import Mathlib

/-!
# Huffman file compression: the priority queue and the codec

A verification development for `priorityqueue.h` and `util.h`.

The C++ priority queue is a pointer structure (a binary search tree keyed by
priority whose nodes carry a chain of duplicates and a parent back-reference).
It is embedded here over an explicit heap: an address is a natural number, a
pointer is an `Option Nat` (`none` is `nullptr`), `new` takes the next unused
address and `delete` empties the cell.  Every operation returns an `Option`;
`none` stands for undefined behaviour of the C++ program (reading through a null
or released pointer) or for a loop that did not finish within its fuel.  The
fuel handed to every loop is one more than the number of cells ever allocated,
which bounds the length of any path through distinct nodes.

Priorities are C++ `int`s that the queue only compares; they are embedded as
`Int`.  The counter `int size` is incremented and decremented, and every such
result is wrapped to 32 bits (`wrap32`).  The local `T valueOut;` that `dequeue`
and `peek` return on an empty queue is whatever that declaration leaves in it
(`DefaultInit`): the default-constructed value of a class type (the empty
string), nothing definite for a scalar or pointer type such as `HuffmanNode*`,
where returning the local is undefined behaviour.  The theorems on sequences of
calls that may hold a `dequeue` on the empty queue are stated for class types
(`ClassType`); `dequeue_earliest_minimum_guarded` states the order of `dequeue`
for every value type and the sequences without such a call.
-/

namespace PQ

/-- The queue node of `priorityqueue.h`: `struct NODE`. -/
structure NODE (T : Type) where
  priority : Int
  value : T
  dup : Bool
  parent : Option Nat
  link : Option Nat
  left : Option Nat
  right : Option Nat

/-- The free store: the cell at every address (`none`: never allocated, or
released) and the next unused address. -/
structure Heap (T : Type) where
  cells : Nat → Option (NODE T)
  next : Nat

variable {T : Type}

/-- The free store before any allocation. -/
def Heap.empty : Heap T := ⟨fun _ => none, 0⟩

/-- Store a node at an address. -/
def Heap.write (h : Heap T) (a : Nat) (n : NODE T) : Heap T :=
  ⟨fun x => if x = a then some n else h.cells x, h.next⟩

/-- The C++ `new NODE`: a node at the next unused address. -/
def Heap.alloc (h : Heap T) (n : NODE T) : Nat × Heap T :=
  (h.next, ⟨fun x => if x = h.next then some n else h.cells x, h.next + 1⟩)

/-- An assignment to a field of the node at `a`; undefined when `a` is not live. -/
def Heap.modify (h : Heap T) (a : Nat) (f : NODE T → NODE T) : Option (Heap T) :=
  match h.cells a with
  | none => none
  | some n => some (h.write a (f n))

/-- The C++ `delete`; undefined when the cell is not live. -/
def Heap.delete (h : Heap T) (a : Nat) : Option (Heap T) :=
  match h.cells a with
  | none => none
  | some _ => some ⟨fun x => if x = a then none else h.cells x, h.next⟩

/-- The fuel of every loop over the nodes of a heap. -/
def Heap.fuel (h : Heap T) : Nat := h.next + 1

/-- The value of an `int` expression: the two's-complement wrap to 32 bits. -/
def wrap32 (x : Int) : Int := (x + 2147483648) % 4294967296 - 2147483648

/-- What the declaration `T valueOut;` of `dequeue` and `peek` leaves in the
local: for a class type the value built by its default constructor (`some v`);
a scalar or pointer type is left uninitialised (`none`), and to return the local
before it is assigned is then undefined behaviour. -/
class DefaultInit (T : Type) where
  valueOut : Option T

/-- A value type with a default constructor whose value is `default` (for
`std::string` the empty string). -/
class ClassType (T : Type) [Inhabited T] extends DefaultInit T where
  constructed : valueOut = some default

/-- The type `std::string`: `T valueOut;` is the empty string. -/
instance instClassTypeString : ClassType String where
  valueOut := some ""
  constructed := rfl

end PQ

/-- The data members of `class priorityqueue`: `root`, `size`, `curr`. -/
structure priorityqueue where
  root : Option Nat
  size : Int
  curr : Option Nat
deriving DecidableEq

namespace priorityqueue

open PQ

variable {T : Type}

/-- The default constructor. -/
def new : priorityqueue := ⟨none, 0, none⟩

/-- The helper `_traverseLeft(root)`: sets `curr` to every node on the way down
the left spine; the result is the final `curr`. -/
def _traverseLeft (h : Heap T) : Nat → Option Nat → Option Nat → Option (Option Nat)
  | _, none, curr => some curr
  | 0, some _, _ => none
  | fuel + 1, some a, _ =>
    match h.cells a with
    | none => none
    | some n => _traverseLeft h fuel n.left (some a)

/-- The inner loop of `enqueue`: `while (cur->link != nullptr) cur = cur->link;`. -/
def chainEnd (h : Heap T) : Nat → Nat → Option Nat
  | 0, _ => none
  | fuel + 1, cur =>
    match h.cells cur with
    | none => none
    | some n =>
      match n.link with
      | none => some cur
      | some l => chainEnd h fuel l

/-- The body of `enqueue` after the node `newNode` has been created: the descent
`while (cur != nullptr)` with its duplicate branch, and the code after the loop
that hangs the node under `prev`. -/
def enqueueWalk (newNode : Nat) (priority : Int) (fuel0 : Nat) :
    Nat → Heap T → Option Nat → Option Nat → Option (Heap T)
  | _, h, none, prev =>
    match prev with
    | none => none
    | some p =>
      match h.cells p with
      | none => none
      | some pn =>
        if priority < pn.priority then
          (h.modify newNode (fun n => { n with parent := some p })).bind
            (fun h1 => h1.modify p (fun n => { n with left := some newNode }))
        else if priority > pn.priority then
          (h.modify newNode (fun n => { n with parent := some p })).bind
            (fun h1 => h1.modify p (fun n => { n with right := some newNode }))
        else some h
  | 0, _, some _, _ => none
  | fuel + 1, h, some cur, _ =>
    match h.cells cur with
    | none => none
    | some c =>
      if priority > c.priority then enqueueWalk newNode priority fuel0 fuel h c.right (some cur)
      else if priority < c.priority then enqueueWalk newNode priority fuel0 fuel h c.left (some cur)
      else
        (h.modify newNode (fun n => { n with dup := true })).bind (fun h1 =>
          match h1.cells cur with
          | none => none
          | some c1 =>
            if c1.link = none then
              (h1.modify cur (fun n => { n with link := some newNode })).bind
                (fun h2 => h2.modify newNode (fun n => { n with parent := some cur }))
            else
              (chainEnd h1 fuel0 cur).bind (fun e =>
                (h1.modify e (fun n => { n with link := some newNode })).bind
                  (fun h2 => h2.modify newNode (fun n => { n with parent := some e }))))

/-- The method `enqueue(value, priority)`. -/
def enqueue (h : Heap T) (q : priorityqueue) (value : T) (priority : Int) :
    Option (Heap T × priorityqueue) :=
  let a := h.alloc ⟨priority, value, false, none, none, none, none⟩
  match q.root with
  | none => some (a.2, { q with root := some a.1, size := wrap32 (q.size + 1) })
  | some r =>
    (enqueueWalk a.1 priority a.2.fuel a.2.fuel a.2 (some r) none).map
      (fun h1 => (h1, { q with size := wrap32 (q.size + 1) }))

/-- The helper `_recursiveClear(node)`: releases the left subtree, the right
subtree, the chain and the node, decrementing `size` for every node. -/
def _recursiveClear : Nat → Heap T → Int → Option Nat → Option (Heap T × Int)
  | _, h, size, none => some (h, size)
  | 0, _, _, some _ => none
  | fuel + 1, h, size, some a =>
    match h.cells a with
    | none => none
    | some n =>
      (_recursiveClear fuel h size n.left).bind (fun r1 =>
        match r1.1.cells a with
        | none => none
        | some n1 =>
          (_recursiveClear fuel r1.1 r1.2 n1.right).bind (fun r2 =>
            match r2.1.cells a with
            | none => none
            | some n2 =>
              (_recursiveClear fuel r2.1 r2.2 n2.link).bind (fun r3 =>
                (r3.1.delete a).map (fun h4 => (h4, wrap32 (r3.2 - 1))))))

/-- The method `clear()`. -/
def clear (h : Heap T) (q : priorityqueue) : Option (Heap T × priorityqueue) :=
  (_recursiveClear h.fuel h q.size q.root).map
    (fun r => (r.1, { root := none, size := r.2, curr := none }))

/-- The first part of `dequeue` and of `peek`: the node `cur` holding the next
value, and `curr` as `_traverseLeft` leaves it. -/
def findMin (h : Heap T) (q : priorityqueue) (r : Nat) : Option (Nat × Option Nat) :=
  match h.cells r with
  | none => none
  | some rn =>
    match rn.left with
    | none => some (r, q.curr)
    | some l =>
      match _traverseLeft h h.fuel (some l) q.curr with
      | some (some c) => some (c, some c)
      | _ => none

/-- The second part of `dequeue` for a node with a duplicate: the relinking of the
chain head `cur->link` into the place of `cur`.  The result is the heap and
the root. -/
def relinkDup (h : Heap T) (root : Option Nat) (cur : Nat) : Option (Heap T × Option Nat) :=
  match h.cells cur with
  | none => none
  | some c =>
    match c.parent with
    | some par =>
      match h.cells par with
      | none => none
      | some pn =>
        ((if pn.left = some cur then
            (h.modify par (fun n => { n with left := c.link })).bind (fun h1 =>
              match h1.cells cur with
              | none => none
              | some c1 =>
                match c1.link with
                | none => none
                | some lk => h1.modify lk (fun n => { n with parent := c1.parent }))
          else some h).bind (fun h2 =>
            match h2.cells cur with
            | none => none
            | some c2 =>
              match c2.link with
              | none => none
              | some lk =>
                (h2.modify lk (fun n => { n with left := c2.left })).bind (fun h3 =>
                  match h3.cells cur with
                  | none => none
                  | some c3 =>
                    match c3.link with
                    | none => none
                    | some lk3 => h3.modify lk3 (fun n => { n with right := c3.right })))).map
          (fun h4 => (h4, root))
    | none =>
      match c.link with
      | none => none
      | some rt =>
        (h.modify rt (fun n => { n with right := c.right })).bind (fun h1 =>
          match h1.cells cur with
          | none => none
          | some c1 =>
            (h1.modify rt (fun n => { n with left := c1.left })).bind (fun h2 =>
              match h2.cells cur with
              | none => none
              | some c2 =>
                (h2.modify rt (fun n => { n with parent := c2.parent })).map
                  (fun h3 => (h3, some rt))))

/-- The second part of `dequeue` for a node without a duplicate that has a right
child.  The result is the heap and the root. -/
def relinkRight (h : Heap T) (root : Option Nat) (cur : Nat) : Option (Heap T × Option Nat) :=
  match h.cells cur with
  | none => none
  | some c =>
    match c.parent with
    | some par =>
      match h.cells par with
      | none => none
      | some pn =>
        if pn.left = some cur then
          (h.modify par (fun n => { n with left := c.right })).bind (fun h1 =>
            match h1.cells cur with
            | none => none
            | some c1 =>
              match c1.right with
              | none => none
              | some rc =>
                (h1.modify rc (fun n => { n with parent := c1.parent })).map
                  (fun h2 => (h2, root)))
        else some (h, root)
    | none =>
      match c.right with
      | none => none
      | some rt =>
        (h.modify rt (fun n => { n with parent := none })).map (fun h1 => (h1, some rt))

/-- The method `dequeue()`.  On an empty queue it returns the local `valueOut`
as its declaration left it. -/
def dequeue [DefaultInit T] (h : Heap T) (q : priorityqueue) :
    Option (T × Heap T × priorityqueue) :=
  match q.root with
  | none => (DefaultInit.valueOut : Option T).map (fun valueOut => (valueOut, h, q))
  | some r =>
    (findMin h q r).bind (fun m =>
      let cur := m.1
      match h.cells cur with
      | none => none
      | some c =>
        let valueOut := c.value
        let finish := fun (hr : Heap T × Option Nat) =>
          (hr.1.delete cur).map
            (fun h5 => (valueOut, h5, ({ root := hr.2, size := wrap32 (q.size - 1), curr := none } : priorityqueue)))
        if c.link ≠ none then (relinkDup h q.root cur).bind finish
        else if c.right ≠ none then (relinkRight h q.root cur).bind finish
        else
          match c.parent with
          | some par =>
            (h.modify par (fun n => { n with left := none })).bind
              (fun h1 => finish (h1, q.root))
          | none =>
            (clear h { q with curr := m.2 }).map (fun r1 => (valueOut, r1.1, r1.2)))

/-- The method `Size()`. -/
def Size (q : priorityqueue) : Int := q.size

/-- The method `begin()`. -/
def begin (h : Heap T) (q : priorityqueue) : Option priorityqueue :=
  (_traverseLeft h h.fuel q.root none).map (fun c => { q with curr := c })

/-- The loop `while (curr->dup) curr = curr->parent;` of `next`. -/
def dupClimb (h : Heap T) : Nat → Option Nat → Option Nat
  | 0, _ => none
  | _ + 1, none => none
  | fuel + 1, some c =>
    match h.cells c with
    | none => none
    | some n => if n.dup then dupClimb h fuel n.parent else some c

/-- The loop `while (curr->left != oldCurr)` of `next`; the result `none`
inside the option is the exit `return false` with `curr` null. -/
def climb (h : Heap T) : Nat → Nat → Option Nat → Option (Option Nat)
  | 0, _, _ => none
  | fuel + 1, curr, oldCurr =>
    match h.cells curr with
    | none => none
    | some n =>
      if n.left ≠ oldCurr then
        match n.parent with
        | none => some none
        | some p => climb h fuel p (some curr)
      else some (some curr)

/-- What a call of `next` hands back: the returned flag and what it stored
through the reference parameters (`none` when it stored nothing). -/
structure NextResult (T : Type) where
  flag : Bool
  delivered : Option (T × Int)
  queue : priorityqueue

/-- The method `next(value, priority)`. -/
def next (h : Heap T) (q : priorityqueue) : Option (NextResult T) :=
  match q.curr with
  | none => some ⟨false, none, q⟩
  | some c0 =>
    match h.cells c0 with
    | none => none
    | some n0 =>
      let out := some (n0.value, n0.priority)
      match n0.link with
      | some l => some ⟨true, out, { q with curr := some l }⟩
      | none =>
        (dupClimb h h.fuel (some c0)).bind (fun c =>
          match h.cells c with
          | none => none
          | some n =>
            if n.parent = none ∧ n.left = none ∧ n.right = none then
              some ⟨false, out, { q with curr := none }⟩
            else if n.right ≠ none then
              (_traverseLeft h h.fuel n.right n.right).map
                (fun cu => ⟨true, out, { q with curr := cu }⟩)
            else if n.parent ≠ none then
              (climb h h.fuel c (some c)).map (fun r =>
                match r with
                | none => ⟨false, out, { q with curr := none }⟩
                | some x => ⟨true, out, { q with curr := some x }⟩)
            else some ⟨true, out, { q with curr := none }⟩)

/-- The method `peek()`.  On an empty queue it returns the local `valueOut` as
its declaration left it. -/
def peek [DefaultInit T] (h : Heap T) (q : priorityqueue) : Option (T × priorityqueue) :=
  match q.root with
  | none => (DefaultInit.valueOut : Option T).map (fun valueOut => (valueOut, q))
  | some r =>
    (findMin h q r).bind (fun m =>
      match h.cells m.1 with
      | none => none
      | some c => some (c.value, { q with curr := m.2 }))

end priorityqueue

open PQ priorityqueue

/-!
## The codec of `util.h`

A `HuffmanNode*` is embedded as a value of the inductive type `HuffmanNode`
(the nodes are never changed once they are linked).  A string of the characters
`0` and `1` is embedded as a `List Bool` (`false` for `0`).  A `char` is a signed
8-bit integer, as on the targets where the reading loops of `util.h` end at the
end of the file; an `int` sum wraps at 32 bits.
-/

namespace Huffman

/-- The constants of `bitstream.h`, which is not among the sources: the
end-of-stream symbol and the marker of a node that is no leaf. -/
structure Consts where
  PSEUDO_EOF : Int
  NOT_A_CHAR : Int

/-- The constants as the course library defines them. -/
def stdConsts : Consts := ⟨256, 257⟩

/-- The value `EOF` of the C library. -/
def EOF : Int := -1

/-- The conversion of an `int` to `char`. -/
def toChar (x : Int) : Int := (x + 128) % 256 - 128

/-- The `struct HuffmanNode` behind a pointer; `nullptr` is the null pointer. -/
inductive HuffmanNode where
  | nullptr : HuffmanNode
  | node (character : Int) (count : Int) (zero one : HuffmanNode) : HuffmanNode
deriving DecidableEq

/-- The value type `HuffmanNode*` of the queue of `buildEncodingTree` is a
pointer type: the declaration `T valueOut;` leaves the local uninitialised. -/
instance instDefaultInitHuffmanNode : DefaultInit HuffmanNode := ⟨none⟩

/-- Modelled from the spec: the frequency table (`hashmap.h` is not among the
sources), a table from symbol to count with `containsKey`, `get`, `put` and
`keys`.  The entries are kept in the order in which `keys` lists them. -/
structure hashmapF where
  entries : List (Int × Int)
deriving DecidableEq

/-- Modelled from the spec: `containsKey` of the frequency table. -/
def hashmapF.containsKey (m : hashmapF) (key : Int) : Bool :=
  m.entries.any (fun e => decide (e.1 = key))

/-- Modelled from the spec: `get` of the frequency table. -/
def hashmapF.get (m : hashmapF) (key : Int) : Int :=
  match m.entries.find? (fun e => decide (e.1 = key)) with
  | some e => e.2
  | none => 0

/-- Modelled from the spec: `put` of the frequency table. -/
def hashmapF.put (m : hashmapF) (key value : Int) : hashmapF :=
  if m.containsKey key then
    ⟨m.entries.map (fun e => if e.1 = key then (key, value) else e)⟩
  else ⟨m.entries ++ [(key, value)]⟩

/-- Modelled from the spec: `keys` of the frequency table. -/
def hashmapF.keys (m : hashmapF) : List Int := m.entries.map Prod.fst

/-- The encoding map `unordered_map<int, string>`. -/
def hashmapE : Type := Int → Option (List Bool)

/-- The empty encoding map. -/
def hashmapE.empty : hashmapE := fun _ => none

/-- The assignment `encodingMap[key] = str`. -/
def hashmapE.set (m : hashmapE) (key : Int) (str : List Bool) : hashmapE :=
  fun x => if x = key then some str else m x

/-- The value of `encodingMap[key]` in an expression: the empty string when
the key is absent. -/
def hashmapE.lookup (m : hashmapE) (key : Int) : List Bool := (m key).getD []

/-- The helper `_buildFrequencyMap(c, map)`. -/
def _buildFrequencyMap (c : Int) (map : hashmapF) : hashmapF :=
  if map.containsKey c then map.put c (wrap32 (map.get c + 1)) else map.put c 1

/-- The reading loop of `buildFrequencyMap` for a file: it ends at the end of
the file or at a byte that reads as the `char` equal to `EOF`. -/
def readFrequencies : List (Fin 256) → hashmapF → hashmapF
  | [], map => map
  | b :: rest, map =>
    if toChar b.val = EOF then map
    else readFrequencies rest (_buildFrequencyMap (toChar b.val) map)

/-- The loop of `buildFrequencyMap` over the characters of a string; its index is
an `unsigned int`, which reaches every character of a string shorter than 2^32. -/
def countString : List (Fin 256) → hashmapF → hashmapF
  | [], map => map
  | b :: rest, map => countString rest (_buildFrequencyMap (toChar b.val) map)

/-- The function `buildFrequencyMap(filename, isFile, map)`; `data` is the
content of the file, or the string itself. -/
def buildFrequencyMap (k : Consts) (data : List (Fin 256)) (isFile : Bool) (map : hashmapF) :
    hashmapF :=
  (if isFile then readFrequencies data map else countString data map).put k.PSEUDO_EOF 1

/-- The first loop of `buildEncodingTree`: a leaf for every key. -/
def enqueueLeaves (map : hashmapF) :
    List Int → Heap HuffmanNode → priorityqueue → Option (Heap HuffmanNode × priorityqueue)
  | [], h, q => some (h, q)
  | key :: keys, h, q =>
    (enqueue h q (.node key (map.get key) .nullptr .nullptr) (map.get key)).bind
      (fun s => enqueueLeaves map keys s.1 s.2)

/-- The second loop of `buildEncodingTree`: `while (pq.Size() > 1)`. -/
def mergeLoop (k : Consts) :
    Nat → Heap HuffmanNode → priorityqueue → Option (Heap HuffmanNode × priorityqueue)
  | 0, h, q => if q.Size > 1 then none else some (h, q)
  | fuel + 1, h, q =>
    if q.Size > 1 then
      (dequeue h q).bind (fun s1 =>
        (dequeue s1.2.1 s1.2.2).bind (fun s2 =>
          match s1.1, s2.1 with
          | .node _ c0 _ _, .node _ c1 _ _ =>
            (enqueue s2.2.1 s2.2.2
                (.node k.NOT_A_CHAR (wrap32 (wrap32 (0 + c0) + c1)) s1.1 s2.1)
                (wrap32 (wrap32 (0 + c0) + c1))).bind
              (fun s3 => mergeLoop k fuel s3.1 s3.2)
          | _, _ => none))
    else some (h, q)

/-- The function `buildEncodingTree(map)`. -/
def buildEncodingTree (k : Consts) (map : hashmapF) : Option HuffmanNode :=
  (enqueueLeaves map map.keys Heap.empty priorityqueue.new).bind (fun s =>
    (mergeLoop k map.keys.length s.1 s.2).bind (fun s2 =>
      (dequeue s2.1 s2.2).map (fun r => r.1)))

/-- The helper `_buildEncodingMap(node, encodingMap, str, prev)`. -/
def _buildEncodingMap (k : Consts) : HuffmanNode → hashmapE → List Bool → hashmapE
  | .nullptr, m, _ => m
  | .node ch _ z o, m, str =>
    _buildEncodingMap k o
      (_buildEncodingMap k z (if ch ≠ k.NOT_A_CHAR then m.set ch str else m) (str ++ [false]))
      (str ++ [true])

/-- The function `buildEncodingMap(tree)`. -/
def buildEncodingMap (k : Consts) (tree : HuffmanNode) : hashmapE :=
  _buildEncodingMap k tree hashmapE.empty []

/-- The reading loop of `encode`: the bits and the size. -/
def encodeLoop (encodingMap : hashmapE) : List (Fin 256) → List Bool → Int → List Bool × Int
  | [], bits, size => (bits, size)
  | b :: rest, bits, size =>
    if toChar b.val = EOF then (bits, size)
    else
      encodeLoop encodingMap rest (bits ++ encodingMap.lookup (toChar b.val))
        (wrap32 (size + (encodingMap.lookup (toChar b.val)).length))

/-- What `encode` hands back: the returned string, the value of the reference
parameter `size`, and the bits written to the output stream. -/
structure Encoded where
  bits : List Bool
  size : Int
  written : List Bool

/-- The function `encode(input, encodingMap, output, size, makeFile)`. -/
def encode (k : Consts) (input : List (Fin 256)) (encodingMap : hashmapE) (size : Int)
    (makeFile : Bool) : Encoded :=
  let r := encodeLoop encodingMap input [] size
  let bits := r.1 ++ encodingMap.lookup k.PSEUDO_EOF
  ⟨bits, wrap32 (r.2 + (encodingMap.lookup k.PSEUDO_EOF).length), if makeFile then bits else []⟩

/-- The loop of `decode` over the bits left in the input stream, which is
modelled from the spec: `readBit` hands back the next bit, and at the end of
the stream it hands back `EOF` and the stream fails, which ends the loop. -/
def decodeLoop (k : Consts) (encodingTree : HuffmanNode) :
    List Bool → HuffmanNode → List Int → Option (List Int)
  | [], root, result =>
    match root with
    | .nullptr => none
    | .node ch _ z o =>
      if z = .nullptr ∧ o = .nullptr then
        if ch = k.PSEUDO_EOF then some result else some (result ++ [toChar ch])
      else some result
  | b :: bits, root, result =>
    match root with
    | .nullptr => none
    | .node ch _ z o =>
      if z = .nullptr ∧ o = .nullptr then
        if ch = k.PSEUDO_EOF then some result
        else
          match encodingTree with
          | .nullptr => none
          | .node _ _ z2 o2 =>
            decodeLoop k encodingTree bits (if b then o2 else z2) (result ++ [toChar ch])
      else decodeLoop k encodingTree bits (if b then o else z) result

/-- The function `decode(input, encodingTree, output)`: the returned string. -/
def decode (k : Consts) (input : List Bool) (encodingTree : HuffmanNode) : Option (List Int) :=
  decodeLoop k encodingTree input encodingTree []

/-- The steps of `compress` and `decompress` on a file with the content `S`:
frequency map, tree, encoding map, `encode`, and `decode` of the bits written. -/
def roundTrip (k : Consts) (S : List (Fin 256)) : Option (List Int) :=
  let map := buildFrequencyMap k S true ⟨[]⟩
  (buildEncodingTree k map).bind (fun tree =>
    decode k (encode k S (buildEncodingMap k tree) 0 true).written tree)

end Huffman

/-!
## The specification and the representation invariants

The definitions the theorems are stated with (the stored elements in arrival
order, the stable sort, runs of calls) and those that relate a heap to the shape
of a queue.
-/

namespace PQ

variable {T : Type}

/-- The shape of a queue: which address holds which element, as a tree of
primary nodes, each with its chain of duplicates. -/
inductive GT (T : Type) where
  | nil : GT T
  | node (a : Nat) (p : Int) (v : T) (ch : List (Nat × T)) (l r : GT T) : GT T

/-- The pointer to the head of a chain. -/
def chPtr (ch : List (Nat × T)) : Option Nat := ch.head?.map Prod.fst

/-- The pointer to the root of a shape. -/
def GT.ptr : GT T → Option Nat
  | .nil => none
  | .node a _ _ _ _ _ => some a

/-- The addresses of a shape, in order. -/
def GT.addrs : GT T → List Nat
  | .nil => []
  | .node a _ _ ch l r => l.addrs ++ (a :: ch.map Prod.fst) ++ r.addrs

/-- The elements of a shape in order: left subtree, node, chain, right subtree. -/
def GT.toList : GT T → List (T × Int)
  | .nil => []
  | .node _ p v ch l r => l.toList ++ ((v, p) :: ch.map (fun c => (c.2, p))) ++ r.toList

/-- The number of primary nodes on the longest path from the root. -/
def GT.height : GT T → Nat
  | .nil => 0
  | .node _ _ _ _ l r => max l.height r.height + 1

/-- The search-tree order on priorities. -/
def GT.Ordered : GT T → Prop
  | .nil => True
  | .node _ p _ _ l r =>
    (∀ x ∈ l.toList, x.2 < p) ∧ (∀ x ∈ r.toList, p < x.2) ∧ l.Ordered ∧ r.Ordered

/-- The heap holds the chain `ch` of priority `p` whose first node hangs under `par`. -/
def ChainRep (h : Heap T) (p : Int) : Option Nat → List (Nat × T) → Prop
  | _, [] => True
  | par, c :: rest =>
    (∃ n, h.cells c.1 = some n ∧ n.priority = p ∧ n.value = c.2 ∧ n.dup = true ∧
      n.parent = par ∧ n.left = none ∧ n.right = none ∧ n.link = chPtr rest) ∧
    ChainRep h p (some c.1) rest

/-- The heap holds the shape `g`.  With `s` set every node records its parent and
primary nodes have `dup` false (the queue as `enqueue` alone builds it); without
`s` only the root and left children must record their parent. `par` is the
parent the root of `g` must record, if any is demanded. -/
def Rep (s : Bool) (h : Heap T) : GT T → Option (Option Nat) → Prop
  | .nil, _ => True
  | .node a p v ch l r, par =>
    (∃ n, h.cells a = some n ∧ n.priority = p ∧ n.value = v ∧ (s = true → n.dup = false) ∧
      (∀ x, par = some x → n.parent = x) ∧ n.link = chPtr ch ∧ n.left = l.ptr ∧
      n.right = r.ptr) ∧
    ChainRep h p (some a) ch ∧ Rep s h l (some (some a)) ∧
    Rep s h r (if s then some (some a) else none)

/-- The queue object `q` in heap `h` has shape `g`. -/
structure Inv (s : Bool) (h : Heap T) (q : priorityqueue) (g : GT T) : Prop where
  root : q.root = g.ptr
  rep : Rep s h g (some none)
  nodup : g.addrs.Nodup
  lt : ∀ a ∈ g.addrs, a < h.next
  ordered : g.Ordered
  size : q.size = wrap32 g.addrs.length

/-- Insertion of a new element at address `a` into a shape. -/
def GT.insert (a : Nat) (v : T) (p : Int) : GT T → GT T
  | .nil => .node a p v [] .nil .nil
  | .node b q w ch l r =>
    if p > q then .node b q w ch l (r.insert a v p)
    else if p < q then .node b q w ch (l.insert a v p) r
    else .node b q w (ch ++ [(a, v)]) l r

/-- Removal of the first element in order from a shape. -/
def GT.popMin : GT T → GT T
  | .nil => .nil
  | .node _ _ _ [] .nil r => r
  | .node _ p _ (c :: rest) .nil r => .node c.1 p c.2 rest .nil r
  | .node a p v ch (.node b q w ch2 l2 r2) r => .node a p v ch (GT.popMin (.node b q w ch2 l2 r2)) r

/-- The address of the last node of a chain that hangs off the node at `c`. -/
def lastAddr (c : Nat) : List (Nat × T) → Nat
  | [] => c
  | d :: rest => lastAddr d.1 rest

/-- The address of the first node in order. -/
def GT.minAddr : GT T → Option Nat
  | .nil => none
  | .node a _ _ _ l _ => some (l.minAddr.getD a)

/-- The first element in order. -/
def GT.minElem : GT T → Option (T × Int)
  | .nil => none
  | .node _ p v _ l _ => some (l.minElem.getD (v, p))

/-- The relinking part of `dequeue` for a node that is not a childless root. -/
def relinkAt (h : Heap T) (root : Option Nat) (cur : Nat) : Option (Heap T × Option Nat) :=
  match h.cells cur with
  | none => none
  | some c =>
    if c.link ≠ none then relinkDup h root cur
    else if c.right ≠ none then relinkRight h root cur
    else
      match c.parent with
      | some par => (h.modify par (fun n => { n with left := none })).map (fun h1 => (h1, root))
      | none => none

/-- Insertion into a list sorted by priority, before the first element whose
priority is not smaller. -/
def insertFront (x : T × Int) : List (T × Int) → List (T × Int)
  | [] => [x]
  | y :: ys => if x.2 ≤ y.2 then x :: y :: ys else y :: insertFront x ys

/-- Insertion into a list sorted by priority, behind the last element whose
priority is not greater. -/
def insertBack (x : T × Int) : List (T × Int) → List (T × Int)
  | [] => [x]
  | y :: ys => if x.2 < y.2 then x :: y :: ys else y :: insertBack x ys

/-- The stable sort by priority (insertion sort from the right). -/
def stableSort : List (T × Int) → List (T × Int)
  | [] => []
  | x :: xs => insertFront x (stableSort xs)

/-- Non-decreasing priorities. -/
def PrioSorted (l : List (T × Int)) : Prop := l.Pairwise (fun a b => a.2 ≤ b.2)

/-- The specification's choice among the stored elements (in arrival order):
the first one whose priority is the minimum. -/
def firstMin : List (T × Int) → Option (T × Int)
  | [] => none
  | x :: xs =>
    match firstMin xs with
    | none => some x
    | some y => if x.2 ≤ y.2 then some x else some y

/-- The stored elements without the one `firstMin` chooses. -/
def removeFirstMin : List (T × Int) → List (T × Int)
  | [] => []
  | x :: xs =>
    match firstMin xs with
    | none => []
    | some y => if x.2 ≤ y.2 then xs else x :: removeFirstMin xs

/-- A call of the queue. -/
inductive Op (T : Type) where
  | enqueue (value : T) (priority : Int)
  | dequeue

/-- The specification's queue: the stored elements in arrival order. -/
def specStep (stored : List (T × Int)) : Op T → List (T × Int)
  | .enqueue v p => stored ++ [(v, p)]
  | .dequeue => removeFirstMin stored

/-- The elements the specification has stored after a sequence of calls on an
empty queue. -/
def stored (ops : List (Op T)) : List (T × Int) := ops.foldl specStep []

/-- The queue and the values handed back by `dequeue` after a sequence of calls. -/
def run [DefaultInit T] : List (Op T) → Heap T → priorityqueue → List T →
    Option (Heap T × priorityqueue × List T)
  | [], h, q, out => some (h, q, out)
  | .enqueue v p :: ops, h, q, out =>
    (enqueue h q v p).bind (fun s => run ops s.1 s.2 out)
  | .dequeue :: ops, h, q, out =>
    (dequeue h q).bind (fun s => run ops s.2.1 s.2.2 (out ++ [s.1]))

/-- The abstraction: the queue object holds the stored elements `l`. -/
def Abs (s : Bool) (h : Heap T) (q : priorityqueue) (l : List (T × Int)) : Prop :=
  ∃ g, Inv s h q g ∧ g.toList = stableSort l

/-- The calls `enqueue(v, p)` for the pairs of a list, in order. -/
def enqueueAll : List (T × Int) → Heap T → priorityqueue → Option (Heap T × priorityqueue)
  | [], h, q => some (h, q)
  | x :: xs, h, q => (enqueue h q x.1 x.2).bind (fun s => enqueueAll xs s.1 s.2)

/-- The values of `n` successive calls of `dequeue`. -/
def dequeueN [DefaultInit T] : Nat → Heap T → priorityqueue → Option (List T × Heap T × priorityqueue)
  | 0, h, q => some ([], h, q)
  | n + 1, h, q =>
    (dequeue h q).bind (fun s => (dequeueN n s.2.1 s.2.2).map (fun r => (s.1 :: r.1, r.2)))

/-- The calls of the example of the specification: enqueue a:1, b:1, c:2, dequeue
twice, enqueue ab:2. -/
def exampleOps : List (Op String) :=
  [.enqueue "a" 1, .enqueue "b" 1, .enqueue "c" 2, .dequeue, .dequeue, .enqueue "ab" 2]

/-- What a run of calls on the queue `t` does to the heap: `t` keeps a shape,
its new nodes are newly allocated, and no other live cell changes. -/
structure Step (h : Heap T) (t : priorityqueue) (gt : GT T) (h2 : Heap T) (t2 : priorityqueue)
    (gt2 : GT T) (k : Nat) : Prop where
  inv : Inv false h2 t2 gt2
  addrs : ∀ x ∈ gt2.addrs, x ∈ gt.addrs ∨ h.next ≤ x
  next : h.next ≤ h2.next
  frame : ∀ x, x < h.next → x ∉ gt.addrs → h2.cells x = h.cells x
  size : t2.size = wrap32 (t.size + k)

/-- The nodes at `addrs` are allocated and are no nodes of the shape `gt`. -/
def Src (h : Heap T) (gt : GT T) (addrs : List Nat) : Prop :=
  ∀ x ∈ addrs, x < h.next ∧ x ∉ gt.addrs

/-- A program over two queue objects, `target` and `other`, in one heap: every
call names the object it is made on (`true` for `target`). -/
def run2 [DefaultInit T] : List (Bool × Op T) → Heap T → priorityqueue → priorityqueue →
    Option (Heap T × priorityqueue × priorityqueue)
  | [], h, t, o => some (h, t, o)
  | (true, .enqueue v p) :: ops, h, t, o =>
    (enqueue h t v p).bind (fun s => run2 ops s.1 s.2 o)
  | (true, .dequeue) :: ops, h, t, o =>
    (dequeue h t).bind (fun s => run2 ops s.2.1 s.2.2 o)
  | (false, .enqueue v p) :: ops, h, t, o =>
    (enqueue h o v p).bind (fun s => run2 ops s.1 t s.2)
  | (false, .dequeue) :: ops, h, t, o =>
    (dequeue h o).bind (fun s => run2 ops s.2.1 t s.2.2)

/-- Two queue objects in one heap with no node in common. -/
def Inv2 (h : Heap T) (t o : priorityqueue) : Prop :=
  ∃ gt go, Inv false h t gt ∧ Inv false h o go ∧ ∀ x ∈ gt.addrs, x ∉ go.addrs

/-- The pairs that `n` successive calls of `next` store through the reference
parameters, and the queue after them. -/
def traverseN (h : Heap T) : Nat → priorityqueue → Option (List (T × Int) × priorityqueue)
  | 0, q => some ([], q)
  | n + 1, q =>
    (next h q).bind (fun r =>
      (traverseN h n r.queue).map (fun s => (r.delivered.toList ++ s.1, s.2)))

/-- The climb `while (curr->left != oldCurr)` from the root of a subtree that
records the parent `par` ends at `k` whenever it has fuel `d` or more. -/
def Up (h : Heap T) (c : Nat) (par : Option Nat) (k : Option Nat) (d : Nat) : Prop :=
  ∀ f, d ≤ f →
    (match par with
      | none => some none
      | some p => climb h f p (some c)) = some k

end PQ

namespace Huffman

/-- A coding tree: a leaf, or a node marked `NOT_A_CHAR` with two coding trees
below it. -/
def Good (k : Consts) : HuffmanNode → Prop
  | .nullptr => False
  | .node ch _ z o => (z = .nullptr ∧ o = .nullptr) ∨ (ch = k.NOT_A_CHAR ∧ Good k z ∧ Good k o)

/-- The node reached from a node along a bit string (`nullptr` once a branch is
absent). -/
def follow : HuffmanNode → List Bool → HuffmanNode
  | t, [] => t
  | t, b :: bs =>
    match t with
    | .nullptr => .nullptr
    | .node _ _ z o => follow (if b then o else z) bs

/-- The characters of the leaves of a tree, from the zero side to the one side. -/
def leaves : HuffmanNode → List Int
  | .nullptr => []
  | .node ch _ z o => if z = .nullptr ∧ o = .nullptr then [ch] else leaves z ++ leaves o

/-- The characters of the leaves of the trees stored in the queue. -/
def forestLeaves : List (HuffmanNode × Int) → List Int
  | [] => []
  | x :: xs => leaves x.1 ++ forestLeaves xs

/-- What the round trip needs of the frequency table of `S`. -/
structure TableOf (k : Consts) (S : List (Fin 256)) (map : hashmapF) : Prop where
  nodup : map.keys.Nodup
  chars : ∀ b ∈ S, toChar b.val ∈ map.keys
  eof : k.PSEUDO_EOF ∈ map.keys
  sub : ∀ key ∈ map.keys, key = k.PSEUDO_EOF ∨ ∃ b ∈ S, key = toChar b.val

/-- The encoding of a list of characters, as `encode` concatenates it. -/
def codes (m : hashmapE) : List Int → List Bool
  | [] => []
  | c :: cs => m.lookup c ++ codes m cs

end Huffman

namespace PQ

variable {T : Type}

/-- Calls after which the queue is empty again: enqueue a:1, b:1, dequeue three
times. -/
def emptiedOps : List (Op String) :=
  [.enqueue "a" 1, .enqueue "b" 1, .dequeue, .dequeue, .dequeue]

end PQ

namespace Huffman

/-- The bytes of a file that the reading loops of `encode` and
`buildFrequencyMap` reach: those before the first byte 255. -/
def readable : List (Fin 256) → List (Fin 256)
  | [] => []
  | b :: rest => if b = 255 then [] else b :: readable rest

/-- The characters of a byte sequence. -/
def chars (S : List (Fin 256)) : List Int := S.map (fun b => toChar b.val)

/-- The steps of `compress` and `decompress` on a file with the content `S`, with
the bits `P` following the bits that `encode` has written. -/
def roundTripPadded (k : Consts) (S : List (Fin 256)) (P : List Bool) : Option (List Int) :=
  let map := buildFrequencyMap k S true ⟨[]⟩
  (buildEncodingTree k map).bind (fun tree =>
    decode k ((encode k S (buildEncodingMap k tree) 0 true).written ++ P) tree)

/-- An encoding map with an entry for the characters 97, -1 (the byte 255) and
98 and for the end-of-stream symbol 256. -/
def exampleCodes : hashmapE :=
  (((hashmapE.empty.set 97 [false]).set (-1) [true, false]).set 98 [true, true, false]).set 256
    [true, true, true]

/-- The count that a node carries (0 for the null pointer). -/
def nodeCount : HuffmanNode → Int
  | .nullptr => 0
  | .node _ c _ _ => c

/-- The leaves of a tree with the counts they carry, from the zero side to the
one side. -/
def leafEntries : HuffmanNode → List (Int × Int)
  | .nullptr => []
  | .node ch c z o =>
    if z = .nullptr ∧ o = .nullptr then [(ch, c)] else leafEntries z ++ leafEntries o

/-- The leaves, with their counts, of the trees stored in the queue. -/
def forestEntries : List (HuffmanNode × Int) → List (Int × Int)
  | [] => []
  | x :: xs => leafEntries x.1 ++ forestEntries xs

/-- The sum of two counts as `buildEncodingTree` computes it in an `int` that
starts at 0. -/
def intAdd (a b : Int) : Int := wrap32 (wrap32 (0 + a) + b)

/-- A coding tree with counts: every node that is no leaf carries the marker
`NOT_A_CHAR`, has a zero branch and a one branch, and its count is the sum
`add` of the counts of its two children. -/
def SumTree (k : Consts) (add : Int → Int → Int) : HuffmanNode → Prop
  | .nullptr => False
  | .node ch c z o =>
    (z = .nullptr ∧ o = .nullptr) ∨
    (ch = k.NOT_A_CHAR ∧ z ≠ .nullptr ∧ o ≠ .nullptr ∧ c = add (nodeCount z) (nodeCount o) ∧
      SumTree k add z ∧ SumTree k add o)

/-- The entries of a table as a list: every symbol with its count. -/
def hashmapF.table (m : hashmapF) : List (Int × Int) := m.keys.map (fun key => (key, m.get key))

/-- A table of 2147483648 symbols, 0 to 2147483647, each with the count 1. -/
def manySymbols : hashmapF :=
  ⟨(0, 1) :: List.map (fun i : Nat => ((i : Int) + 1, (1 : Int))) (List.range 2147483647)⟩

end Huffman

namespace PQ

variable {T : Type}

/-- The nodes under a pointer: the node it points to and every node reached
from there by `left`, `right` and `link` pointers. -/
inductive Sub (h : Heap T) : Option Nat → Nat → Prop
  | here (a : Nat) : Sub h (some a) a
  | left (a : Nat) (n : NODE T) (x : Nat) : h.cells a = some n → Sub h n.left x →
      Sub h (some a) x
  | right (a : Nat) (n : NODE T) (x : Nat) : h.cells a = some n → Sub h n.right x →
      Sub h (some a) x
  | link (a : Nat) (n : NODE T) (x : Nat) : h.cells a = some n → Sub h n.link x →
      Sub h (some a) x

/-- The primary nodes under a pointer: the node it points to and every node
reached from there by `left` and `right` pointers. -/
inductive Primary (h : Heap T) : Option Nat → Nat → Prop
  | here (a : Nat) : Primary h (some a) a
  | left (a : Nat) (n : NODE T) (x : Nat) : h.cells a = some n → Primary h n.left x →
      Primary h (some a) x
  | right (a : Nat) (n : NODE T) (x : Nat) : h.cells a = some n → Primary h n.right x →
      Primary h (some a) x

/-- The nodes of the chain that starts at a pointer: the node it points to
and every node reached from there by `link` pointers. -/
inductive Chained (h : Heap T) : Option Nat → Nat → Prop
  | here (a : Nat) : Chained h (some a) a
  | next (a : Nat) (n : NODE T) (x : Nat) : h.cells a = some n → Chained h n.link x →
      Chained h (some a) x

/-- The ordering invariant at the primary node `n`: the nodes of its left
subtree have a smaller priority, those of its right subtree a greater one, and
the nodes of its chain have its priority and neither a left nor a right
child; all of them are allocated. -/
def OrderedAt (h : Heap T) (n : NODE T) : Prop :=
  (∀ x, Sub h n.left x → ∃ nx, h.cells x = some nx ∧ nx.priority < n.priority) ∧
  (∀ x, Sub h n.right x → ∃ nx, h.cells x = some nx ∧ n.priority < nx.priority) ∧
  (∀ x, Chained h n.link x →
    ∃ nx, h.cells x = some nx ∧ nx.priority = n.priority ∧ nx.left = none ∧ nx.right = none)

/-- The calls of the example: enqueue a:1, b:1, c:2, then dequeue, which
removes a node that has a chain. -/
def promoteOps : List (Op String) :=
  [.enqueue "a" 1, .enqueue "b" 1, .enqueue "c" 2, .dequeue]

/-- The same calls on a queue that already holds x:5, so that the removed
node is a left child. -/
def promoteBelowOps : List (Op String) :=
  [.enqueue "x" 5, .enqueue "a" 1, .enqueue "b" 1, .enqueue "c" 2, .dequeue]

/-- Calls with a dequeue that removes a node without a chain: enqueue b:2,
a:1, c:3, then dequeue. -/
def plainOps : List (Op String) :=
  [.enqueue "b" 2, .enqueue "a" 1, .enqueue "c" 3, .dequeue]

/-- The fields `dup` and `parent` of the node at an address (`none` when the
cell is not allocated). -/
def dupParent (h : Heap T) (a : Nat) : Option (Bool × Option Nat) :=
  (h.cells a).map (fun n => (n.dup, n.parent))

/-- The fields `link`, `left` and `right` of the node at an address (`none`
when the cell is not allocated). -/
def outLinks (h : Heap T) (a : Nat) : Option (Option Nat × Option Nat × Option Nat) :=
  (h.cells a).map (fun n => (n.link, n.left, n.right))

/-- The links that leave the node `n` at address `a` are consistent: its left
child, right child and chain successor are allocated and point back to `a`;
the children have `dup` false and the chain successor has `dup` true.
Without `strict` nothing is demanded of the `dup` flag of a child nor of the
parent of the right child. -/
def LinksAt (strict : Bool) (h : Heap T) (a : Nat) (n : NODE T) : Prop :=
  (∀ c, n.left = some c →
    ∃ nc, h.cells c = some nc ∧ nc.parent = some a ∧ (strict = true → nc.dup = false)) ∧
  (∀ c, n.right = some c →
    ∃ nc, h.cells c = some nc ∧ (strict = true → nc.parent = some a ∧ nc.dup = false)) ∧
  (∀ c, n.link = some c → ∃ nc, h.cells c = some nc ∧ nc.parent = some a ∧ nc.dup = true)

/-- The link-consistency invariant of a queue: the root is allocated, has no
parent and (with `strict`) `dup` false, and the links of every node under the
root are consistent. -/
def LinkConsistent (strict : Bool) (h : Heap T) (q : priorityqueue) : Prop :=
  (∀ r, q.root = some r →
    ∃ n, h.cells r = some n ∧ n.parent = none ∧ (strict = true → n.dup = false)) ∧
  ∀ a, Sub h q.root a → ∃ n, h.cells a = some n ∧ LinksAt strict h a n

/-- The pairs that the first `n` calls of `next` after `begin` store, for the
queue reached by the calls `ops`. -/
def traversalAfter [DefaultInit T] (ops : List (Op T)) (n : Nat) : Option (List (T × Int)) :=
  (run ops Heap.empty priorityqueue.new []).bind (fun s =>
    (begin s.1 s.2.1).bind (fun q0 => (traverseN s.1 n q0).map (fun r => r.1)))

end PQ

namespace Huffman

/-- The Kraft sum of a list of code lengths, scaled by `2 ^ B`: the sum of
`2 ^ (B - d)` over the lengths `d`. -/
def kraftSum (B : Nat) (ds : List Nat) : Nat := (ds.map (fun d => 2 ^ (B - d))).sum

/-- Neither of two bit strings is an initial segment of the other. -/
def Apart (a b : List Bool) : Prop := ¬ a <+: b ∧ ¬ b <+: a

/-- The rests of the bit strings of a list that start with the bit `b`. -/
def tailsOf (b : Bool) : List (List Bool) → List (List Bool)
  | [] => []
  | [] :: cs => tailsOf b cs
  | (x :: t) :: cs => if x = b then t :: tailsOf b cs else tailsOf b cs

/-- The cost of an assignment of depths to weights: the sum of weight times
depth. -/
def cost2 (ps : List (Int × Nat)) : Int := (ps.map (fun p => p.1 * (p.2 : Int))).sum

/-- The cost of a tree: the sum over its leaves of count times depth, computed
from the counts that the nodes carry. -/
def tcost : HuffmanNode → Int
  | .nullptr => 0
  | .node _ _ z o =>
    if z = .nullptr ∧ o = .nullptr then 0 else tcost z + tcost o + nodeCount z + nodeCount o

/-- The invariant of the merge loop against a competitor of cost `C` whose
code lengths are at most `B`: the trees in the queue carry their counts as
priorities, the counts are not negative and sum to less than 2^31, and some
assignment of depths to the trees obeys the inequality of Kraft and, added to
the costs of the trees, stays within `C`. -/
structure GreedyInv (B : Nat) (C : Int) (l : List (HuffmanNode × Int)) : Prop where
  node : ∀ x ∈ l, x.1 ≠ .nullptr
  prio : ∀ x ∈ l, x.2 = nodeCount x.1
  nonneg : ∀ x ∈ l, 0 ≤ x.2
  small : (l.map Prod.snd).sum < 2147483648
  plan : ∃ ps : List (Int × Nat), (ps.map Prod.fst).Perm (l.map Prod.snd) ∧
    (∀ p ∈ ps, p.2 ≤ B) ∧ kraftSum B (ps.map Prod.snd) ≤ 2 ^ B ∧
    (l.map (fun x => tcost x.1)).sum + cost2 ps ≤ C

/-- A code is prefix-free on the symbols `keys`: the bit string of a symbol is
no initial segment of the bit string of another symbol. -/
def PrefixFree (keys : List Int) (code : Int → List Bool) : Prop :=
  ∀ s1 ∈ keys, ∀ s2 ∈ keys, s1 ≠ s2 → ¬ code s1 <+: code s2

/-- The encoded length of entries `(symbol, count)` under a code: the sum of
count times the length of the bit string of the symbol. -/
def codeCost (code : Int → List Bool) (es : List (Int × Int)) : Int :=
  (es.map (fun e => e.2 * ((code e.1).length : Int))).sum

/-- The total encoded length of a table under a code. -/
def encodedLength (map : hashmapF) (code : Int → List Bool) : Int := codeCost code map.table

/-- A table of four symbols with the count 2^30 each. -/
def overflowTable : hashmapF :=
  ⟨[(97, 1073741824), (98, 1073741824), (99, 1073741824), (100, 1073741824)]⟩

/-- The code that gives the symbols 97, 98, 99, 100 the four bit strings of
length 2. -/
def flatCode : Int → List Bool := fun s =>
  if s = 97 then [false, false] else if s = 98 then [false, true]
  else if s = 99 then [true, false] else [true, true]

/-- The symbols decoded before the bits `B` run out: the longest initial run
of the characters `cs` whose bit strings, one after the other, lie within
`B`. -/
def decodedWithin (m : hashmapE) : List Int → List Bool → List Int
  | [], _ => []
  | c :: cs, B =>
    if m.lookup c <+: B then c :: decodedWithin m cs (B.drop (m.lookup c).length) else []

end Huffman

namespace PQ

variable {T : Type}

/-- No call of `dequeue` in the sequence is made while nothing is stored, for a
queue that stores `l` before the calls. -/
def guarded : List (T × Int) → List (Op T) → Bool
  | _, [] => true
  | l, .enqueue v p :: ops => guarded (l ++ [(v, p)]) ops
  | l, .dequeue :: ops => !l.isEmpty && guarded (removeFirstMin l) ops

end PQ

/-!
## Theorems
-/

namespace PQ

variable {T : Type}

@[simp] theorem Heap.write_cells (h : Heap T) (a : Nat) (n : NODE T) (x : Nat) :
    (h.write a n).cells x = if x = a then some n else h.cells x := rfl

@[simp] theorem Heap.write_next (h : Heap T) (a : Nat) (n : NODE T) :
    (h.write a n).next = h.next := rfl

theorem Heap.modify_eq {h : Heap T} {a : Nat} {n : NODE T} (hc : h.cells a = some n)
    (f : NODE T → NODE T) : h.modify a f = some (h.write a (f n)) := by
  simp [Heap.modify, hc]

theorem Heap.delete_eq {h : Heap T} {a : Nat} {n : NODE T} (hc : h.cells a = some n) :
    h.delete a = some ⟨fun x => if x = a then none else h.cells x, h.next⟩ := by
  simp [Heap.delete, hc]

theorem GT.mem_addrs_node {x a : Nat} {p : Int} {v : T} {ch : List (Nat × T)} {l r : GT T} :
    x ∈ (GT.node a p v ch l r).addrs ↔
      x ∈ l.addrs ∨ x = a ∨ x ∈ ch.map Prod.fst ∨ x ∈ r.addrs := by
  simp only [GT.addrs, List.mem_append, List.mem_cons]
  tauto

theorem ChainRep.frame_chain {h h2 : Heap T} {p : Int} :
    ∀ {ch : List (Nat × T)} {par : Option Nat}, ChainRep h p par ch →
      (∀ x ∈ ch.map Prod.fst, h2.cells x = h.cells x) → ChainRep h2 p par ch := by
  intro ch
  induction ch with
  | nil => intro _ _ _; trivial
  | cons c rest ih =>
    intro par hr hf
    obtain ⟨⟨n, hn, hrest⟩, hc⟩ := hr
    refine ⟨⟨n, ?_, hrest⟩, ih hc ?_⟩
    · rw [hf c.1 (by simp)]; exact hn
    · intro x hx; exact hf x (by simp at hx ⊢; exact Or.inr hx)

theorem Rep.frame_rep {s : Bool} {h h2 : Heap T} :
    ∀ {g : GT T} {par : Option (Option Nat)}, Rep s h g par →
      (∀ x ∈ g.addrs, h2.cells x = h.cells x) → Rep s h2 g par := by
  intro g
  induction g with
  | nil => intro _ _ _; trivial
  | node a p v ch l r ihl ihr =>
    intro par hr hf
    obtain ⟨⟨n, hn, hrest⟩, hch, hl, hrr⟩ := hr
    refine ⟨⟨n, ?_, hrest⟩, hch.frame_chain ?_, ihl hl ?_, ihr hrr ?_⟩
    · rw [hf a (GT.mem_addrs_node.2 (Or.inr (Or.inl rfl)))]; exact hn
    · intro x hx; exact hf x (GT.mem_addrs_node.2 (Or.inr (Or.inr (Or.inl hx))))
    · intro x hx; exact hf x (GT.mem_addrs_node.2 (Or.inl hx))
    · intro x hx; exact hf x (GT.mem_addrs_node.2 (Or.inr (Or.inr (Or.inr hx))))

/-- Dropping the demand on the recorded parent. -/
theorem Rep.weaken_par {s : Bool} {h : Heap T} {g : GT T} {par : Option (Option Nat)}
    (hr : Rep s h g par) : Rep s h g none := by
  cases g with
  | nil => trivial
  | node a p v ch l r =>
    obtain ⟨⟨n, hn, h1, h2, h3, _, h5⟩, hrest⟩ := hr
    exact ⟨⟨n, hn, h1, h2, h3, fun x hx => (by cases hx), h5⟩, hrest⟩

theorem GT.height_le (g : GT T) : g.height ≤ g.addrs.length := by
  induction g with
  | nil => simp [GT.height, GT.addrs]
  | node a p v ch l r ihl ihr =>
    simp only [GT.height, GT.addrs, List.length_append, List.length_cons, List.length_map]
    omega

theorem GT.insert_ptr (a : Nat) (v : T) (p : Int) (g : GT T) (hg : g ≠ .nil) :
    (g.insert a v p).ptr = g.ptr := by
  cases g with
  | nil => exact absurd rfl hg
  | node b q w ch l r =>
    simp only [GT.insert]
    split_ifs <;> rfl

theorem GT.insert_addrs_perm (a : Nat) (v : T) (p : Int) (g : GT T) :
    (g.insert a v p).addrs.Perm (a :: g.addrs) := by
  induction g with
  | nil => simp [GT.insert, GT.addrs]
  | node b q w ch l r ihl ihr =>
    simp only [GT.insert]
    split_ifs
    · simp only [GT.addrs]
      refine (List.Perm.append_left _ ihr).trans ?_
      exact List.perm_middle
    · simp only [GT.addrs, List.append_assoc]
      exact (List.Perm.append_right _ ihl)
    · simp only [GT.addrs, List.map_append, List.map_cons, List.map_nil, List.append_assoc]
      refine List.Perm.trans ?_ (@List.perm_middle _ a l.addrs
        (b :: (ch.map Prod.fst ++ r.addrs)))
      refine List.Perm.append_left _ ?_
      refine List.Perm.trans ?_ (List.Perm.swap _ _ _)
      refine List.Perm.cons _ ?_
      exact (List.Perm.append_right _ (List.perm_append_singleton a _))

theorem wrap32_add (a b : Int) : wrap32 (wrap32 a + b) = wrap32 (a + b) := by
  unfold wrap32; omega

theorem wrap32_id (a : Int) (h1 : -2147483648 ≤ a) (h2 : a < 2147483648) : wrap32 a = a := by
  unfold wrap32; omega

theorem wrap32_sub (a b : Int) : wrap32 (wrap32 a - b) = wrap32 (a - b) := by
  unfold wrap32; omega

theorem wrap32_wrap32 (a : Int) : wrap32 (wrap32 a) = wrap32 a := by
  unfold wrap32; omega

theorem wrap32_zero : wrap32 0 = 0 := by decide

theorem chPtr_append_ne {ch : List (Nat × T)} (hne : ch ≠ []) (x : Nat × T) :
    chPtr (ch ++ [x]) = chPtr ch := by
  cases ch with
  | nil => exact absurd rfl hne
  | cons c rest => rfl

theorem lastAddr_mem (c : Nat) (ch : List (Nat × T)) (hne : ch ≠ []) :
    lastAddr c ch ∈ ch.map Prod.fst := by
  induction ch generalizing c with
  | nil => exact absurd rfl hne
  | cons d rest ih =>
    cases rest with
    | nil => simp [lastAddr]
    | cons e rest2 =>
      have := ih d.1 (by simp)
      simp only [lastAddr, List.map_cons, List.mem_cons] at this ⊢
      exact Or.inr this

theorem chainEnd_spec {h : Heap T} {p : Int} :
    ∀ (ch : List (Nat × T)) (c : Nat) (n : NODE T) (fuel : Nat), h.cells c = some n →
      n.link = chPtr ch → ChainRep h p (some c) ch → ch.length < fuel →
      chainEnd h fuel c = some (lastAddr c ch) := by
  intro ch
  induction ch with
  | nil =>
    intro c n fuel hn hl _ hf
    cases fuel with
    | zero => omega
    | succ f => simp [chainEnd, hn, hl, chPtr, lastAddr]
  | cons d rest ih =>
    intro c n fuel hn hl hr hf
    obtain ⟨⟨m, hm, _, _, _, _, _, _, hml⟩, hrest⟩ := hr
    cases fuel with
    | zero => omega
    | succ f =>
      simp only [chainEnd, hn, hl, chPtr, List.head?_cons, Option.map_some', lastAddr]
      exact ih d.1 m f hm hml hrest (by simpa using hf)

theorem lastAddr_cell {h : Heap T} {p : Int} :
    ∀ (ch : List (Nat × T)) (c : Nat) (par : Option Nat), ch ≠ [] → ChainRep h p par ch →
      ∃ n, h.cells (lastAddr c ch) = some n ∧ n.link = none := by
  intro ch
  induction ch with
  | nil => intro c par hne; exact absurd rfl hne
  | cons d rest ih =>
    intro c par _ hr
    obtain ⟨⟨m, hm, _, _, _, _, _, _, hml⟩, hrest⟩ := hr
    cases rest with
    | nil => exact ⟨m, hm, by simpa [chPtr] using hml⟩
    | cons e rest2 => exact ih d.1 (some d.1) (by simp) hrest

/-- Hanging a new node behind the last node of a non-empty chain. -/
theorem ChainRep.append {h h2 : Heap T} {p : Int} {a : Nat} {v : T} :
    ∀ (ch : List (Nat × T)) (c : Nat) (par : Option Nat), ch ≠ [] → ChainRep h p par ch →
      (ch.map Prod.fst).Nodup → a ∉ ch.map Prod.fst →
      h2.cells a = some ⟨p, v, true, some (lastAddr c ch), none, none, none⟩ →
      (∀ n, h.cells (lastAddr c ch) = some n →
        h2.cells (lastAddr c ch) = some { n with link := some a }) →
      (∀ x, x ≠ a → x ≠ lastAddr c ch → h2.cells x = h.cells x) →
      ChainRep h2 p par (ch ++ [(a, v)]) := by
  intro ch
  induction ch with
  | nil => intro c par hne; exact absurd rfl hne
  | cons d rest ih =>
    intro c par _ hr hnd ha hca hce hframe
    obtain ⟨⟨m, hm, h1, h2v, h3, h4, h5, h6, hml⟩, hrest⟩ := hr
    simp only [List.map_cons, List.nodup_cons, List.mem_cons, not_or] at hnd ha
    cases rest with
    | nil =>
      simp only [lastAddr] at hca hce hframe
      refine ⟨⟨_, hce m hm, h1, h2v, h3, h4, h5, h6, by simp [chPtr]⟩, ?_⟩
      exact ⟨⟨_, hca, rfl, rfl, rfl, rfl, rfl, rfl, by simp [chPtr]⟩, trivial⟩
    | cons e rest2 =>
      have hlast : lastAddr d.1 (e :: rest2) ∈ (e :: rest2).map Prod.fst :=
        lastAddr_mem d.1 (e :: rest2) (by simp)
      have hd : d.1 ≠ lastAddr d.1 (e :: rest2) := by
        intro hEq; exact hnd.1 (hEq ▸ hlast)
      have hda : d.1 ≠ a := fun hEq => ha.1 hEq.symm
      refine ⟨⟨m, ?_, h1, h2v, h3, h4, h5, h6, ?_⟩, ?_⟩
      · rw [hframe d.1 hda hd]; exact hm
      · rw [hml]; rfl
      · exact ih d.1 (some d.1) (by simp) hrest hnd.2 ha.2 hca hce hframe

theorem GT.nodup_node {a : Nat} {p : Int} {v : T} {ch : List (Nat × T)} {l r : GT T}
    (hnd : (GT.node a p v ch l r).addrs.Nodup) :
    l.addrs.Nodup ∧ r.addrs.Nodup ∧ (ch.map Prod.fst).Nodup ∧ a ∉ l.addrs ∧ a ∉ r.addrs ∧
      a ∉ ch.map Prod.fst ∧ (∀ x ∈ l.addrs, x ∉ r.addrs) ∧
      (∀ x ∈ ch.map Prod.fst, x ∉ l.addrs) ∧ (∀ x ∈ ch.map Prod.fst, x ∉ r.addrs) := by
  have h1 : (l.addrs ++ (a :: ch.map Prod.fst)).Nodup ∧ r.addrs.Nodup ∧
      List.Disjoint (l.addrs ++ (a :: ch.map Prod.fst)) r.addrs := List.nodup_append.1 hnd
  obtain ⟨h2, hr, hd1⟩ := h1
  obtain ⟨hl, h3, hd2⟩ := List.nodup_append.1 h2
  obtain ⟨hach, hch⟩ := List.nodup_cons.1 h3
  refine ⟨hl, hr, hch, ?_, ?_, hach, ?_, ?_, ?_⟩
  · intro ha; exact hd2 ha (List.mem_cons_self _ _)
  · intro ha; exact hd1 (List.mem_append_right _ (List.mem_cons_self _ _)) ha
  · intro x hx hxr; exact hd1 (List.mem_append_left _ hx) hxr
  · intro x hx hxl; exact hd2 hxl (List.mem_cons_of_mem _ hx)
  · intro x hx hxr; exact hd1 (List.mem_append_right _ (List.mem_cons_of_mem _ hx)) hxr

theorem enqueueWalk_spec (s : Bool) (a : Nat) (v : T) (p : Int) (fuel0 : Nat) :
    ∀ (g : GT T) (fuel : Nat) (h : Heap T) (par : Option (Option Nat)) (prev : Option Nat),
      g ≠ .nil → Rep s h g par → g.addrs.Nodup → a ∉ g.addrs →
      h.cells a = some ⟨p, v, false, none, none, none, none⟩ →
      g.addrs.length < fuel0 → g.height ≤ fuel →
      ∃ h2, enqueueWalk a p fuel0 fuel h g.ptr prev = some h2 ∧
        Rep s h2 (g.insert a v p) par ∧
        (∀ x, x ∉ g.addrs → x ≠ a → h2.cells x = h.cells x) ∧ h2.next = h.next := by
  intro g
  induction g with
  | nil => intro _ _ _ _ hne; exact absurd rfl hne
  | node b q w ch l r ihl ihr =>
    intro fuel h par prev _ hrep hnd ha hca hf0 hf
    obtain ⟨⟨n, hn, hp, hv, hdup, hpar, hlink, hleft, hright⟩, hch, hl, hr⟩ := hrep
    obtain ⟨hlnd, hrnd, hchnd, hbl, hbr, hbch, hlr, hchl, hchr⟩ := GT.nodup_node hnd
    have ha2 := fun hx => ha (GT.mem_addrs_node.2 hx)
    have hab : a ≠ b := fun e => ha2 (Or.inr (Or.inl e))
    have hal : a ∉ l.addrs := fun e => ha2 (Or.inl e)
    have har : a ∉ r.addrs := fun e => ha2 (Or.inr (Or.inr (Or.inr e)))
    have hach : a ∉ ch.map Prod.fst := fun e => ha2 (Or.inr (Or.inr (Or.inl e)))
    have hlen : l.addrs.length + r.addrs.length + ch.length + 1 = (GT.node b q w ch l r).addrs.length := by
      simp only [GT.addrs, List.length_append, List.length_cons, List.length_map]; omega
    cases fuel with
    | zero => simp [GT.height] at hf
    | succ f =>
      have hfl : l.height ≤ f := by simp only [GT.height] at hf; omega
      have hfr : r.height ≤ f := by simp only [GT.height] at hf; omega
      simp only [GT.ptr, enqueueWalk, hn]
      by_cases h1 : p > q
      · have h1n : p > n.priority := hp ▸ h1
        rw [if_pos h1n]
        simp only [GT.insert, if_pos h1]
        cases r with
        | nil =>
          have hnlt : ¬ p < n.priority := by omega
          simp only [hright, GT.ptr, enqueueWalk, hn, if_neg hnlt, if_pos h1n,
            Heap.modify, hca, Option.some_bind, Heap.write_cells, if_neg (Ne.symm hab)]
          refine ⟨_, rfl, ?_, ?_, rfl⟩
          · refine ⟨⟨{ n with right := some a }, by simp only [Heap.write_cells, if_true],
              hp, hv, hdup, hpar, hlink, hleft, rfl⟩, ?_, ?_, ?_⟩
            · refine hch.frame_chain ?_
              intro x hx
              have hxb : x ≠ b := fun e => hbch (e ▸ hx)
              have hxa : x ≠ a := fun e => hach (e ▸ hx)
              simp [hxb, hxa]
            · refine hl.frame_rep ?_
              intro x hx
              have hxb : x ≠ b := fun e => hbl (e ▸ hx)
              have hxa : x ≠ a := fun e => hal (e ▸ hx)
              simp [hxb, hxa]
            · refine ⟨⟨⟨p, v, false, some b, none, none, none⟩,
                by simp only [Heap.write_cells, if_neg hab, if_true], rfl, rfl,
                fun _ => rfl, ?_, rfl, rfl, rfl⟩, trivial, trivial, trivial⟩
              intro x hx
              cases s <;> simp at hx
              exact hx ▸ rfl
          · intro x hx hxa
            have hxb : x ≠ b := fun e => hx (GT.mem_addrs_node.2 (Or.inr (Or.inl e)))
            simp [hxb, hxa]
        | node b2 q2 w2 ch2 l2 r2 =>
          obtain ⟨h2, he, hrep2, hfr2, hnx⟩ := ihr f h _ (some b) (by simp) hr hrnd har hca
            (by omega) hfr
          rw [hright]
          refine ⟨h2, he, ?_, ?_, hnx⟩
          · refine ⟨⟨n, ?_, hp, hv, hdup, hpar, hlink, hleft, ?_⟩, ?_, ?_, hrep2⟩
            · rw [hfr2 b hbr (Ne.symm hab)]; exact hn
            · rw [hright, GT.insert_ptr _ _ _ _ (by simp)]
            · refine hch.frame_chain ?_
              intro x hx
              exact hfr2 x (hchr x hx) (fun e => hach (e ▸ hx))
            · refine hl.frame_rep ?_
              intro x hx
              exact hfr2 x (hlr x hx) (fun e => hal (e ▸ hx))
          · intro x hx hxa
            exact hfr2 x (fun e => hx (GT.mem_addrs_node.2 (Or.inr (Or.inr (Or.inr e))))) hxa
      · have h1n : ¬ p > n.priority := hp ▸ h1
        rw [if_neg h1n]
        simp only [GT.insert, if_neg h1]
        by_cases h2 : p < q
        · have h2n : p < n.priority := hp ▸ h2
          rw [if_pos h2n]
          simp only [if_pos h2]
          cases l with
          | nil =>
            simp only [hleft, GT.ptr, enqueueWalk, hn, if_pos h2n,
              Heap.modify, hca, Option.some_bind, Heap.write_cells, if_neg (Ne.symm hab)]
            refine ⟨_, rfl, ?_, ?_, rfl⟩
            · refine ⟨⟨{ n with left := some a }, by simp only [Heap.write_cells, if_true],
                hp, hv, hdup, hpar, hlink, rfl, hright⟩, ?_, ?_, ?_⟩
              · refine hch.frame_chain ?_
                intro x hx
                have hxb : x ≠ b := fun e => hbch (e ▸ hx)
                have hxa : x ≠ a := fun e => hach (e ▸ hx)
                simp [hxb, hxa]
              · refine ⟨⟨⟨p, v, false, some b, none, none, none⟩,
                  by simp only [Heap.write_cells, if_neg hab, if_true], rfl, rfl,
                  fun _ => rfl, ?_, rfl, rfl, rfl⟩, trivial, trivial, trivial⟩
                intro x hx
                simp at hx
                exact hx ▸ rfl
              · refine hr.frame_rep ?_
                intro x hx
                have hxb : x ≠ b := fun e => hbr (e ▸ hx)
                have hxa : x ≠ a := fun e => har (e ▸ hx)
                simp [hxb, hxa]
            · intro x hx hxa
              have hxb : x ≠ b := fun e => hx (GT.mem_addrs_node.2 (Or.inr (Or.inl e)))
              simp [hxb, hxa]
          | node b2 q2 w2 ch2 l2 r2 =>
            obtain ⟨h3, he, hrep2, hfr2, hnx⟩ := ihl f h _ (some b) (by simp) hl hlnd hal hca
              (by omega) hfl
            rw [hleft]
            refine ⟨h3, he, ?_, ?_, hnx⟩
            · refine ⟨⟨n, ?_, hp, hv, hdup, hpar, hlink, ?_, hright⟩, ?_, hrep2, ?_⟩
              · rw [hfr2 b hbl (Ne.symm hab)]; exact hn
              · rw [hleft, GT.insert_ptr _ _ _ _ (by simp)]
              · refine hch.frame_chain ?_
                intro x hx
                exact hfr2 x (hchl x hx) (fun e => hach (e ▸ hx))
              · refine hr.frame_rep ?_
                intro x hx
                exact hfr2 x (fun e => hlr x e hx) (fun e => har (e ▸ hx))
            · intro x hx hxa
              exact hfr2 x (fun e => hx (GT.mem_addrs_node.2 (Or.inl e))) hxa
        · have h2n : ¬ p < n.priority := hp ▸ h2
          rw [if_neg h2n]
          simp only [if_neg h2]
          have hpq : p = q := by omega
          have hba : b ≠ a := Ne.symm hab
          simp only [Heap.modify, hca, Option.some_bind, Heap.write_cells, if_neg hba, hn]
          cases ch with
          | nil =>
            have hln : n.link = none := hlink
            simp only [hln, if_true, Heap.write_cells, if_neg hba, if_neg hab, hn, Option.some_bind]
            refine ⟨_, rfl, ?_, ?_, rfl⟩
            · refine ⟨⟨{ n with link := some a }, by simp only [Heap.write_cells, if_neg hba, if_true],
                hp, hv, hdup, hpar, rfl, hleft, hright⟩, ?_, ?_, ?_⟩
              · exact ⟨⟨⟨p, v, true, some b, none, none, none⟩,
                  by simp only [Heap.write_cells, if_true], hpq, rfl, rfl, rfl, rfl, rfl, rfl⟩,
                  trivial⟩
              · refine hl.frame_rep ?_
                intro x hx
                have hxb : x ≠ b := fun e => hbl (e ▸ hx)
                have hxa : x ≠ a := fun e => hal (e ▸ hx)
                simp [hxb, hxa]
              · refine hr.frame_rep ?_
                intro x hx
                have hxb : x ≠ b := fun e => hbr (e ▸ hx)
                have hxa : x ≠ a := fun e => har (e ▸ hx)
                simp [hxb, hxa]
            · intro x hx hxa
              have hxb : x ≠ b := fun e => hx (GT.mem_addrs_node.2 (Or.inr (Or.inl e)))
              simp [hxb, hxa]
          | cons c rest =>
            have hln : n.link ≠ none := by rw [hlink]; simp [chPtr]
            simp only [if_neg hln]
            have hch1 : ChainRep (h.write a ⟨p, v, true, none, none, none, none⟩) q (some b)
                (c :: rest) := by
              refine hch.frame_chain ?_
              intro x hx
              have hxa : x ≠ a := fun e => hach (e ▸ hx)
              simp [hxa]
            have hend := chainEnd_spec (c :: rest) b n fuel0
              (show (h.write a ⟨p, v, true, none, none, none, none⟩).cells b = some n by
                simp only [Heap.write_cells, if_neg hba]; exact hn)
              hlink hch1 (by simp only [List.length_cons] at hlen ⊢; omega)
            have hemem := lastAddr_mem b (c :: rest) (by simp)
            obtain ⟨ne, hne, _⟩ := lastAddr_cell (c :: rest) b (some b) (by simp) hch
            have hea : lastAddr b (c :: rest) ≠ a := fun e => hach (e ▸ hemem)
            have heb : lastAddr b (c :: rest) ≠ b := fun e => hbch (e ▸ hemem)
            simp only [Heap.fuel] at hend
            rw [hend]
            simp only [Option.some_bind, Heap.write_cells, if_neg hea, hne, if_neg (Ne.symm hea),
              if_true]
            refine ⟨_, rfl, ?_, ?_, rfl⟩
            · refine ⟨⟨n, by simp only [Heap.write_cells, if_neg hba, if_neg (Ne.symm heb)]; exact hn,
                hp, hv, hdup, hpar, ?_, hleft, hright⟩, ?_, ?_, ?_⟩
              · rw [hlink, chPtr_append_ne (by simp)]
              · refine ChainRep.append (c :: rest) b (some b) (by simp) hch hchnd hach ?_ ?_ ?_
                · simp only [Heap.write_cells, if_true, hpq]
                · intro n2 hn2
                  rw [hne] at hn2
                  cases hn2
                  simp only [Heap.write_cells, if_neg hea, if_true]
                · intro x hxa hxe
                  simp only [Heap.write_cells, if_neg hxa, if_neg hxe]
              · refine hl.frame_rep ?_
                intro x hx
                have hxe : x ≠ lastAddr b (c :: rest) := fun e => hchl _ hemem (e ▸ hx)
                have hxa : x ≠ a := fun e => hal (e ▸ hx)
                simp [hxe, hxa]
              · refine hr.frame_rep ?_
                intro x hx
                have hxe : x ≠ lastAddr b (c :: rest) := fun e => hchr _ hemem (e ▸ hx)
                have hxa : x ≠ a := fun e => har (e ▸ hx)
                simp [hxe, hxa]
            · intro x hx hxa
              have hxe : x ≠ lastAddr b (c :: rest) :=
                fun e => hx (GT.mem_addrs_node.2 (Or.inr (Or.inr (Or.inl (e ▸ hemem)))))
              simp [hxe, hxa]

theorem GT.mem_toList_insert (a : Nat) (v : T) (p : Int) (g : GT T) (x : T × Int) :
    x ∈ (g.insert a v p).toList ↔ x = (v, p) ∨ x ∈ g.toList := by
  induction g with
  | nil => simp [GT.insert, GT.toList]
  | node b q w ch l r ihl ihr =>
    simp only [GT.insert]
    split_ifs with h1 h2
    · simp only [GT.toList, List.mem_append, ihr]; tauto
    · simp only [GT.toList, List.mem_append, ihl]; tauto
    · have hpq : p = q := by omega
      subst hpq
      simp only [GT.toList, List.mem_append, List.map_append, List.mem_cons, List.map_cons,
        List.map_nil, List.mem_singleton]
      tauto

theorem GT.insert_ordered (a : Nat) (v : T) (p : Int) (g : GT T) (ho : g.Ordered) :
    (g.insert a v p).Ordered := by
  induction g with
  | nil => simp [GT.insert, GT.Ordered, GT.toList]
  | node b q w ch l r ihl ihr =>
    obtain ⟨h1, h2, h3, h4⟩ := ho
    simp only [GT.insert]
    split_ifs with c1 c2
    · refine ⟨h1, ?_, h3, ihr h4⟩
      intro x hx
      rcases (GT.mem_toList_insert a v p r x).1 hx with e | e
      · subst e; exact c1
      · exact h2 x e
    · refine ⟨?_, h2, ihl h3, h4⟩
      intro x hx
      rcases (GT.mem_toList_insert a v p l x).1 hx with e | e
      · subst e; exact c2
      · exact h1 x e
    · exact ⟨h1, h2, h3, h4⟩

theorem Inv.length_le {s : Bool} {h : Heap T} {q : priorityqueue} {g : GT T}
    (hi : Inv s h q g) : g.addrs.length ≤ h.next := by
  have hsub : g.addrs.toFinset ⊆ Finset.range h.next := by
    intro x hx
    simp only [List.mem_toFinset] at hx
    simpa using hi.lt x hx
  have := Finset.card_le_card hsub
  rw [List.toFinset_card_of_nodup hi.nodup, Finset.card_range] at this
  exact this

theorem enqueue_spec {s : Bool} {h : Heap T} {q : priorityqueue} {g : GT T} (v : T) (p : Int)
    (hi : Inv s h q g) :
    ∃ h2 q2, enqueue h q v p = some (h2, q2) ∧ Inv s h2 q2 (g.insert h.next v p) ∧
      (∀ x, x ∉ g.addrs → x ≠ h.next → h2.cells x = h.cells x) ∧ h2.next = h.next + 1 ∧
      q2.curr = q.curr ∧ q2.size = wrap32 (q.size + 1) := by
  have hfresh : h.next ∉ g.addrs := fun hm => Nat.lt_irrefl _ (hi.lt _ hm)
  have hperm := GT.insert_addrs_perm h.next v p g
  have hnd2 : (g.insert h.next v p).addrs.Nodup :=
    hperm.nodup_iff.2 (List.nodup_cons.2 ⟨hfresh, hi.nodup⟩)
  have hlt2 : ∀ a ∈ (g.insert h.next v p).addrs, a < h.next + 1 := by
    intro a ha
    rcases List.mem_cons.1 (hperm.mem_iff.1 ha) with e | e
    · omega
    · have := hi.lt a e; omega
  have hsz : wrap32 (q.size + 1) = wrap32 ((g.insert h.next v p).addrs.length : Int) := by
    rw [hperm.length_eq, hi.size, wrap32_add]; simp
  cases g with
  | nil =>
    have hr : q.root = none := hi.root
    refine ⟨(h.alloc ⟨p, v, false, none, none, none, none⟩).2,
      { q with root := some h.next, size := wrap32 (q.size + 1) }, by simp only [enqueue, hr]; rfl,
      ?_, ?_, rfl, rfl, rfl⟩
    · refine ⟨rfl, ?_, hnd2, hlt2, GT.insert_ordered _ _ _ _ hi.ordered, hsz⟩
      refine ⟨⟨⟨p, v, false, none, none, none, none⟩, by simp [Heap.alloc], rfl, rfl,
        fun _ => rfl, ?_, rfl, rfl, rfl⟩, trivial, trivial, trivial⟩
      intro x hx
      simp at hx
      exact hx ▸ rfl
    · intro x _ hx
      simp [Heap.alloc, hx]
  | node b pb w ch l r =>
    have hr : q.root = some b := hi.root
    have hrep1 : Rep s (h.alloc ⟨p, v, false, none, none, none, none⟩).2 (GT.node b pb w ch l r)
        (some none) := by
      refine hi.rep.frame_rep ?_
      intro x hx
      have hxa : x ≠ h.next := fun e => hfresh (e ▸ hx)
      simp [Heap.alloc, hxa]
    have hlen := hi.length_le
    obtain ⟨h2, he, hrep2, hfr, hnx⟩ := enqueueWalk_spec s h.next v p (h.next + 1 + 1)
      (GT.node b pb w ch l r) (h.next + 1 + 1)
      (h.alloc ⟨p, v, false, none, none, none, none⟩).2 (some none) none (by simp) hrep1 hi.nodup
      hfresh (by simp [Heap.alloc]) (by omega)
      (le_trans (GT.height_le _) (by omega))
    refine ⟨h2, { q with size := wrap32 (q.size + 1) }, ?_, ?_, ?_, ?_, rfl, rfl⟩
    · simp only [enqueue, hr, Heap.fuel]
      simp only [Heap.alloc, GT.ptr] at he ⊢
      rw [he]; rfl
    · refine ⟨?_, hrep2, hnd2, ?_, GT.insert_ordered _ _ _ _ hi.ordered, hsz⟩
      · rw [GT.insert_ptr _ _ _ _ (by simp)]; exact hr
      · rw [hnx]; exact hlt2
    · intro x hx hxa
      rw [hfr x hx hxa]
      simp [Heap.alloc, hxa]
    · rw [hnx]; rfl

theorem GT.ptr_node (a : Nat) (p : Int) (v : T) (ch : List (Nat × T)) (l r : GT T) :
    (GT.node a p v ch l r).ptr = some a := rfl

theorem GT.ptr_nil : (GT.nil : GT T).ptr = none := rfl

theorem GT.minAddr_node_nil (a : Nat) (p : Int) (v : T) (ch : List (Nat × T)) (r : GT T) :
    (GT.node a p v ch .nil r).minAddr = some a := rfl

theorem GT.minAddr_isSome (g : GT T) (hg : g ≠ .nil) : ∃ m, g.minAddr = some m := by
  cases g with
  | nil => exact absurd rfl hg
  | node a p v ch l r => exact ⟨_, rfl⟩

theorem GT.addrs_eq_min_cons (g : GT T) (m : Nat) (hm : g.minAddr = some m) :
    g.addrs = m :: g.popMin.addrs := by
  induction g generalizing m with
  | nil => cases hm
  | node a p v ch l r ihl _ =>
    cases l with
    | nil =>
      simp only [GT.minAddr, Option.getD_none, Option.some.injEq] at hm
      subst hm
      cases ch with
      | nil => simp [GT.addrs, GT.popMin]
      | cons c rest => simp [GT.addrs, GT.popMin]
    | node b q w ch2 l2 r2 =>
      obtain ⟨m2, hm2⟩ := GT.minAddr_isSome (GT.node b q w ch2 l2 r2) (by simp)
      have := ihl m2 hm2
      simp only [GT.minAddr] at hm hm2
      simp only [GT.minAddr, hm2, Option.getD_some, Option.some.injEq] at hm
      subst hm
      simp only [GT.popMin, GT.addrs] at this ⊢
      rw [this]
      simp

theorem GT.toList_eq_min_cons (g : GT T) (x : T × Int) (hm : g.minElem = some x) :
    g.toList = x :: g.popMin.toList := by
  induction g generalizing x with
  | nil => cases hm
  | node a p v ch l r ihl _ =>
    cases l with
    | nil =>
      simp only [GT.minElem, Option.getD_none, Option.some.injEq] at hm
      subst hm
      cases ch with
      | nil => simp [GT.toList, GT.popMin]
      | cons c rest => simp [GT.toList, GT.popMin]
    | node b q w ch2 l2 r2 =>
      have := ihl ((GT.node b q w ch2 l2 r2).minElem.getD (v, p)) (by simp [GT.minElem])
      simp only [GT.minElem, Option.getD_some, Option.some.injEq] at hm this
      subst hm
      simp only [GT.popMin, GT.toList] at this ⊢
      rw [this]
      simp

theorem traverseLeft_spec {s : Bool} {h : Heap T} :
    ∀ (g : GT T) (fuel : Nat) (par : Option (Option Nat)) (c0 : Option Nat),
      Rep s h g par → g.height ≤ fuel →
      _traverseLeft h fuel g.ptr c0 = some (match g.minAddr with | none => c0 | some m => some m) := by
  intro g
  induction g with
  | nil => intro fuel par c0 _ _; cases fuel <;> rfl
  | node a p v ch l r ihl _ =>
    intro fuel par c0 hrep hf
    obtain ⟨⟨n, hn, _, _, _, _, _, hleft, _⟩, _, hl, _⟩ := hrep
    cases fuel with
    | zero => simp [GT.height] at hf
    | succ f =>
      have hfl : l.height ≤ f := by simp only [GT.height] at hf; omega
      simp only [GT.ptr_node, _traverseLeft, hn, hleft]
      rw [ihl f _ (some a) hl hfl]
      simp only [GT.minAddr]
      cases l.minAddr <;> rfl

/-- Recording a parent in the root node of a shape. -/
theorem Rep.set_parent {h h2 : Heap T} {a : Nat} {p : Int} {v : T} {ch : List (Nat × T)}
    {l r : GT T} {par : Option (Option Nat)} (hr : Rep false h (GT.node a p v ch l r) par)
    (hnd : (GT.node a p v ch l r).addrs.Nodup) (x : Option Nat)
    (h2a : ∀ n, h.cells a = some n → h2.cells a = some { n with parent := x })
    (hfr : ∀ y ∈ (GT.node a p v ch l r).addrs, y ≠ a → h2.cells y = h.cells y) :
    Rep false h2 (GT.node a p v ch l r) (some x) := by
  obtain ⟨⟨n, hn, hp, hv, hdup, hpar, hlink, hleft, hright⟩, hch, hl, hrr⟩ := hr
  obtain ⟨hlnd, hrnd, hchnd, hbl, hbr, hbch, hlr, hchl, hchr⟩ := GT.nodup_node hnd
  refine ⟨⟨_, h2a n hn, hp, hv, hdup, ?_, hlink, hleft, hright⟩, ?_, ?_, ?_⟩
  · intro y hy; cases hy; rfl
  · refine hch.frame_chain ?_
    intro y hy
    exact hfr y (GT.mem_addrs_node.2 (Or.inr (Or.inr (Or.inl hy)))) (fun e => hbch (e ▸ hy))
  · refine hl.frame_rep ?_
    intro y hy
    exact hfr y (GT.mem_addrs_node.2 (Or.inl hy)) (fun e => hbl (e ▸ hy))
  · refine hrr.frame_rep ?_
    intro y hy
    exact hfr y (GT.mem_addrs_node.2 (Or.inr (Or.inr (Or.inr hy)))) (fun e => hbr (e ▸ hy))

theorem relinkAt_dup_par {h : Heap T} {a c pa : Nat} {n nc pn : NODE T} (rootp : Option Nat)
    (hn : h.cells a = some n) (hnc : h.cells c = some nc) (hpn : h.cells pa = some pn)
    (hlink : n.link = some c) (hpar : n.parent = some pa) (hpl : pn.left = some a)
    (hapa : a ≠ pa) (hca : c ≠ a) (hcpa : c ≠ pa) :
    ∃ h2, relinkAt h rootp a = some (h2, rootp) ∧ h2.next = h.next ∧
      ∀ x, h2.cells x =
        if x = c then some { nc with parent := some pa, left := n.left, right := n.right }
        else if x = pa then some { pn with left := some c } else h.cells x := by
  have hac : a ≠ c := Ne.symm hca
  have hpac : pa ≠ c := Ne.symm hcpa
  simp only [relinkAt, relinkDup, hn, hlink, hpar, hpn, hpl, Heap.modify,
    Heap.write_cells, ne_eq, not_false_eq_true, reduceCtorEq, ↓reduceIte, hapa, hac, hca,
    hcpa, hpac, hnc, Option.some_bind, Option.map_some']
  refine ⟨_, rfl, rfl, ?_⟩
  · intro x
    simp only [Heap.write_cells]
    by_cases hxc : x = c
    · simp [hxc]
    · by_cases hxp : x = pa
      · simp [hxp, hpac]
      · simp [hxc, hxp]

theorem relinkAt_right_par {h : Heap T} {a rc pa : Nat} {n nr pn : NODE T} (rootp : Option Nat)
    (hn : h.cells a = some n) (hnr : h.cells rc = some nr) (hpn : h.cells pa = some pn)
    (hlink : n.link = none) (hright : n.right = some rc) (hpar : n.parent = some pa)
    (hpl : pn.left = some a) (hapa : a ≠ pa) (hra : rc ≠ a) (hrpa : rc ≠ pa) :
    ∃ h2, relinkAt h rootp a = some (h2, rootp) ∧ h2.next = h.next ∧
      ∀ x, h2.cells x =
        if x = rc then some { nr with parent := some pa }
        else if x = pa then some { pn with left := some rc } else h.cells x := by
  have har : a ≠ rc := Ne.symm hra
  have hpar2 : pa ≠ rc := Ne.symm hrpa
  simp only [relinkAt, relinkRight, hn, hlink, hright, hpar, hpn, hpl, Heap.modify,
    Heap.write_cells, ne_eq, not_false_eq_true, not_true_eq_false, reduceCtorEq, ↓reduceIte,
    hapa, har, hra, hrpa, hpar2, hnr, Option.some_bind, Option.map_some']
  refine ⟨_, rfl, rfl, ?_⟩
  · intro x
    simp only [Heap.write_cells]

theorem relinkAt_leaf_par {h : Heap T} {a pa : Nat} {n pn : NODE T} (rootp : Option Nat)
    (hn : h.cells a = some n) (hpn : h.cells pa = some pn)
    (hlink : n.link = none) (hright : n.right = none) (hpar : n.parent = some pa) :
    ∃ h2, relinkAt h rootp a = some (h2, rootp) ∧ h2.next = h.next ∧
      ∀ x, h2.cells x = if x = pa then some { pn with left := none } else h.cells x := by
  simp only [relinkAt, hn, hlink, hright, hpar, hpn, Heap.modify,
    ne_eq, not_true_eq_false, ↓reduceIte, Option.map_some']
  refine ⟨_, rfl, rfl, ?_⟩
  · intro x; rfl

theorem relinkAt_dup_root {h : Heap T} {a c : Nat} {n nc : NODE T} (rootp : Option Nat)
    (hn : h.cells a = some n) (hnc : h.cells c = some nc)
    (hlink : n.link = some c) (hpar : n.parent = none) (hca : c ≠ a) :
    ∃ h2, relinkAt h rootp a = some (h2, some c) ∧ h2.next = h.next ∧
      ∀ x, h2.cells x =
        if x = c then some { nc with parent := none, left := n.left, right := n.right }
        else h.cells x := by
  have hac : a ≠ c := Ne.symm hca
  simp only [relinkAt, relinkDup, hn, hlink, hpar, Heap.modify,
    Heap.write_cells, ne_eq, not_false_eq_true, reduceCtorEq, ↓reduceIte, hac, hca,
    hnc, Option.some_bind, Option.map_some']
  refine ⟨_, rfl, rfl, ?_⟩
  · intro x
    simp only [Heap.write_cells]
    by_cases hxc : x = c
    · simp [hxc]
    · simp [hxc]

theorem relinkAt_right_root {h : Heap T} {a rc : Nat} {n nr : NODE T} (rootp : Option Nat)
    (hn : h.cells a = some n) (hnr : h.cells rc = some nr)
    (hlink : n.link = none) (hright : n.right = some rc) (hpar : n.parent = none) :
    ∃ h2, relinkAt h rootp a = some (h2, some rc) ∧ h2.next = h.next ∧
      ∀ x, h2.cells x = if x = rc then some { nr with parent := none } else h.cells x := by
  simp only [relinkAt, relinkRight, hn, hlink, hright, hpar, Heap.modify,
    ne_eq, not_false_eq_true, not_true_eq_false, reduceCtorEq, ↓reduceIte,
    hnr, Option.some_bind, Option.map_some']
  refine ⟨_, rfl, rfl, ?_⟩
  · intro x; rfl

theorem GT.popMin_node_node (a : Nat) (p : Int) (v : T) (ch : List (Nat × T)) (b : Nat)
    (q : Int) (w : T) (ch2 : List (Nat × T)) (l2 r2 r : GT T) :
    (GT.node a p v ch (GT.node b q w ch2 l2 r2) r).popMin =
      GT.node a p v ch (GT.node b q w ch2 l2 r2).popMin r := by
  rw [GT.popMin]

theorem relinkAt_sub :
    ∀ (g : GT T) (h : Heap T) (pa : Nat) (pn : NODE T) (rootp : Option Nat) (m : Nat),
      g.minAddr = some m →
      Rep false h g (some (some pa)) → h.cells pa = some pn → pn.left = g.ptr →
      pa ∉ g.addrs → g.addrs.Nodup →
      ∃ h2, relinkAt h rootp m = some (h2, rootp) ∧
        h2.cells pa = some { pn with left := g.popMin.ptr } ∧
        Rep false h2 g.popMin (some (some pa)) ∧
        (∀ x, x ∉ g.addrs → x ≠ pa → h2.cells x = h.cells x) ∧
        h2.cells m = h.cells m ∧ h2.next = h.next := by
  intro g
  induction g with
  | nil => intro h pa pn rootp m hm; cases hm
  | node a p v ch l r ihl _ =>
    intro h pa pn rootp m hm hrep hpn hpl hpa hnd
    have hrep0 := hrep
    obtain ⟨⟨n, hn, hp, hv, hdup, hpar, hlink, hleft, hright⟩, hch, hl, hr⟩ := hrep
    obtain ⟨hlnd, hrnd, hchnd, hbl, hbr, hbch, hlr, hchl, hchr⟩ := GT.nodup_node hnd
    have hpa2 := fun hx => hpa (GT.mem_addrs_node.2 hx)
    have hpaa : pa ≠ a := fun e => hpa2 (Or.inr (Or.inl e))
    have hapa : a ≠ pa := Ne.symm hpaa
    have hpal : pa ∉ l.addrs := fun e => hpa2 (Or.inl e)
    have hpar2 : pa ∉ r.addrs := fun e => hpa2 (Or.inr (Or.inr (Or.inr e)))
    have hpach : pa ∉ ch.map Prod.fst := fun e => hpa2 (Or.inr (Or.inr (Or.inl e)))
    have hnpar : n.parent = some pa := hpar _ rfl
    rw [GT.ptr_node] at hpl
    cases l with
    | nil =>
      simp only [GT.minAddr, Option.getD_none, Option.some.injEq] at hm
      subst hm
      have hnleft : n.left = none := hleft
      cases ch with
      | cons c rest =>
        obtain ⟨⟨nc, hnc, pc, vc, dupc, parc, leftc, rightc, linkc⟩, hrest⟩ := hch
        have hnlink : n.link = some c.1 := hlink
        have hca : c.1 ≠ a := fun e => hbch (by simp [← e])
        have hcpa : c.1 ≠ pa := fun e => hpach (by simp [← e])
        simp only [List.map_cons, List.nodup_cons, List.mem_cons, not_or] at hchnd
        obtain ⟨h2, he, hnx, hcells⟩ := relinkAt_dup_par rootp hn hnc hpn hnlink hnpar hpl hapa
          hca hcpa
        refine ⟨h2, he, ?_, ?_, ?_, ?_, hnx⟩
        · rw [hcells]; simp [Ne.symm hcpa, GT.popMin, GT.ptr]
        · simp only [GT.popMin]
          refine ⟨⟨{ nc with parent := some pa, left := n.left, right := n.right },
            (by rw [hcells]; simp), pc, vc, (fun e => by cases e), ?_, linkc, ?_, ?_⟩,
            ?_, trivial, ?_⟩
          · intro x hx; cases hx; rfl
          · exact hnleft
          · exact hright
          · refine hrest.frame_chain ?_
            intro x hx
            have hxc : x ≠ c.1 := fun e => hchnd.1 (e ▸ hx)
            have hxpa : x ≠ pa := fun e => hpach (by simp [← e, hx])
            rw [hcells]; simp [hxc, hxpa]
          · refine hr.frame_rep ?_
            intro x hx
            have hxc : x ≠ c.1 := fun e => hchr c.1 (by simp) (e ▸ hx)
            have hxpa : x ≠ pa := fun e => hpar2 (e ▸ hx)
            rw [hcells]; simp [hxc, hxpa]
        · intro x hx hxpa
          have hxc : x ≠ c.1 :=
            fun e => hx (GT.mem_addrs_node.2 (Or.inr (Or.inr (Or.inl (by simp [e])))))
          rw [hcells]; simp [hxc, hxpa]
        · rw [hcells]; simp [Ne.symm hca, hapa]
      | nil =>
        have hnlink : n.link = none := hlink
        cases r with
        | nil =>
          have hnright : n.right = none := hright
          obtain ⟨h2, he, hnx, hcells⟩ := relinkAt_leaf_par rootp hn hpn hnlink hnright hnpar
          refine ⟨h2, he, ?_, trivial, ?_, ?_, hnx⟩
          · rw [hcells]; simp [GT.popMin, GT.ptr]
          · intro x hx hxpa
            rw [hcells]; simp [hxpa]
          · rw [hcells]; simp [hapa]
        | node rb rq rw rch rl rr =>
          have hnright : n.right = some rb := hright
          have hr0 := hr
          obtain ⟨⟨nr, hnr, _⟩, _⟩ := hr
          have hrba : rb ≠ a := fun e => hbr (GT.mem_addrs_node.2 (Or.inr (Or.inl e.symm)))
          have hrbpa : rb ≠ pa :=
            fun e => hpar2 (GT.mem_addrs_node.2 (Or.inr (Or.inl e.symm)))
          obtain ⟨h2, he, hnx, hcells⟩ := relinkAt_right_par rootp hn hnr hpn hnlink hnright
            hnpar hpl hapa hrba hrbpa
          refine ⟨h2, he, ?_, ?_, ?_, ?_, hnx⟩
          · rw [hcells]; simp [Ne.symm hrbpa, GT.popMin, GT.ptr]
          · simp only [GT.popMin]
            refine Rep.set_parent hr0 hrnd (some pa) ?_ ?_
            · intro n2 hn2
              rw [hnr] at hn2; cases hn2
              rw [hcells]; simp
            · intro y hy hyrb
              have hypa : y ≠ pa := fun e => hpar2 (e ▸ hy)
              rw [hcells]; simp [hyrb, hypa]
          · intro x hx hxpa
            have hxrb : x ≠ rb := fun e => hx (GT.mem_addrs_node.2 (Or.inr (Or.inr (Or.inr
              (GT.mem_addrs_node.2 (Or.inr (Or.inl e)))))))
            rw [hcells]; simp [hxrb, hxpa]
          · rw [hcells]; simp [Ne.symm hrba, hapa]
    | node b q w ch2 l2 r2 =>
      obtain ⟨m2, hm2⟩ := GT.minAddr_isSome (GT.node b q w ch2 l2 r2) (by simp)
      have hmm : m = m2 := by
        simp only [GT.minAddr] at hm hm2
        simp only [GT.minAddr, hm2, Option.getD_some, Option.some.injEq] at hm
        exact hm.symm
      subst hmm
      have hmin := GT.addrs_eq_min_cons _ _ hm2
      have hml : m ∈ (GT.node b q w ch2 l2 r2).addrs := by rw [hmin]; simp
      obtain ⟨h2, he, hcell, hrep2, hfr, hmc, hnx⟩ := ihl h a n rootp m hm2 hl hn hleft hbl hlnd
      have hsub : ∀ x, x ∈ (GT.node b q w ch2 l2 r2).popMin.addrs →
          x ∈ (GT.node b q w ch2 l2 r2).addrs := by
        intro x hx; rw [hmin]; exact List.mem_cons_of_mem _ hx
      refine ⟨h2, he, ?_, ?_, ?_, hmc, hnx⟩
      · rw [hfr pa hpal hpaa, hpn]
        rw [GT.popMin_node_node, GT.ptr_node, ← hpl]
      · rw [GT.popMin_node_node]
        refine ⟨⟨_, hcell, hp, hv, hdup, hpar, hlink, rfl, hright⟩, ?_, hrep2, ?_⟩
        · refine hch.frame_chain ?_
          intro x hx
          exact hfr x (hchl x hx) (fun e => hbch (e ▸ hx))
        · refine hr.frame_rep ?_
          intro x hx
          exact hfr x (fun e => hlr x e hx) (fun e => hbr (e ▸ hx))
      · intro x hx hxpa
        exact hfr x (fun e => hx (GT.mem_addrs_node.2 (Or.inl e)))
          (fun e => hx (GT.mem_addrs_node.2 (Or.inr (Or.inl e))))

theorem GT.minElem_isSome (g : GT T) (hg : g ≠ .nil) : ∃ x, g.minElem = some x := by
  cases g with
  | nil => exact absurd rfl hg
  | node a p v ch l r => exact ⟨_, rfl⟩

theorem Rep.min_cell {s : Bool} {h : Heap T} :
    ∀ (g : GT T) (par : Option (Option Nat)) (m : Nat), Rep s h g par → g.minAddr = some m →
      ∃ c, h.cells m = some c ∧ g.minElem = some (c.value, c.priority) := by
  intro g
  induction g with
  | nil => intro par m _ hm; cases hm
  | node a p v ch l r ihl _ =>
    intro par m hrep hm
    obtain ⟨⟨n, hn, hp, hv, _⟩, _, hl, _⟩ := hrep
    cases l with
    | nil =>
      simp only [GT.minAddr, Option.getD_none, Option.some.injEq] at hm
      subst hm
      exact ⟨n, hn, by simp [GT.minElem, hp, hv]⟩
    | node b q w ch2 l2 r2 =>
      obtain ⟨m2, hm2⟩ := GT.minAddr_isSome (GT.node b q w ch2 l2 r2) (by simp)
      have hmm : m = m2 := by
        simp only [GT.minAddr] at hm hm2
        simp only [GT.minAddr, hm2, Option.getD_some, Option.some.injEq] at hm
        exact hm.symm
      subst hmm
      obtain ⟨c, hc, hce⟩ := ihl _ m hl hm2
      refine ⟨c, hc, ?_⟩
      simp only [GT.minElem] at hce ⊢
      simp only [GT.minElem, hce, Option.getD_some]

/-- The first node in order of a shape that must record a parent records one. -/
theorem relinkAt_min_parent {s : Bool} {h : Heap T} :
    ∀ (g : GT T) (pa : Nat) (m : Nat) (c : NODE T), Rep s h g (some (some pa)) →
      g.minAddr = some m → h.cells m = some c → ∃ x, c.parent = some x := by
  intro g
  induction g with
  | nil => intro pa m c _ hm; cases hm
  | node a p v ch l r ihl _ =>
    intro pa m c hrep hm hc
    obtain ⟨⟨n, hn, _, _, _, hpar, _⟩, _, hl, _⟩ := hrep
    cases l with
    | nil =>
      simp only [GT.minAddr, Option.getD_none, Option.some.injEq] at hm
      subst hm
      rw [hn] at hc; cases hc
      exact ⟨pa, hpar _ rfl⟩
    | node b q w ch2 l2 r2 =>
      obtain ⟨m2, hm2⟩ := GT.minAddr_isSome (GT.node b q w ch2 l2 r2) (by simp)
      have hmm : m = m2 := by
        simp only [GT.minAddr] at hm hm2
        simp only [GT.minAddr, hm2, Option.getD_some, Option.some.injEq] at hm
        exact hm.symm
      subst hmm
      exact ihl a m c hl hm2 hc

theorem GT.popMin_toList_subset (g : GT T) (x : T × Int) (hx : x ∈ g.popMin.toList) :
    x ∈ g.toList := by
  cases g with
  | nil => exact hx
  | node a p v ch l r =>
    obtain ⟨y, hy⟩ := GT.minElem_isSome (GT.node a p v ch l r) (by simp)
    rw [GT.toList_eq_min_cons _ y hy]
    exact List.mem_cons_of_mem _ hx

theorem GT.popMin_ordered (g : GT T) (ho : g.Ordered) : g.popMin.Ordered := by
  induction g with
  | nil => exact ho
  | node a p v ch l r ihl _ =>
    obtain ⟨h1, h2, h3, h4⟩ := ho
    cases l with
    | nil =>
      cases ch with
      | nil => exact h4
      | cons c rest => exact ⟨by simp [GT.toList], h2, trivial, h4⟩
    | node b q w ch2 l2 r2 =>
      rw [GT.popMin_node_node]
      exact ⟨fun x hx => h1 x (GT.popMin_toList_subset _ x hx), h2, ihl h3, h4⟩

theorem recursiveClear_single {h : Heap T} {a : Nat} {n : NODE T} (size : Int) (fuel : Nat)
    (hn : h.cells a = some n) (hl : n.left = none) (hr : n.right = none) (hk : n.link = none) :
    _recursiveClear (fuel + 1) h size (some a) =
      some (⟨fun x => if x = a then none else h.cells x, h.next⟩, wrap32 (size - 1)) := by
  cases fuel <;>
  simp [_recursiveClear, hn, hl, hr, hk, Heap.delete]

theorem dequeue_spec [DefaultInit T] {h : Heap T} {q : priorityqueue} {g : GT T}
    (hi : Inv false h q g) (x : T × Int) (hx : g.minElem = some x) :
    ∃ h2 q2, dequeue h q = some (x.1, h2, q2) ∧ Inv false h2 q2 g.popMin ∧
      (∀ y, y ∉ g.addrs → h2.cells y = h.cells y) ∧ h2.next = h.next ∧
      q2.size = wrap32 (q.size - 1) ∧ q2.curr = none := by
  cases g with
  | nil => cases hx
  | node a p v ch l r =>
    have hroot : q.root = some a := hi.root
    have hlen := hi.length_le
    obtain ⟨m, hm⟩ := GT.minAddr_isSome (GT.node a p v ch l r) (by simp)
    have hmin := GT.addrs_eq_min_cons _ _ hm
    obtain ⟨c, hc, hce⟩ := hi.rep.min_cell _ _ _ hm
    rw [hx] at hce
    have hxv : x.1 = c.value := by cases hce; rfl
    have hnd2 : (GT.node a p v ch l r).popMin.addrs.Nodup := by
      have := hi.nodup; rw [hmin] at this; exact (List.nodup_cons.1 this).2
    have hmnot : m ∉ (GT.node a p v ch l r).popMin.addrs := by
      have := hi.nodup; rw [hmin] at this; exact (List.nodup_cons.1 this).1
    have hsub : ∀ y, y ∈ (GT.node a p v ch l r).popMin.addrs →
        y ∈ (GT.node a p v ch l r).addrs := by
      intro y hy; rw [hmin]; exact List.mem_cons_of_mem _ hy
    have hsz : wrap32 (q.size - 1) =
        wrap32 ((GT.node a p v ch l r).popMin.addrs.length : Int) := by
      rw [hi.size, hmin, wrap32_sub]; simp
    have hord := GT.popMin_ordered _ hi.ordered
    have hrep0 := hi.rep
    obtain ⟨⟨n, hn, hp, hv, hdup, hpar, hlink, hleft, hright⟩, hch, hl, hr⟩ := hi.rep
    obtain ⟨hlnd, hrnd, hchnd, hbl, hbr, hbch, hlr, hchl, hchr⟩ := GT.nodup_node hi.nodup
    have hnpar : n.parent = none := hpar _ rfl
    -- the common ending: release the node `m` after the relinking
    have finish : ∀ (h1 : Heap T) (root1 : Option Nat),
        relinkAt h q.root m = some (h1, root1) → h1.cells m = h.cells m → h1.next = h.next →
        root1 = (GT.node a p v ch l r).popMin.ptr →
        Rep false h1 (GT.node a p v ch l r).popMin (some none) →
        (∀ y, y ∉ (GT.node a p v ch l r).addrs → h1.cells y = h.cells y) →
        (c.link ≠ none ∨ c.right ≠ none ∨ c.parent ≠ none) →
        findMin h q a = some (m, if l.ptr = none then q.curr else some m) →
        ∃ h2 q2, dequeue h q = some (x.1, h2, q2) ∧
          Inv false h2 q2 (GT.node a p v ch l r).popMin ∧
          (∀ y, y ∉ (GT.node a p v ch l r).addrs → h2.cells y = h.cells y) ∧
          h2.next = h.next ∧ q2.size = wrap32 (q.size - 1) ∧ q2.curr = none := by
      intro h1 root1 he hmc hnx hrt hrep1 hfr hcase hfind
      have hdel : h1.delete m = some ⟨fun y => if y = m then none else h1.cells y, h1.next⟩ :=
        Heap.delete_eq (hmc.trans hc)
      refine ⟨⟨fun y => if y = m then none else h1.cells y, h1.next⟩,
        { root := root1, size := wrap32 (q.size - 1), curr := none }, ?_, ?_, ?_, hnx, rfl, rfl⟩
      · simp only [dequeue, hroot, hfind, Option.some_bind, hc, hxv]
        simp only [relinkAt, hc, hroot] at he
        by_cases c1 : c.link ≠ none
        · rw [if_pos c1] at he ⊢
          simp only [he, Option.some_bind, hdel, Option.map_some']
        · rw [if_neg c1] at he ⊢
          by_cases c2 : c.right ≠ none
          · rw [if_pos c2] at he ⊢
            simp only [he, Option.some_bind, hdel, Option.map_some']
          · rw [if_neg c2] at he ⊢
            cases hcp : c.parent with
            | none =>
              rcases hcase with e | e | e
              · exact absurd e c1
              · exact absurd e c2
              · exact absurd hcp e
            | some pa =>
              simp only [hcp] at he ⊢
              cases hmod : h.modify pa (fun n => { n with left := none }) with
              | none => simp [hmod] at he
              | some h3 =>
                simp only [hmod, Option.map_some', Option.some.injEq, Prod.mk.injEq] at he
                obtain ⟨e1, e2⟩ := he
                subst e1
                subst e2
                simp only [Option.some_bind, hdel, Option.map_some']
      · refine ⟨hrt, ?_, hnd2, ?_, hord, hsz⟩
        · refine hrep1.frame_rep ?_
          intro y hy
          have : y ≠ m := fun e => hmnot (e ▸ hy)
          simp [this]
        · intro y hy
          rw [hnx]; exact hi.lt y (hsub y hy)
      · intro y hy
        have : y ≠ m := fun e => hy (by rw [hmin, e]; simp)
        simp only [this, if_false]
        exact hfr y hy
    cases l with
    | nil =>
      have hma : m = a := by
        simp only [GT.minAddr, Option.getD_none, Option.some.injEq] at hm
        exact hm.symm
      subst hma
      have hcn : c = n := by rw [hn] at hc; cases hc; rfl
      subst hcn
      have hnleft : c.left = none := hleft
      have hfind : findMin h q m = some (m, if (GT.nil : GT T).ptr = none then q.curr else some m) := by
        simp only [findMin, hn, hnleft, GT.ptr_nil, if_true]
      cases ch with
      | cons c0 rest =>
        obtain ⟨⟨nc, hnc, pc, vc, dupc, parc, leftc, rightc, linkc⟩, hrest⟩ := hch
        have hnlink : c.link = some c0.1 := hlink
        have hca : c0.1 ≠ m := fun e => hbch (by simp [← e])
        simp only [List.map_cons, List.nodup_cons, List.mem_cons, not_or] at hchnd
        obtain ⟨h2, he, hnx, hcells⟩ := relinkAt_dup_root q.root hn hnc hnlink hnpar hca
        refine finish h2 (some c0.1) he ?_ hnx rfl ?_ ?_ (Or.inl (by simp [hnlink])) hfind
        · rw [hcells]; simp [Ne.symm hca]
        · simp only [GT.popMin]
          refine ⟨⟨{ nc with parent := none, left := c.left, right := c.right },
            (by rw [hcells]; simp), pc, vc, (fun e => by cases e), ?_, linkc, ?_, ?_⟩,
            ?_, trivial, ?_⟩
          · intro y hy; cases hy; rfl
          · exact hnleft
          · exact hright
          · refine hrest.frame_chain ?_
            intro y hy
            have hyc : y ≠ c0.1 := fun e => hchnd.1 (e ▸ hy)
            rw [hcells]; simp [hyc]
          · refine hr.frame_rep ?_
            intro y hy
            have hyc : y ≠ c0.1 := fun e => hchr c0.1 (by simp) (e ▸ hy)
            rw [hcells]; simp [hyc]
        · intro y hy
          have hyc : y ≠ c0.1 :=
            fun e => hy (GT.mem_addrs_node.2 (Or.inr (Or.inr (Or.inl (by simp [e])))))
          rw [hcells]; simp [hyc]
      | nil =>
        have hnlink : c.link = none := hlink
        cases r with
        | node rb rq rw rch rl rr =>
          have hnright : c.right = some rb := hright
          have hr0 := hr
          obtain ⟨⟨nr, hnr, _⟩, _⟩ := hr
          have hrba : rb ≠ m := fun e => hbr (GT.mem_addrs_node.2 (Or.inr (Or.inl e.symm)))
          obtain ⟨h2, he, hnx, hcells⟩ := relinkAt_right_root q.root hn hnr hnlink hnright hnpar
          refine finish h2 (some rb) he ?_ hnx rfl ?_ ?_ (Or.inr (Or.inl (by simp [hnright])))
            hfind
          · rw [hcells]; simp [Ne.symm hrba]
          · simp only [GT.popMin]
            refine Rep.set_parent hr0 hrnd none ?_ ?_
            · intro n2 hn2
              rw [hnr] at hn2; cases hn2
              rw [hcells]; simp
            · intro y hy hyrb
              rw [hcells]; simp [hyrb]
          · intro y hy
            have hyrb : y ≠ rb := fun e => hy (GT.mem_addrs_node.2 (Or.inr (Or.inr (Or.inr
              (GT.mem_addrs_node.2 (Or.inr (Or.inl e)))))))
            rw [hcells]; simp [hyrb]
        | nil =>
          have hnright : c.right = none := hright
          refine ⟨⟨fun y => if y = m then none else h.cells y, h.next⟩,
            { root := none, size := wrap32 (q.size - 1), curr := none }, ?_, ?_, ?_, rfl, rfl, rfl⟩
          · simp only [dequeue, hroot, hfind, Option.some_bind, hn, hxv, hnlink, hnright, hnpar,
              ne_eq, not_true_eq_false, if_false, clear, Heap.fuel,
              recursiveClear_single q.size h.next hn hnleft hnright hnlink, Option.map_some']
          · exact ⟨rfl, trivial, hnd2, by simp [GT.popMin, GT.addrs], hord, hsz⟩
          · intro y hy
            have : y ≠ m := fun e => hy (by rw [hmin, e]; simp)
            simp [this]
    | node b pb w ch2 l2 r2 =>
      have hm0 := hm
      obtain ⟨m2, hm2⟩ := GT.minAddr_isSome (GT.node b pb w ch2 l2 r2) (by simp)
      have hmm : m = m2 := by
        simp only [GT.minAddr] at hm hm2
        simp only [GT.minAddr, hm2, Option.getD_some, Option.some.injEq] at hm
        exact hm.symm
      subst hmm
      have hlenl : (GT.node b pb w ch2 l2 r2).addrs.length ≤ h.next := by
        refine le_trans ?_ hlen
        simp only [GT.addrs, List.length_append, List.length_cons, List.length_map]
        omega
      have hfind : findMin h q a =
          some (m, if (GT.node b pb w ch2 l2 r2).ptr = none then q.curr else some m) := by
        have ht := traverseLeft_spec (GT.node b pb w ch2 l2 r2) h.fuel _ q.curr hl
          (le_trans (GT.height_le _) (by simp only [Heap.fuel]; omega))
        rw [hm2] at ht
        simp only [GT.ptr_node] at ht
        simp only [findMin, hn, hleft, GT.ptr_node, ht, reduceCtorEq, if_false]
      obtain ⟨c2, hc2, hce2⟩ := hl.min_cell _ _ _ hm2
      have hcc : c2 = c := by rw [hc] at hc2; cases hc2; rfl
      obtain ⟨h2, he, hcell, hrep2, hfr, hmc, hnx⟩ :=
        relinkAt_sub _ h a n q.root m hm2 hl hn hleft hbl hlnd
      have hml : m ∈ (GT.node b pb w ch2 l2 r2).addrs := by
        rw [GT.addrs_eq_min_cons _ _ hm2]; simp
      obtain ⟨xp, hcpar⟩ := relinkAt_min_parent _ _ _ _ hl hm2 hc
      refine finish h2 q.root he hmc hnx ?_ ?_ ?_ (Or.inr (Or.inr (by simp [hcpar]))) hfind
      · rw [GT.popMin_node_node, GT.ptr_node]; exact hroot
      · rw [GT.popMin_node_node]
        refine ⟨⟨_, hcell, hp, hv, hdup, hpar, hlink, rfl, hright⟩, ?_, hrep2, ?_⟩
        · refine hch.frame_chain ?_
          intro y hy
          exact hfr y (hchl y hy) (fun e => hbch (e ▸ hy))
        · refine hr.frame_rep ?_
          intro y hy
          exact hfr y (fun e => hlr y e hy) (fun e => hbr (e ▸ hy))
      · intro y hy
        exact hfr y (fun e => hy (GT.mem_addrs_node.2 (Or.inl e)))
          (fun e => hy (GT.mem_addrs_node.2 (Or.inr (Or.inl e))))

theorem mem_insertFront (x y : T × Int) (l : List (T × Int)) :
    y ∈ insertFront x l ↔ y = x ∨ y ∈ l := by
  induction l with
  | nil => simp [insertFront]
  | cons z zs ih =>
    simp only [insertFront]
    split_ifs
    · simp
    · simp only [List.mem_cons, ih]; tauto

theorem mem_insertBack (x y : T × Int) (l : List (T × Int)) :
    y ∈ insertBack x l ↔ y = x ∨ y ∈ l := by
  induction l with
  | nil => simp [insertBack]
  | cons z zs ih =>
    simp only [insertBack]
    split_ifs
    · simp
    · simp only [List.mem_cons, ih]; tauto

theorem PrioSorted.insertFront (x : T × Int) {l : List (T × Int)} (hs : PrioSorted l) :
    PrioSorted (insertFront x l) := by
  induction l with
  | nil => simp [PQ.insertFront, PrioSorted]
  | cons z zs ih =>
    simp only [PQ.insertFront]
    have hz := List.pairwise_cons.1 hs
    split_ifs with hc
    · refine List.pairwise_cons.2 ⟨?_, hs⟩
      intro y hy
      rcases List.mem_cons.1 hy with e | e
      · subst e; exact hc
      · exact le_trans hc (hz.1 y e)
    · refine List.pairwise_cons.2 ⟨?_, ih hz.2⟩
      intro y hy
      rcases (mem_insertFront x y zs).1 hy with e | e
      · subst e; omega
      · exact hz.1 y e

theorem PrioSorted.insertBack (x : T × Int) {l : List (T × Int)} (hs : PrioSorted l) :
    PrioSorted (insertBack x l) := by
  induction l with
  | nil => simp [PQ.insertBack, PrioSorted]
  | cons z zs ih =>
    simp only [PQ.insertBack]
    have hz := List.pairwise_cons.1 hs
    split_ifs with hc
    · refine List.pairwise_cons.2 ⟨?_, hs⟩
      intro y hy
      rcases List.mem_cons.1 hy with e | e
      · subst e; omega
      · exact le_trans (le_of_lt hc) (hz.1 y e)
    · refine List.pairwise_cons.2 ⟨?_, ih hz.2⟩
      intro y hy
      rcases (mem_insertBack x y zs).1 hy with e | e
      · subst e; omega
      · exact hz.1 y e

theorem stableSort_sorted (l : List (T × Int)) : PrioSorted (stableSort l) := by
  induction l with
  | nil => simp [stableSort, PrioSorted]
  | cons x xs ih => exact ih.insertFront x

theorem insertFront_filter (x : T × Int) (p : Int) (l : List (T × Int)) (hs : PrioSorted l) :
    (insertFront x l).filter (fun y => decide (y.2 = p)) =
      if x.2 = p then x :: l.filter (fun y => decide (y.2 = p))
      else l.filter (fun y => decide (y.2 = p)) := by
  induction l with
  | nil => by_cases h : x.2 = p <;> simp [insertFront, h]
  | cons z zs ih =>
    have hz := List.pairwise_cons.1 hs
    simp only [insertFront]
    split_ifs with hc hp hp
    · simp [List.filter_cons, hp]
    · simp [List.filter_cons, hp]
    · have hzp : ¬ z.2 = p := by omega
      rw [List.filter_cons, ih hz.2, if_pos hp]
      simp [List.filter_cons, hzp]
    · rw [List.filter_cons, ih hz.2, if_neg hp]
      simp [List.filter_cons]

/-- The sort is stable: the elements of any one priority keep their order. -/
theorem stableSort_filter (p : Int) (l : List (T × Int)) :
    (stableSort l).filter (fun y => decide (y.2 = p)) = l.filter (fun y => decide (y.2 = p)) := by
  induction l with
  | nil => rfl
  | cons x xs ih =>
    simp only [stableSort]
    rw [insertFront_filter x p _ (stableSort_sorted xs), ih]
    by_cases h : x.2 = p <;> simp [List.filter_cons, h]

theorem stableSort_perm (l : List (T × Int)) : (stableSort l).Perm l := by
  induction l with
  | nil => exact List.Perm.refl _
  | cons x xs ih =>
    have h1 : ∀ (s : List (T × Int)), (insertFront x s).Perm (x :: s) := by
      intro s
      induction s with
      | nil => exact List.Perm.refl _
      | cons z zs ihz =>
        simp only [insertFront]
        split_ifs
        · exact List.Perm.refl _
        · exact (List.Perm.cons z ihz).trans (List.Perm.swap _ _ _)
    exact (h1 _).trans (List.Perm.cons x ih)

theorem insertBack_insertFront (a x : T × Int) (l : List (T × Int)) :
    insertBack x (insertFront a l) = insertFront a (insertBack x l) := by
  induction l with
  | nil =>
    simp only [insertFront, insertBack]
    by_cases h : x.2 < a.2
    · have : ¬ a.2 ≤ x.2 := by omega
      simp [h, this, insertFront]
    · have : a.2 ≤ x.2 := by omega
      simp [h, this, insertBack]
  | cons z zs ih =>
    simp only [insertFront, insertBack]
    by_cases h1 : a.2 ≤ z.2
    · by_cases h2 : x.2 < z.2
      · simp only [h1, h2, if_true, insertBack, insertFront]
        by_cases h3 : x.2 < a.2
        · have : ¬ a.2 ≤ x.2 := by omega
          simp [h3, this, h1]
        · have : a.2 ≤ x.2 := by omega
          simp [h3, this, h2]
      · have h3 : ¬ x.2 < a.2 := by omega
        simp [h1, h2, h3, insertBack, insertFront]
    · by_cases h2 : x.2 < z.2
      · have h3 : ¬ a.2 ≤ x.2 := by omega
        simp [h1, h2, h3, insertBack, insertFront]
      · simp [h1, h2, insertBack, insertFront, ih]

theorem stableSort_append_singleton (l : List (T × Int)) (x : T × Int) :
    stableSort (l ++ [x]) = insertBack x (stableSort l) := by
  induction l with
  | nil => rfl
  | cons a as ih =>
    simp only [List.cons_append, stableSort, List.append_eq, ih, insertBack_insertFront]

theorem insertBack_append_left (x : T × Int) (l1 l2 : List (T × Int))
    (h1 : ∀ y ∈ l1, y.2 ≤ x.2) : insertBack x (l1 ++ l2) = l1 ++ insertBack x l2 := by
  induction l1 with
  | nil => rfl
  | cons z zs ih =>
    have hz : ¬ x.2 < z.2 := by have := h1 z (by simp); omega
    simp only [List.cons_append, insertBack, if_neg hz, List.append_eq]
    rw [ih (fun y hy => h1 y (List.mem_cons_of_mem _ hy))]

theorem insertBack_append_right (x : T × Int) (l1 l2 : List (T × Int)) (b : T × Int)
    (hb : x.2 < b.2) : insertBack x (l1 ++ b :: l2) = insertBack x l1 ++ b :: l2 := by
  induction l1 with
  | nil => simp [insertBack, hb]
  | cons z zs ih =>
    simp only [List.cons_append, insertBack, List.append_eq]
    split_ifs
    · rfl
    · rw [ih]; rfl

theorem insertBack_of_lt_all (x : T × Int) (l : List (T × Int)) (h : ∀ y ∈ l, x.2 < y.2) :
    insertBack x l = x :: l := by
  cases l with
  | nil => rfl
  | cons z zs => simp [insertBack, h z (by simp)]

theorem GT.toList_insert (a : Nat) (v : T) (p : Int) (g : GT T) (ho : g.Ordered) :
    (g.insert a v p).toList = insertBack (v, p) g.toList := by
  induction g with
  | nil => rfl
  | node b q w ch l r ihl ihr =>
    obtain ⟨h1, h2, h3, h4⟩ := ho
    simp only [GT.insert]
    split_ifs with c1 c2
    · simp only [GT.toList, ihr h4]
      rw [insertBack_append_left]
      intro y hy
      rcases List.mem_append.1 hy with e | e
      · have := h1 y e; simp only at this ⊢; omega
      · rcases List.mem_cons.1 e with e | e
        · subst e; simp only; omega
        · obtain ⟨c, _, hc⟩ := List.mem_map.1 e
          subst hc; simp only; omega
    · simp only [GT.toList, ihl h3, List.append_assoc, List.cons_append]
      rw [insertBack_append_right _ _ _ _ c2]
    · have hpq : p = q := by omega
      subst hpq
      simp only [GT.toList, List.map_append, List.map_cons, List.map_nil]
      rw [insertBack_append_left, insertBack_of_lt_all _ _ h2]
      · simp
      · intro y hy
        rcases List.mem_append.1 hy with e | e
        · have := h1 y e; simp only at this ⊢; omega
        · rcases List.mem_cons.1 e with e | e
          · subst e; simp
          · obtain ⟨c, _, hc⟩ := List.mem_map.1 e
            subst hc; simp

theorem firstMin_eq_none {l : List (T × Int)} (h : firstMin l = none) : l = [] := by
  cases l with
  | nil => rfl
  | cons x xs =>
    simp only [firstMin] at h
    cases hx : firstMin xs with
    | none => simp [hx] at h
    | some y => simp only [hx] at h; split_ifs at h

theorem head_insertFront (x : T × Int) (l : List (T × Int)) :
    (insertFront x l).head? =
      match l.head? with
      | none => some x
      | some y => if x.2 ≤ y.2 then some x else some y := by
  cases l with
  | nil => rfl
  | cons z zs =>
    simp only [insertFront, List.head?_cons]
    split_ifs <;> rfl

theorem stableSort_head (l : List (T × Int)) : (stableSort l).head? = firstMin l := by
  induction l with
  | nil => rfl
  | cons x xs ih => simp only [stableSort, head_insertFront, ih, firstMin]

theorem stableSort_removeFirstMin (l : List (T × Int)) :
    stableSort (removeFirstMin l) = (stableSort l).tail := by
  induction l with
  | nil => rfl
  | cons x xs ih =>
    simp only [removeFirstMin, stableSort]
    have hh := stableSort_head xs
    cases hf : firstMin xs with
    | none =>
      have := firstMin_eq_none hf
      subst this
      rfl
    | some y =>
      rw [hf] at hh
      cases hs : stableSort xs with
      | nil => rw [hs] at hh; cases hh
      | cons z zs =>
        rw [hs] at hh ih
        simp only [List.head?_cons, Option.some.injEq] at hh
        subst hh
        simp only [insertFront]
        split_ifs with hc
        · simp [hs]
        · simp only [stableSort, ih, List.tail_cons]

/-- What `firstMin` chooses has the least priority and is the earliest stored
element of that priority. -/
theorem firstMin_split {l : List (T × Int)} {x : T × Int} (h : firstMin l = some x) :
    ∃ pre post, l = pre ++ x :: post ∧ (∀ y ∈ pre, x.2 < y.2) ∧ (∀ y ∈ post, x.2 ≤ y.2) ∧
      removeFirstMin l = pre ++ post := by
  induction l generalizing x with
  | nil => cases h
  | cons z zs ih =>
    simp only [firstMin] at h
    cases hf : firstMin zs with
    | none =>
      have := firstMin_eq_none hf
      subst this
      simp only [hf, Option.some.injEq] at h
      subst h
      exact ⟨[], [], rfl, by simp, by simp, by simp [removeFirstMin, firstMin]⟩
    | some y =>
      simp only [hf] at h
      obtain ⟨pre, post, hl, hpre, hpost, hrem⟩ := ih hf
      split_ifs at h with hc
      · simp only [Option.some.injEq] at h
        subst h
        refine ⟨[], zs, rfl, by simp, ?_, by simp [removeFirstMin, hf, hc]⟩
        intro w hw
        rw [hl] at hw
        rcases List.mem_append.1 hw with e | e
        · have := hpre w e; omega
        · rcases List.mem_cons.1 e with e | e
          · subst e; exact hc
          · have := hpost w e; omega
      · simp only [Option.some.injEq] at h
        subst h
        refine ⟨z :: pre, post, by rw [hl]; rfl, ?_, hpost, ?_⟩
        · intro w hw
          rcases List.mem_cons.1 hw with e | e
          · subst e; omega
          · exact hpre w e
        · simp [removeFirstMin, hf, hc, hrem]

theorem Inv.weaken_inv {h : Heap T} {q : priorityqueue} {g : GT T} (hi : Inv true h q g) :
    Inv false h q g := by
  refine ⟨hi.root, ?_, hi.nodup, hi.lt, hi.ordered, hi.size⟩
  have : ∀ (g : GT T) (par : Option (Option Nat)), Rep true h g par → Rep false h g par := by
    intro g
    induction g with
    | nil => intro _ _; trivial
    | node a p v ch l r ihl ihr =>
      intro par hr
      obtain ⟨⟨n, hn, hp, hv, _, hpar, hrest⟩, hch, hl, hrr⟩ := hr
      exact ⟨⟨n, hn, hp, hv, (fun e => by cases e), hpar, hrest⟩, hch, ihl _ hl,
        (ihr _ hrr).weaken_par⟩
  exact this g _ hi.rep

theorem Abs.weaken_abs {h : Heap T} {q : priorityqueue} {l : List (T × Int)} (ha : Abs true h q l) :
    Abs false h q l := by
  obtain ⟨g, hi, hg⟩ := ha
  exact ⟨g, hi.weaken_inv, hg⟩

theorem Inv.of_new (s : Bool) (h : Heap T) : Inv s h priorityqueue.new (.nil : GT T) :=
  ⟨rfl, trivial, List.nodup_nil, by simp [GT.addrs], trivial,
    by simp [priorityqueue.new, GT.addrs, wrap32_zero]⟩

theorem Abs.new (s : Bool) : Abs s (Heap.empty : Heap T) priorityqueue.new [] :=
  ⟨.nil, Inv.of_new s _, rfl⟩

theorem Abs.enqueue_abs {s : Bool} {h : Heap T} {q : priorityqueue} {l : List (T × Int)}
    (ha : Abs s h q l) (v : T) (p : Int) :
    ∃ h2 q2, priorityqueue.enqueue h q v p = some (h2, q2) ∧ Abs s h2 q2 (l ++ [(v, p)]) ∧
      q2.size = wrap32 (q.size + 1) := by
  obtain ⟨g, hi, hg⟩ := ha
  obtain ⟨h2, q2, he, hi2, _, _, _, hsz⟩ := enqueue_spec v p hi
  refine ⟨h2, q2, he, ⟨_, hi2, ?_⟩, hsz⟩
  rw [GT.toList_insert _ _ _ _ hi.ordered, hg, stableSort_append_singleton]

theorem GT.minElem_eq_head (g : GT T) : g.minElem = g.toList.head? := by
  cases g with
  | nil => rfl
  | node a p v ch l r =>
    obtain ⟨x, hx⟩ := GT.minElem_isSome (GT.node a p v ch l r) (by simp)
    rw [GT.toList_eq_min_cons _ x hx, hx]; rfl

theorem Abs.dequeue_abs [DefaultInit T] {h : Heap T} {q : priorityqueue} {l : List (T × Int)}
    (ha : Abs false h q l) (x : T × Int) (hx : firstMin l = some x) :
    ∃ h2 q2, priorityqueue.dequeue h q = some (x.1, h2, q2) ∧
      Abs false h2 q2 (removeFirstMin l) ∧ q2.size = wrap32 (q.size - 1) ∧ h2.next = h.next := by
  obtain ⟨g, hi, hg⟩ := ha
  have hmin : g.minElem = some x := by
    rw [GT.minElem_eq_head, hg, stableSort_head, hx]
  obtain ⟨h2, q2, he, hi2, _, hnx, hsz, _⟩ := dequeue_spec hi x hmin
  refine ⟨h2, q2, he, ⟨_, hi2, ?_⟩, hsz, hnx⟩
  rw [stableSort_removeFirstMin, ← hg, GT.toList_eq_min_cons g x hmin]
  rfl

theorem Abs.dequeue_empty [Inhabited T] [ClassType T] {s : Bool} {h : Heap T} {q : priorityqueue}
    (ha : Abs s h q []) : priorityqueue.dequeue h q = some (default, h, q) := by
  obtain ⟨g, hi, hg⟩ := ha
  cases g with
  | nil =>
    have : q.root = none := hi.root
    simp [priorityqueue.dequeue, this, ClassType.constructed]
  | node a p v ch l r =>
    have := congrArg List.length hg
    simp [GT.toList, stableSort] at this

theorem findMin_spec {s : Bool} {h : Heap T} {q : priorityqueue} {a : Nat} {p : Int} {v : T}
    {ch : List (Nat × T)} {l r : GT T} (hi : Inv s h q (GT.node a p v ch l r)) :
    ∃ m cu, (GT.node a p v ch l r).minAddr = some m ∧ findMin h q a = some (m, cu) := by
  obtain ⟨m, hm⟩ := GT.minAddr_isSome (GT.node a p v ch l r) (by simp)
  have hlen := hi.length_le
  obtain ⟨⟨n, hn, hp, hv, hdup, hpar, hlink, hleft, hright⟩, hch, hl, hr⟩ := hi.rep
  cases l with
  | nil =>
    have hnleft : n.left = none := hleft
    refine ⟨m, q.curr, hm, ?_⟩
    simp only [GT.minAddr, Option.getD_none, Option.some.injEq] at hm
    subst hm
    simp only [findMin, hn, hnleft]
  | node b pb w ch2 l2 r2 =>
    obtain ⟨m2, hm2⟩ := GT.minAddr_isSome (GT.node b pb w ch2 l2 r2) (by simp)
    have hmm : m = m2 := by
      simp only [GT.minAddr] at hm hm2
      simp only [GT.minAddr, hm2, Option.getD_some, Option.some.injEq] at hm
      exact hm.symm
    subst hmm
    have hlenl : (GT.node b pb w ch2 l2 r2).addrs.length ≤ h.next := by
      refine le_trans ?_ hlen
      simp only [GT.addrs, List.length_append, List.length_cons, List.length_map]
      omega
    have ht := traverseLeft_spec (GT.node b pb w ch2 l2 r2) h.fuel _ q.curr hl
      (le_trans (GT.height_le _) (by simp only [Heap.fuel]; omega))
    rw [hm2] at ht
    simp only [GT.ptr_node] at ht
    refine ⟨m, some m, hm, ?_⟩
    simp only [findMin, hn, hleft, GT.ptr_node, ht]

theorem peek_spec [DefaultInit T] {s : Bool} {h : Heap T} {q : priorityqueue} {g : GT T}
    (hi : Inv s h q g) (x : T × Int) (hx : g.minElem = some x) :
    ∃ cu, peek h q = some (x.1, { q with curr := cu }) := by
  cases g with
  | nil => cases hx
  | node a p v ch l r =>
    have hroot : q.root = some a := hi.root
    obtain ⟨m, cu, hm, hfind⟩ := findMin_spec hi
    obtain ⟨c, hc, hce⟩ := hi.rep.min_cell _ _ _ hm
    rw [hx] at hce
    cases hce
    exact ⟨cu, by simp only [peek, hroot, hfind, Option.some_bind, hc]⟩

theorem Abs.enqueueAll {s : Bool} :
    ∀ (xs : List (T × Int)) {h : Heap T} {q : priorityqueue} {l : List (T × Int)},
      Abs s h q l →
      ∃ h2 q2, PQ.enqueueAll xs h q = some (h2, q2) ∧ Abs s h2 q2 (l ++ xs) ∧
        q2.size = wrap32 (q.size + xs.length) := by
  intro xs
  induction xs with
  | nil =>
    intro h q l ha
    refine ⟨h, q, rfl, by simpa using ha, ?_⟩
    obtain ⟨g, hi, _⟩ := ha
    rw [hi.size]; simp [wrap32_wrap32]
  | cons x xs ih =>
    intro h q l ha
    obtain ⟨h1, q1, he, ha1, hs1⟩ := ha.enqueue_abs x.1 x.2
    obtain ⟨h2, q2, he2, ha2, hs2⟩ := ih ha1
    refine ⟨h2, q2, ?_, by simpa using ha2, ?_⟩
    · simp only [PQ.enqueueAll, he, Option.some_bind, he2]
    · rw [hs2, hs1, wrap32_add]; simp only [List.length_cons]; push_cast; ring_nf

theorem Abs.dequeueN [DefaultInit T] :
    ∀ (n : Nat) {h : Heap T} {q : priorityqueue} {l : List (T × Int)},
      Abs false h q l → l.length = n →
      ∃ h2 q2, PQ.dequeueN n h q = some ((stableSort l).map Prod.fst, h2, q2) ∧
        Abs false h2 q2 [] := by
  intro n
  induction n with
  | zero =>
    intro h q l ha hl
    have : l = [] := List.length_eq_zero.1 hl
    subst this
    exact ⟨h, q, rfl, ha⟩
  | succ n ih =>
    intro h q l ha hl
    cases hs : stableSort l with
    | nil =>
      have := (stableSort_perm l).length_eq
      rw [hs, hl] at this; cases this
    | cons x rest =>
      have hfm : firstMin l = some x := by rw [← stableSort_head, hs]; rfl
      obtain ⟨h1, q1, he, ha1, _, _⟩ := ha.dequeue_abs x hfm
      have hrest : stableSort (removeFirstMin l) = rest := by
        rw [stableSort_removeFirstMin, hs]; rfl
      have hlen : (removeFirstMin l).length = n := by
        have h1 := (stableSort_perm (removeFirstMin l)).length_eq
        have h2 := (stableSort_perm l).length_eq
        rw [hrest] at h1
        rw [hs, hl] at h2
        simp only [List.length_cons] at h2
        omega
      obtain ⟨h2, q2, he2, ha2⟩ := ih ha1 hlen
      refine ⟨h2, q2, ?_, ha2⟩
      simp only [PQ.dequeueN, he, Option.some_bind, he2, Option.map_some', hrest, List.map_cons]

theorem Abs.run [Inhabited T] [ClassType T] :
    ∀ (ops : List (Op T)) {h : Heap T} {q : priorityqueue} {l : List (T × Int)} (out : List T),
      Abs false h q l →
      ∃ h2 q2 out2, PQ.run ops h q out = some (h2, q2, out2) ∧
        Abs false h2 q2 (ops.foldl specStep l) := by
  intro ops
  induction ops with
  | nil => intro h q l out ha; exact ⟨h, q, out, rfl, ha⟩
  | cons o ops ih =>
    intro h q l out ha
    cases o with
    | enqueue v p =>
      obtain ⟨h1, q1, he, ha1, _⟩ := ha.enqueue_abs v p
      obtain ⟨h2, q2, out2, hr, ha2⟩ := ih out ha1
      exact ⟨h2, q2, out2, by simp only [PQ.run, he, Option.some_bind, hr], ha2⟩
    | dequeue =>
      cases hf : firstMin l with
      | none =>
        have := firstMin_eq_none hf
        subst this
        have he := ha.dequeue_empty
        obtain ⟨h2, q2, out2, hr, ha2⟩ := ih (out ++ [default]) ha
        exact ⟨h2, q2, out2, by simp only [PQ.run, he, Option.some_bind, hr], ha2⟩
      | some x =>
        obtain ⟨h1, q1, he, ha1, _⟩ := ha.dequeue_abs x hf
        obtain ⟨h2, q2, out2, hr, ha2⟩ := ih (out ++ [x.1]) ha1
        exact ⟨h2, q2, out2, by simp only [PQ.run, he, Option.some_bind, hr], ha2⟩

theorem GT.toList_length_eq (g : GT T) : g.toList.length = g.addrs.length := by
  induction g with
  | nil => rfl
  | node a p v ch l r ihl ihr =>
    simp only [GT.toList, GT.addrs, List.length_append, List.length_cons, List.length_map, ihl,
      ihr]

theorem Abs.size_eq {s : Bool} {h : Heap T} {q : priorityqueue} {l : List (T × Int)}
    (ha : Abs s h q l) : q.Size = wrap32 (l.length : Int) := by
  obtain ⟨g, hi, hg⟩ := ha
  simp only [priorityqueue.Size]
  rw [hi.size, ← GT.toList_length_eq, hg, (stableSort_perm l).length_eq]

theorem stored_append (ops : List (Op T)) (o : Op T) :
    stored (ops ++ [o]) = specStep (stored ops) o := by
  simp [stored, List.foldl_append]

/-- The example of the specification evaluated: after enqueue a:1, b:1, c:2, two
calls of dequeue and enqueue ab:2, the calls of dequeue have returned a, b and
then return c and ab. -/
theorem example_dequeue_order :
    (run (exampleOps ++ [.dequeue, .dequeue]) Heap.empty priorityqueue.new []).map
      (fun s => s.2.2) = some ["a", "b", "c", "ab"] := by
  decide

/-- C4: enqueuing the pairs of a list `L` into an empty queue and calling
`dequeue` `length L` times returns the values of `L` in the order of the stable
sort of `L` by priority: that order has non-decreasing priorities, is a
rearrangement of `L`, and keeps the elements of each priority in their order
in `L`. -/
theorem C4_drain_is_stable_sort [DefaultInit T] (L : List (T × Int)) :
    ∃ h q h2 q2,
      enqueueAll L Heap.empty priorityqueue.new = some (h, q) ∧
      dequeueN L.length h q = some ((stableSort L).map Prod.fst, h2, q2) ∧
      (stableSort L).Pairwise (fun a b => a.2 ≤ b.2) ∧
      (stableSort L).Perm L ∧
      ∀ p : Int, (stableSort L).filter (fun y => decide (y.2 = p)) =
        L.filter (fun y => decide (y.2 = p)) := by
  obtain ⟨h, q, he, ha, _⟩ := Abs.enqueueAll L (Abs.new false : Abs false (Heap.empty : Heap T) _ _)
  simp only [List.nil_append] at ha
  obtain ⟨h2, q2, hd, _⟩ := Abs.dequeueN L.length ha rfl
  exact ⟨h, q, h2, q2, he, hd, stableSort_sorted L, stableSort_perm L,
    fun p => stableSort_filter p L⟩

/-- After the calls `enqueue` for the `N` pairs of a list on a new queue,
`Size()` is `N` as a 32-bit `int`. -/
theorem size_after_enqueues (L : List (T × Int)) :
    ∃ h q, enqueueAll L Heap.empty priorityqueue.new = some (h, q) ∧
      q.Size = wrap32 (L.length : Int) := by
  obtain ⟨h, q, he, _, hs⟩ := Abs.enqueueAll L (Abs.new true : Abs true (Heap.empty : Heap T) _ _)
  exact ⟨h, q, he, by simpa [priorityqueue.Size, priorityqueue.new] using hs⟩

/-- C5, as stated, fails: after 2147483648 calls of `enqueue` on a new queue the
counter `int size` has wrapped, and `Size()` is -2147483648. -/
theorem C5_size_wraps_after_2147483648_enqueues :
    ∃ h q, enqueueAll (List.replicate 2147483648 ("a", (0 : Int))) Heap.empty priorityqueue.new =
        some (h, q) ∧
      q.Size = -2147483648 ∧
      q.Size ≠ ((List.replicate 2147483648 ("a", (0 : Int))).length : Int) := by
  obtain ⟨h, q, he, hs⟩ := size_after_enqueues (List.replicate 2147483648 ("a", (0 : Int)))
  have hw : wrap32 ((2147483648 : Nat) : Int) = -2147483648 := by decide
  rw [List.length_replicate, hw] at hs
  refine ⟨h, q, he, hs, ?_⟩
  rw [hs, List.length_replicate]
  decide

/-- C5, amended: after the calls `enqueue` for the `N` pairs of a list on a new
queue, where `N` is less than 2147483648, `Size()` is `N`. -/
theorem C5_size_after_enqueues (L : List (T × Int)) (hN : L.length < 2147483648) :
    ∃ h q, enqueueAll L Heap.empty priorityqueue.new = some (h, q) ∧
      q.Size = (L.length : Int) := by
  obtain ⟨h, q, he, hs⟩ := size_after_enqueues L
  refine ⟨h, q, he, ?_⟩
  rw [hs]
  exact wrap32_id _ (by omega) (by omega)

/-- C5, witness: three calls with a repeated priority. -/
theorem C5_size_after_enqueues_witness :
    [("a", (2 : Int)), ("b", 1), ("c", 2)].length < 2147483648 ∧
    ∃ h q, enqueueAll [("a", (2 : Int)), ("b", 1), ("c", 2)] Heap.empty priorityqueue.new =
        some (h, q) ∧
      q.Size = (([("a", (2 : Int)), ("b", 1), ("c", 2)] : List (String × Int)).length : Int) :=
  ⟨by decide, C5_size_after_enqueues [("a", 2), ("b", 1), ("c", 2)] (by decide)⟩

theorem GT.toList_length (g : GT T) : g.toList.length = g.addrs.length :=
  GT.toList_length_eq g

theorem Abs.size {s : Bool} {h : Heap T} {q : priorityqueue} {l : List (T × Int)}
    (ha : Abs s h q l) : q.size = wrap32 l.length :=
  Abs.size_eq ha

theorem Abs.size_small {s : Bool} {h : Heap T} {q : priorityqueue} {l : List (T × Int)}
    (ha : Abs s h q l) (hl : l.length < 2147483648) : q.size = l.length := by
  rw [ha.size]
  exact wrap32_id _ (by omega) (by omega)

theorem Inv.frame_inv {s : Bool} {h h2 : Heap T} {q : priorityqueue} {g : GT T}
    (hi : Inv s h q g) (hf : ∀ x ∈ g.addrs, h2.cells x = h.cells x) (hn : h.next ≤ h2.next) :
    Inv s h2 q g :=
  ⟨hi.root, hi.rep.frame_rep hf, hi.nodup, fun a ha => lt_of_lt_of_le (hi.lt a ha) hn, hi.ordered,
    hi.size⟩

theorem Step.refl {h : Heap T} {t : priorityqueue} {gt : GT T} (hi : Inv false h t gt) :
    Step h t gt h t gt 0 :=
  ⟨hi, fun _ hx => Or.inl hx, le_refl _, fun _ _ _ => rfl, by
    rw [hi.size, wrap32_add]; simp⟩

theorem Step.trans {h h1 h2 : Heap T} {t t1 t2 : priorityqueue} {gt gt1 gt2 : GT T} {k1 k2 : Nat}
    (s1 : Step h t gt h1 t1 gt1 k1) (s2 : Step h1 t1 gt1 h2 t2 gt2 k2) :
    Step h t gt h2 t2 gt2 (k1 + k2) := by
  refine ⟨s2.inv, ?_, le_trans s1.next s2.next, ?_, ?_⟩
  · intro x hx
    rcases s2.addrs x hx with e | e
    · exact s1.addrs x e
    · exact Or.inr (le_trans s1.next e)
  · intro x hx hxg
    have hx1 : x ∉ gt1.addrs := by
      intro e
      rcases s1.addrs x e with e2 | e2
      · exact hxg e2
      · omega
    rw [s2.frame x (lt_of_lt_of_le hx s1.next) hx1, s1.frame x hx hxg]
  · rw [s2.size, s1.size, wrap32_add]; push_cast; ring_nf

theorem Step.enqueue_step {h : Heap T} {t : priorityqueue} {gt : GT T} (hi : Inv false h t gt)
    (v : T) (p : Int) :
    ∃ h2 t2, priorityqueue.enqueue h t v p = some (h2, t2) ∧
      Step h t gt h2 t2 (gt.insert h.next v p) 1 := by
  obtain ⟨h2, t2, he, hi2, hfr, hnx, _, hsz⟩ := enqueue_spec v p hi
  refine ⟨h2, t2, he, hi2, ?_, by omega, ?_, by simpa using hsz⟩
  · intro x hx
    rcases List.mem_cons.1 ((GT.insert_addrs_perm h.next v p gt).mem_iff.1 hx) with e | e
    · exact Or.inr (by omega)
    · exact Or.inl e
  · intro x hx hxg
    exact hfr x hxg (by omega)

theorem Src.cells {h h2 : Heap T} {t t2 : priorityqueue} {gt gt2 : GT T} {k : Nat}
    {addrs : List Nat} (hs : Src h gt addrs) (st : Step h t gt h2 t2 gt2 k) :
    ∀ x ∈ addrs, h2.cells x = h.cells x :=
  fun x hx => st.frame x (hs x hx).1 (hs x hx).2

theorem Inv2.symm {h : Heap T} {t o : priorityqueue} (hi : Inv2 h t o) : Inv2 h o t := by
  obtain ⟨gt, go, h1, h2, h3⟩ := hi
  exact ⟨go, gt, h2, h1, fun x hx e => h3 x e hx⟩

theorem Inv2.enqueue_inv2 {h : Heap T} {t o : priorityqueue} (hi : Inv2 h t o) (v : T) (p : Int) :
    ∃ h2 t2, priorityqueue.enqueue h t v p = some (h2, t2) ∧ Inv2 h2 t2 o := by
  obtain ⟨gt, go, h1, h2, h3⟩ := hi
  obtain ⟨h4, t4, he, st⟩ := Step.enqueue_step h1 v p
  refine ⟨h4, t4, he, _, go, st.inv, ?_, ?_⟩
  · exact h2.frame_inv (fun x hx => st.frame x (h2.lt x hx) (fun e => h3 x e hx)) st.next
  · intro x hx e
    rcases st.addrs x hx with e2 | e2
    · exact h3 x e2 e
    · have := h2.lt x e; omega

theorem Inv2.dequeue_inv2 [Inhabited T] [ClassType T] {h : Heap T} {t o : priorityqueue} (hi : Inv2 h t o) :
    ∃ v h2 t2, priorityqueue.dequeue h t = some (v, h2, t2) ∧ Inv2 h2 t2 o := by
  obtain ⟨gt, go, h1, h2, h3⟩ := hi
  by_cases hg : gt = .nil
  · subst hg
    have : t.root = none := h1.root
    exact ⟨default, h, t, by simp [priorityqueue.dequeue, this, ClassType.constructed],
      .nil, go, h1, h2, h3⟩
  · obtain ⟨x, hx⟩ := GT.minElem_isSome gt hg
    obtain ⟨m, hm⟩ := GT.minAddr_isSome gt hg
    obtain ⟨h4, t4, he, hi4, hfr, hnx, _, _⟩ := dequeue_spec h1 x hx
    refine ⟨x.1, h4, t4, he, _, go, hi4, ?_, ?_⟩
    · exact h2.frame_inv (fun y hy => hfr y (fun e => h3 y e hy)) (le_of_eq hnx.symm)
    · intro y hy
      refine h3 y ?_
      rw [GT.addrs_eq_min_cons gt m hm]
      exact List.mem_cons_of_mem _ hy

theorem Inv2.run2 [Inhabited T] [ClassType T] :
    ∀ (ops : List (Bool × Op T)) {h : Heap T} {t o : priorityqueue}, Inv2 h t o →
      ∃ h2 t2 o2, PQ.run2 ops h t o = some (h2, t2, o2) ∧ Inv2 h2 t2 o2 := by
  intro ops
  induction ops with
  | nil => intro h t o hi; exact ⟨h, t, o, rfl, hi⟩
  | cons c ops ih =>
    intro h t o hi
    obtain ⟨b, op⟩ := c
    cases b with
    | true =>
      cases op with
      | enqueue v p =>
        obtain ⟨h1, t1, he, hi1⟩ := hi.enqueue_inv2 v p
        obtain ⟨h2, t2, o2, hr, hi2⟩ := ih hi1
        exact ⟨h2, t2, o2, by simp only [PQ.run2, he, Option.some_bind, hr], hi2⟩
      | dequeue =>
        obtain ⟨v, h1, t1, he, hi1⟩ := hi.dequeue_inv2
        obtain ⟨h2, t2, o2, hr, hi2⟩ := ih hi1
        exact ⟨h2, t2, o2, by simp only [PQ.run2, he, Option.some_bind, hr], hi2⟩
    | false =>
      cases op with
      | enqueue v p =>
        obtain ⟨h1, o1, he, hi1⟩ := hi.symm.enqueue_inv2 v p
        obtain ⟨h2, t2, o2, hr, hi2⟩ := ih hi1.symm
        exact ⟨h2, t2, o2, by simp only [PQ.run2, he, Option.some_bind, hr], hi2⟩
      | dequeue =>
        obtain ⟨v, h1, o1, he, hi1⟩ := hi.symm.dequeue_inv2
        obtain ⟨h2, t2, o2, hr, hi2⟩ := ih hi1.symm
        exact ⟨h2, t2, o2, by simp only [PQ.run2, he, Option.some_bind, hr], hi2⟩

theorem traverseN_add (h : Heap T) :
    ∀ (m n : Nat) (q : priorityqueue) (xs : List (T × Int)) (q1 : priorityqueue),
      traverseN h m q = some (xs, q1) →
      traverseN h (m + n) q = (traverseN h n q1).map (fun s => (xs ++ s.1, s.2)) := by
  intro m
  induction m with
  | zero =>
    intro n q xs q1 he
    simp only [traverseN, Option.some.injEq, Prod.mk.injEq] at he
    obtain ⟨e1, e2⟩ := he
    subst e1; subst e2
    simp
  | succ m ih =>
    intro n q xs q1 he
    have hmn : m + 1 + n = (m + n) + 1 := by omega
    rw [hmn]
    simp only [traverseN] at he ⊢
    cases hn : next h q with
    | none => simp [hn] at he
    | some r =>
      simp only [hn, Option.some_bind] at he ⊢
      cases ht : traverseN h m r.queue with
      | none => simp [ht] at he
      | some s =>
        simp only [ht, Option.map_some', Option.some.injEq, Prod.mk.injEq] at he
        obtain ⟨e1, e2⟩ := he
        obtain ⟨s1, s2⟩ := s
        simp only at e1 e2
        subst e2
        rw [ih n r.queue s1 s2 ht]
        cases traverseN h n s2 with
        | none => rfl
        | some u => simp [← e1]

/-- A call of `next` on a node that has a chain successor. -/
theorem next_link {h : Heap T} {q : priorityqueue} {x y : Nat} {nx : NODE T}
    (hq : q.curr = some x) (hx : h.cells x = some nx) (hl : nx.link = some y) :
    next h q = some ⟨true, some (nx.value, nx.priority), { q with curr := some y }⟩ := by
  simp only [next, hq, hx, hl]

theorem dupClimb_chain {h : Heap T} {p : Int} {a : Nat} :
    ∀ (ch : List (Nat × T)) (b : Nat) (d : Nat), ChainRep h p (some b) ch →
      (∀ f, d ≤ f → dupClimb h f (some b) = some a) →
      ∀ f, d + ch.length ≤ f → dupClimb h f (some (lastAddr b ch)) = some a := by
  intro ch
  induction ch with
  | nil => intro b d _ hb f hf; exact hb f (by simpa using hf)
  | cons c rest ih =>
    intro b d hr hb f hf
    obtain ⟨⟨n, hn, _, _, hdup, hpar, _, _, _⟩, hrest⟩ := hr
    refine ih c.1 (d + 1) hrest ?_ f (by simp only [List.length_cons] at hf; omega)
    intro f2 hf2
    cases f2 with
    | zero => omega
    | succ f3 =>
      simp only [dupClimb, hn, hdup, if_true, hpar]
      exact hb f3 (by omega)

/-- A call of `next` on the last node of the chain of the primary node `a` (on
`a` itself when it has no chain). -/
theorem next_last {h : Heap T} {q : priorityqueue} {a : Nat} {p : Int} {v : T}
    {ch : List (Nat × T)} {l r : GT T} {par : Option Nat} {k : Option Nat} {d : Nat}
    (hrep : Rep true h (GT.node a p v ch l r) (some par))
    (hnd : (GT.node a p v ch l r).addrs.Nodup) (hup : Up h a par k d) (hd : d + 1 ≤ h.next)
    (hlen : (GT.node a p v ch l r).addrs.length ≤ h.next)
    (hq : q.curr = some (lastAddr a ch)) :
    ∃ flag nx, h.cells (lastAddr a ch) = some nx ∧ nx.priority = p ∧
      next h q = some ⟨flag, some (nx.value, p),
        { q with curr := match r.minAddr with
                          | some m => some m
                          | none => k }⟩ := by
  obtain ⟨⟨n, hn, hp, hv, hdup, hpar, hlink, hleft, hright⟩, hch, hl, hr⟩ := hrep
  obtain ⟨hlnd, hrnd, hchnd, hbl, hbr, hbch, hlr, hchl, hchr⟩ := GT.nodup_node hnd
  have hnpar : n.parent = par := hpar _ rfl
  have hndup : n.dup = false := hdup rfl
  have hlen2 : l.addrs.length + r.addrs.length + ch.length + 1 ≤ h.next := by
    simp only [GT.addrs, List.length_append, List.length_cons, List.length_map] at hlen
    omega
  -- the last node and its cell
  have hcell : ∃ nx, h.cells (lastAddr a ch) = some nx ∧ nx.priority = p ∧ nx.link = none := by
    cases ch with
    | nil => exact ⟨n, hn, hp, hlink⟩
    | cons c rest =>
      obtain ⟨nx, hnx, hlk⟩ := lastAddr_cell (c :: rest) a (some a) (by simp) hch
      have hmem := lastAddr_mem a (c :: rest) (by simp)
      have : ∀ (ch2 : List (Nat × T)) (b : Option Nat), ChainRep h p b ch2 →
          ∀ x ∈ ch2.map Prod.fst, ∀ m, h.cells x = some m → m.priority = p := by
        intro ch2
        induction ch2 with
        | nil => intro b _ x hx; simp at hx
        | cons e es ihe =>
          intro b hr2 x hx m hm
          obtain ⟨⟨n2, hn2, hp2, _⟩, hrest2⟩ := hr2
          rcases List.mem_cons.1 hx with e1 | e1
          · rw [e1, hn2] at hm; cases hm; exact hp2
          · exact ihe _ hrest2 x e1 m hm
      exact ⟨nx, hnx, this _ _ hch _ hmem _ hnx, hlk⟩
  obtain ⟨nx, hnx, hnxp, hnxl⟩ := hcell
  -- the climb over the chain
  have hdc : dupClimb h h.fuel (some (lastAddr a ch)) = some a := by
    refine dupClimb_chain ch a 1 hch ?_ h.fuel (by simp only [Heap.fuel]; omega)
    intro f hf
    cases f with
    | zero => omega
    | succ f2 => simp [dupClimb, hn, hndup]
  have hla : n.left ≠ some a := by
    rw [hleft]
    cases l with
    | nil => simp [GT.ptr]
    | node b _ _ _ _ _ =>
      simp only [GT.ptr_node, ne_eq, Option.some.injEq]
      intro e
      exact hbl (GT.mem_addrs_node.2 (Or.inr (Or.inl e.symm)))
  have key : ∃ flag, next h q = some ⟨flag, some (nx.value, p),
      { q with curr := match r.minAddr with
                        | some m => some m
                        | none => k }⟩ := by
    simp only [next, hq, hnx, hnxl, hdc, Option.some_bind, hn, hnxp]
    cases r with
    | node rb rq rw rch rl rr =>
      have hnr : n.right = some rb := hright
      have hc1 : ¬ (n.parent = none ∧ n.left = none ∧ n.right = none) := by simp [hnr]
      have ht := traverseLeft_spec (GT.node rb rq rw rch rl rr) h.fuel _ (some rb) hr
        (le_trans (GT.height_le _) (by simp only [Heap.fuel]; omega))
      obtain ⟨m, hm⟩ := GT.minAddr_isSome (GT.node rb rq rw rch rl rr) (by simp)
      rw [hm] at ht
      simp only [GT.ptr_node] at ht
      simp only [hnr, ne_eq, reduceCtorEq, not_false_eq_true, if_true, ht, and_false, if_false,
        Option.map_some', hm]
      exact ⟨_, rfl⟩
    | nil =>
      have hnr : n.right = none := hright
      have hmin : (GT.nil : GT T).minAddr = none := rfl
      simp only [hnr, hmin, ne_eq, not_true_eq_false, if_false, and_true]
      cases hpp : par with
      | none =>
        have hk : k = none := by
          have := hup d (le_refl _)
          simp only [hpp, Option.some.injEq] at this
          exact this.symm
        have hnp : n.parent = none := by rw [hnpar, hpp]
        by_cases hnl : n.left = none
        · simp only [hnp, hnl, and_self, if_true, hk]
          exact ⟨_, rfl⟩
        · simp only [hnp, hnl, and_false, true_and, if_false, not_true_eq_false, hk]
          exact ⟨_, rfl⟩
      | some pp =>
        have hnp : n.parent = some pp := by rw [hnpar, hpp]
        have hcl : climb h h.fuel a (some a) = some k := by
          simp only [Heap.fuel, climb, hn, hla, ne_eq, not_false_eq_true, if_true, hnp]
          have := hup h.next (by omega)
          simp only [hpp] at this
          exact this
        simp only [hnp, reduceCtorEq, false_and, if_false, not_false_eq_true, if_true, hcl,
          Option.map_some']
        cases k with
        | none => exact ⟨_, rfl⟩
        | some kk => exact ⟨_, rfl⟩
  obtain ⟨flag, hkey⟩ := key
  exact ⟨flag, nx, hnx, hnxp, hkey⟩

/-- The calls of `next` over a primary node and its chain. -/
theorem traverse_chain {h : Heap T} {p : Int} {z : Option Nat} :
    ∀ (ch : List (Nat × T)) (b : Nat) (nb : NODE T), h.cells b = some nb → nb.priority = p →
      nb.link = chPtr ch → ChainRep h p (some b) ch →
      (∀ q : priorityqueue, q.curr = some (lastAddr b ch) →
        ∃ flag nx, h.cells (lastAddr b ch) = some nx ∧ nx.priority = p ∧
          next h q = some ⟨flag, some (nx.value, p), { q with curr := z }⟩) →
      ∀ q : priorityqueue, q.curr = some b →
        traverseN h (1 + ch.length) q =
          some ((nb.value, p) :: ch.map (fun c => (c.2, p)), { q with curr := z }) := by
  intro ch
  induction ch with
  | nil =>
    intro b nb hb hp _ _ hfin q hq
    obtain ⟨flag, nx, hnx, _, hn⟩ := hfin q hq
    simp only [lastAddr] at hnx
    rw [hb] at hnx
    cases hnx
    simp [traverseN, hn]
  | cons c rest ih =>
    intro b nb hb hp hl hr hfin q hq
    obtain ⟨⟨nc, hnc, hpc, hvc, _, _, _, _, hlc⟩, hrest⟩ := hr
    have hlk : nb.link = some c.1 := hl
    have hstep := next_link hq hb hlk
    have hrec := ih c.1 nc hnc hpc hlc hrest hfin { q with curr := some c.1 } rfl
    have hlen : 1 + (c :: rest).length = (1 + rest.length) + 1 := by simp; omega
    rw [hlen]
    simp only [traverseN, hstep, Option.some_bind]
    simp only [traverseN] at hrec
    rw [hrec]
    simp [hp, hvc]

theorem traverse_spec {h : Heap T} :
    ∀ (t : GT T) (par : Option Nat) (k : Option Nat) (d : Nat),
      Rep true h t (some par) → t.addrs.Nodup →
      (∀ c, t.ptr = some c → Up h c par k d) →
      d + t.height ≤ h.next → t.addrs.length ≤ h.next →
      ∀ (q : priorityqueue) (m : Nat), t.minAddr = some m → q.curr = some m →
        traverseN h t.addrs.length q = some (t.toList, { q with curr := k }) := by
  intro t
  induction t with
  | nil => intro par k d _ _ _ _ _ q m hm; cases hm
  | node a p v ch l r ihl ihr =>
    intro par k d hrep hnd hup hd hlen q m hm hq
    have hrep0 := hrep
    obtain ⟨⟨n, hn, hp, hv, hdup, hpar, hlink, hleft, hright⟩, hch, hl, hr⟩ := hrep
    obtain ⟨hlnd, hrnd, hchnd, hbl, hbr, hbch, hlr, hchl, hchr⟩ := GT.nodup_node hnd
    have hnpar : n.parent = par := hpar _ rfl
    have hupa : Up h a par k d := hup a rfl
    have hlen2 : l.addrs.length + r.addrs.length + ch.length + 1 ≤ h.next := by
      simp only [GT.addrs, List.length_append, List.length_cons, List.length_map] at hlen
      omega
    have hht : d + (max l.height r.height + 1) ≤ h.next := hd
    -- the node and its chain
    have hmid : ∀ q2 : priorityqueue, q2.curr = some a →
        traverseN h (1 + ch.length) q2 =
          some ((v, p) :: ch.map (fun c => (c.2, p)),
            { q2 with curr := match r.minAddr with
                               | some m => some m
                               | none => k }) := by
      intro q2 hq2
      have := traverse_chain ch a n hn hp hlink hch
        (fun q3 hq3 => next_last hrep0 hnd hupa (by omega) hlen hq3) q2 hq2
      rw [hv] at this
      exact this
    -- the right subtree
    have hright2 : ∀ q2 : priorityqueue,
        q2.curr = (match r.minAddr with
                    | some m => some m
                    | none => k) →
        traverseN h r.addrs.length q2 = some (r.toList, { q2 with curr := k }) := by
      intro q2 hq2
      cases hr0 : r with
      | nil =>
        subst hr0
        simp only [GT.minAddr] at hq2
        simp only [GT.addrs, List.length_nil, traverseN, GT.toList]
        cases q2
        simp only at hq2
        simp [hq2]
      | node rb rq rw rch rl rr =>
        rw [← hr0]
        obtain ⟨m2, hm2⟩ := GT.minAddr_isSome r (by rw [hr0]; simp)
        rw [hm2] at hq2
        refine ihr (some a) k (d + 1) hr hrnd ?_ (by omega) (by omega) q2 m2 hm2 hq2
        intro c hc
        intro f hf
        cases f with
        | zero => omega
        | succ f2 =>
          have hlc : n.left ≠ some c := by
            rw [hleft]
            cases hl0 : l with
            | nil => simp [GT.ptr]
            | node b _ _ _ _ _ =>
              simp only [GT.ptr_node, ne_eq, Option.some.injEq]
              intro e
              have hcr : c ∈ r.addrs := by
                rw [hr0] at hc ⊢
                simp only [GT.ptr_node, Option.some.injEq] at hc
                exact GT.mem_addrs_node.2 (Or.inr (Or.inl hc.symm))
              have hcl : c ∈ l.addrs := by
                rw [hl0]
                exact GT.mem_addrs_node.2 (Or.inr (Or.inl e.symm))
              exact hlr c hcl hcr
          simp only [climb, hn, hlc, ne_eq, not_false_eq_true, if_true, hnpar]
          have := hupa f2 (by omega)
          cases hpp : par with
          | none => simp only [hpp] at this ⊢; exact this
          | some pp => simp only [hpp] at this ⊢; exact this
    -- the left subtree, then the rest
    have hrest : ∀ q2 : priorityqueue, q2.curr = some a →
        traverseN h (1 + ch.length + r.addrs.length) q2 =
          some (((v, p) :: ch.map (fun c => (c.2, p))) ++ r.toList, { q2 with curr := k }) := by
      intro q2 hq2
      rw [traverseN_add h _ _ q2 _ _ (hmid q2 hq2), hright2 _ rfl]
      rfl
    cases hl0 : l with
    | nil =>
      subst hl0
      simp only [GT.minAddr, Option.getD_none, Option.some.injEq] at hm
      subst hm
      have hlen3 : (GT.node a p v ch GT.nil r).addrs.length = 1 + ch.length + r.addrs.length := by
        simp only [GT.addrs, List.length_append, List.length_cons, List.length_map,
          List.length_nil]
        omega
      rw [hlen3, hrest q hq]
      simp [GT.toList]
    | node b bq bw bch bl br =>
      rw [← hl0]
      obtain ⟨m2, hm2⟩ := GT.minAddr_isSome l (by rw [hl0]; simp)
      have hmm : m = m2 := by
        simp only [GT.minAddr, hm2, Option.getD_some, Option.some.injEq] at hm
        exact hm.symm
      subst hmm
      have hleftpart := ihl (some a) (some a) 1 hl hlnd (by
        intro c hc f hf
        cases f with
        | zero => omega
        | succ f2 =>
          have : n.left = some c := by rw [hleft]; exact hc
          simp only [climb, hn, this, ne_eq, not_true_eq_false, if_false]) (by omega) (by omega)
        q m hm2 hq
      have hlen3 : (GT.node a p v ch l r).addrs.length =
          l.addrs.length + (1 + ch.length + r.addrs.length) := by
        simp only [GT.addrs, List.length_append, List.length_cons, List.length_map]
        omega
      rw [hlen3, traverseN_add h _ _ q _ _ hleftpart, hrest _ rfl]
      simp [GT.toList]

theorem begin_spec {s : Bool} {h : Heap T} {q : priorityqueue} {g : GT T} (hi : Inv s h q g) :
    begin h q = some { q with curr := g.minAddr } := by
  have hlen := hi.length_le
  have ht := traverseLeft_spec g h.fuel _ none hi.rep
    (le_trans (GT.height_le g) (by simp only [Heap.fuel]; omega))
  simp only [begin, hi.root, ht, Option.map_some']
  cases g.minAddr <;> rfl

/-- C7: for the queue built by enqueuing the pairs of a list `L` into an empty
queue, the `length L` calls of `next` after `begin` store through the
reference parameters exactly the pairs of `L` in the order of the stable sort
by priority (non-decreasing priorities, a rearrangement of `L`, the elements
of each priority in their order in `L`); they leave the cursor exhausted, and
a further call stores nothing. -/
theorem C7_traversal_is_stable_sort (L : List (T × Int)) :
    ∃ h q q0 q1,
      enqueueAll L Heap.empty priorityqueue.new = some (h, q) ∧
      begin h q = some q0 ∧
      traverseN h L.length q0 = some (stableSort L, q1) ∧
      q1.curr = none ∧
      next h q1 = some ⟨false, none, q1⟩ ∧
      (stableSort L).Pairwise (fun a b => a.2 ≤ b.2) ∧
      (stableSort L).Perm L ∧
      ∀ p : Int, (stableSort L).filter (fun y => decide (y.2 = p)) =
        L.filter (fun y => decide (y.2 = p)) := by
  obtain ⟨h, q, he, ha, _⟩ :=
    Abs.enqueueAll L (Abs.new true : Abs true (Heap.empty : Heap T) _ _)
  simp only [List.nil_append] at ha
  obtain ⟨g, hi, hg⟩ := ha
  have hlen : g.addrs.length = L.length := by
    rw [← GT.toList_length, hg, (stableSort_perm L).length_eq]
  have hb := begin_spec hi
  have hle := hi.length_le
  refine ⟨h, q, _, { q with curr := none }, he, hb, ?_, rfl, by simp [next],
    stableSort_sorted L, stableSort_perm L, fun p => stableSort_filter p L⟩
  by_cases hgn : g = .nil
  · subst hgn
    have hL : L = [] := by
      have := hlen
      simp only [GT.addrs, List.length_nil] at this
      exact List.length_eq_zero.1 this.symm
    subst hL
    rfl
  · obtain ⟨m, hm⟩ := GT.minAddr_isSome g hgn
    have := traverse_spec g none none 0 hi.rep hi.nodup
      (fun c _ f _ => rfl) (by simpa using le_trans (GT.height_le g) hle) hle
      { q with curr := g.minAddr } m hm (by simp [hm])
    rw [hlen, hg] at this
    exact this

/-- C6, the code at the failing inputs: with the single element a:1 the first
call of `next` after `begin` stores a:1 and returns false; with a:1, b:2 the
second call stores b:2 and returns false; with b:2, a:1 both calls that store
an element return true. -/
theorem C6_next_returns_false_while_delivering :
    ((enqueueAll [("a", (1 : Int))] Heap.empty priorityqueue.new).bind (fun s =>
      (begin s.1 s.2).bind (fun q0 => next s.1 q0))).map (fun r => (r.flag, r.delivered))
      = some (false, some ("a", 1)) ∧
    ((enqueueAll [("a", (1 : Int)), ("b", 2)] Heap.empty priorityqueue.new).bind (fun s =>
      (begin s.1 s.2).bind (fun q0 => (next s.1 q0).bind (fun r1 => next s.1 r1.queue)))).map
        (fun r => (r.flag, r.delivered))
      = some (false, some ("b", 2)) ∧
    ((enqueueAll [("b", (2 : Int)), ("a", 1)] Heap.empty priorityqueue.new).bind (fun s =>
      (begin s.1 s.2).bind (fun q0 => (next s.1 q0).bind (fun r1 => next s.1 r1.queue)))).map
        (fun r => (r.flag, r.delivered))
      = some (true, some ("b", 2)) := by
  refine ⟨by decide, by decide, by decide⟩

end PQ

namespace Huffman

theorem follow_nil (t : HuffmanNode) : follow t [] = t := rfl

theorem follow_cons (ch c : Int) (z o : HuffmanNode) (b : Bool) (bs : List Bool) :
    follow (.node ch c z o) (b :: bs) = follow (if b then o else z) bs := rfl

theorem follow_nullptr (p : List Bool) : follow .nullptr p = .nullptr := by
  cases p <;> rfl

theorem follow_append (t : HuffmanNode) (p q : List Bool) :
    follow t (p ++ q) = follow (follow t p) q := by
  induction p generalizing t with
  | nil => rfl
  | cons b bs ih =>
    cases t with
    | nullptr => simp [follow_nullptr]
    | node ch c z o =>
      rw [List.cons_append, follow_cons, follow_cons, ih]

theorem buildEncodingMap_entry (k : Consts) :
    ∀ (t : HuffmanNode), (t = .nullptr ∨ Good k t) →
      ∀ (m : hashmapE) (str : List Bool) (s : Int) (c : List Bool),
        _buildEncodingMap k t m str s = some c →
        m s = some c ∨ ∃ path cnt, c = str ++ path ∧ follow t path = .node s cnt .nullptr .nullptr := by
  intro t
  induction t with
  | nullptr => intro _ m str s c h; exact Or.inl h
  | node ch cnt z o ihz iho =>
    intro hg m str s c h
    have hgood : Good k (.node ch cnt z o) := by
      rcases hg with e | e
      · cases e
      · exact e
    have hz : z = .nullptr ∨ Good k z := by
      rcases hgood with e | e
      · exact Or.inl e.1
      · exact Or.inr e.2.1
    have ho : o = .nullptr ∨ Good k o := by
      rcases hgood with e | e
      · exact Or.inl e.2
      · exact Or.inr e.2.2
    simp only [_buildEncodingMap] at h
    rcases iho ho _ _ s c h with h1 | ⟨path, cnt2, hc, hf⟩
    · rcases ihz hz _ _ s c h1 with h2 | ⟨path, cnt2, hc, hf⟩
      · by_cases hch : ch ≠ k.NOT_A_CHAR
        · rw [if_pos hch] at h2
          simp only [hashmapE.set] at h2
          by_cases hs : s = ch
          · rw [if_pos hs] at h2
            cases h2
            right
            rcases hgood with e | e
            · exact ⟨[], cnt, by simp, by rw [hs, e.1, e.2, follow_nil]⟩
            · exact absurd e.1 hch
          · rw [if_neg hs] at h2
            exact Or.inl h2
        · rw [if_neg hch] at h2
          exact Or.inl h2
      · exact Or.inr ⟨false :: path, cnt2, by simp [hc], by rw [follow_cons]; exact hf⟩
    · exact Or.inr ⟨true :: path, cnt2, by simp [hc], by rw [follow_cons]; exact hf⟩

/-- Two bit strings that lead to leaves, one a prefix of the other, lead to
the same leaf. -/
theorem leaf_of_initial_segment {t : HuffmanNode} {p1 p2 : List Bool} {s1 s2 c1 c2 : Int}
    (h1 : follow t p1 = .node s1 c1 .nullptr .nullptr)
    (h2 : follow t p2 = .node s2 c2 .nullptr .nullptr) (hp : p1 <+: p2) : s1 = s2 := by
  obtain ⟨q, hq⟩ := hp
  rw [← hq, follow_append, h1] at h2
  cases q with
  | nil => simp only [follow_nil, HuffmanNode.node.injEq] at h2; exact h2.1
  | cons b bs =>
    rw [follow_cons] at h2
    cases b <;> simp [follow_nullptr] at h2

theorem enqueueLeaves_spec (map : hashmapF) :
    ∀ (keys : List Int) {h : Heap HuffmanNode} {q : priorityqueue}
      {l : List (HuffmanNode × Int)}, Abs false h q l →
      ∃ h2 q2, enqueueLeaves map keys h q = some (h2, q2) ∧
        Abs false h2 q2
          (l ++ keys.map (fun key => (.node key (map.get key) .nullptr .nullptr, map.get key))) := by
  intro keys
  induction keys with
  | nil => intro h q l ha; exact ⟨h, q, rfl, by simpa using ha⟩
  | cons key keys ih =>
    intro h q l ha
    obtain ⟨h1, q1, he, ha1, _⟩ := ha.enqueue_abs
      (.node key (map.get key) .nullptr .nullptr) (map.get key)
    obtain ⟨h2, q2, he2, ha2⟩ := ih ha1
    refine ⟨h2, q2, ?_, by simpa using ha2⟩
    simp only [enqueueLeaves, he, Option.some_bind, he2]

theorem firstMin_mem {T : Type} {l : List (T × Int)} {x : T × Int} (h : firstMin l = some x) :
    x ∈ l := by
  obtain ⟨pre, post, hl, _⟩ := firstMin_split h
  rw [hl]; simp

theorem removeFirstMin_mem {T : Type} {l : List (T × Int)} {y : T × Int}
    (h : y ∈ removeFirstMin l) : y ∈ l := by
  cases hf : firstMin l with
  | none => rw [firstMin_eq_none hf] at h; simp [removeFirstMin] at h
  | some x =>
    obtain ⟨pre, post, hl, _, _, hrem⟩ := firstMin_split hf
    rw [hrem] at h
    rw [hl]
    rcases List.mem_append.1 h with e | e
    · exact List.mem_append_left _ e
    · exact List.mem_append_right _ (List.mem_cons_of_mem _ e)

theorem removeFirstMin_length {T : Type} {l : List (T × Int)} (hne : l ≠ []) :
    (removeFirstMin l).length + 1 = l.length := by
  cases hf : firstMin l with
  | none => exact absurd (firstMin_eq_none hf) hne
  | some x =>
    obtain ⟨pre, post, hl, _, _, hrem⟩ := firstMin_split hf
    rw [hrem, hl]; simp; omega

theorem firstMin_isSome {T : Type} {l : List (T × Int)} (hne : l ≠ []) :
    ∃ x, firstMin l = some x := by
  cases hf : firstMin l with
  | none => exact absurd (firstMin_eq_none hf) hne
  | some x => exact ⟨x, rfl⟩

theorem forestLeaves_append (l1 l2 : List (HuffmanNode × Int)) :
    forestLeaves (l1 ++ l2) = forestLeaves l1 ++ forestLeaves l2 := by
  induction l1 with
  | nil => rfl
  | cons x xs ih =>
    simp only [List.cons_append, forestLeaves, List.append_eq, ih, List.append_assoc]

theorem forestLeaves_removeFirstMin {l : List (HuffmanNode × Int)} {x : HuffmanNode × Int}
    (h : firstMin l = some x) :
    (forestLeaves l).Perm (leaves x.1 ++ forestLeaves (removeFirstMin l)) := by
  obtain ⟨pre, post, hl, _, _, hrem⟩ := firstMin_split h
  rw [hrem, hl]
  simp only [forestLeaves_append, forestLeaves]
  exact List.perm_append_comm_assoc _ _ _

theorem leaves_good_node {k : Consts} {ch c : Int} {z o : HuffmanNode} (hz : Good k z) :
    leaves (.node ch c z o) = leaves z ++ leaves o := by
  have : ¬ (z = .nullptr ∧ o = .nullptr) := by
    rintro ⟨e, _⟩
    rw [e] at hz
    exact hz
  simp only [leaves, if_neg this]

theorem mergeLoop_spec (k : Consts) :
    ∀ (fuel : Nat) {h : Heap HuffmanNode} {q : priorityqueue} {l : List (HuffmanNode × Int)},
      Abs false h q l → (∀ x ∈ l, Good k x.1) → l.length ≤ fuel + 1 →
      l.length < 2147483648 →
      ∃ h2 q2 l2, mergeLoop k fuel h q = some (h2, q2) ∧ Abs false h2 q2 l2 ∧
        (∀ x ∈ l2, Good k x.1) ∧ l2.length ≤ 1 ∧ (l ≠ [] → l2 ≠ []) ∧
        (forestLeaves l2).Perm (forestLeaves l) := by
  intro fuel
  induction fuel with
  | zero =>
    intro h q l ha hg hl hb
    have hs : ¬ q.Size > 1 := by
      have := ha.size_small hb
      simp only [priorityqueue.Size, this]
      have : (l.length : Int) ≤ 1 := by exact_mod_cast hl
      omega
    exact ⟨h, q, l, by simp only [mergeLoop, if_neg hs], ha, hg, hl, fun e => e,
      List.Perm.refl _⟩
  | succ fuel ih =>
    intro h q l ha hg hl hb
    by_cases hs : q.Size > 1
    · have hlen : 1 < l.length := by
        have := ha.size_small hb
        simp only [priorityqueue.Size, this] at hs
        exact_mod_cast hs
      have hne : l ≠ [] := by intro e; rw [e] at hlen; simp at hlen
      obtain ⟨x, hx⟩ := firstMin_isSome hne
      obtain ⟨h1, q1, he1, ha1, _, _⟩ := ha.dequeue_abs x hx
      have hlen1 := removeFirstMin_length hne
      have hne1 : removeFirstMin l ≠ [] := by
        intro e; rw [e] at hlen1; simp at hlen1; omega
      obtain ⟨y, hy⟩ := firstMin_isSome hne1
      obtain ⟨h2, q2, he2, ha2, _, _⟩ := ha1.dequeue_abs y hy
      have hlen2 := removeFirstMin_length hne1
      have hgx : Good k x.1 := hg x (firstMin_mem hx)
      have hgy : Good k y.1 := hg y (removeFirstMin_mem (firstMin_mem hy))
      cases hxv : x.1 with
      | nullptr => rw [hxv] at hgx; exact absurd hgx (by simp [Good])
      | node chx c0 zx ox =>
        cases hyv : y.1 with
        | nullptr => rw [hyv] at hgy; exact absurd hgy (by simp [Good])
        | node chy c1 zy oy =>
          obtain ⟨h3, q3, he3, ha3, _⟩ := ha2.enqueue_abs
            (.node k.NOT_A_CHAR (wrap32 (wrap32 (0 + c0) + c1)) x.1 y.1)
            (wrap32 (wrap32 (0 + c0) + c1))
          have hg3 : ∀ z ∈ removeFirstMin (removeFirstMin l) ++
              [(HuffmanNode.node k.NOT_A_CHAR (wrap32 (wrap32 (0 + c0) + c1)) x.1 y.1,
                wrap32 (wrap32 (0 + c0) + c1))], Good k z.1 := by
            intro z hz
            rcases List.mem_append.1 hz with e | e
            · exact hg z (removeFirstMin_mem (removeFirstMin_mem e))
            · simp only [List.mem_singleton] at e
              subst e
              exact Or.inr ⟨rfl, hgx, hgy⟩
          obtain ⟨h4, q4, l4, he4, ha4, hg4, hl4, hne4, hp4⟩ := ih ha3 hg3 (by
            simp only [List.length_append, List.length_singleton]; omega) (by
            simp only [List.length_append, List.length_singleton]; omega)
          refine ⟨h4, q4, l4, ?_, ha4, hg4, hl4, fun _ => hne4 (by simp), ?_⟩
          · simp only [mergeLoop, if_pos hs, he1, Option.some_bind, he2]
            rw [hxv, hyv] at he3
            simp only [hxv, hyv, he3, Option.some_bind, he4]
          · refine hp4.trans ?_
            have p1 := forestLeaves_removeFirstMin hx
            have p2 := forestLeaves_removeFirstMin hy
            simp only [forestLeaves_append, forestLeaves, List.append_nil]
            rw [leaves_good_node hgx]
            refine List.Perm.trans ?_ p1.symm
            refine List.Perm.trans ?_ (List.Perm.append_left _ p2.symm)
            refine List.perm_append_comm.trans ?_
            simp only [List.append_assoc]
            exact List.Perm.refl _
    · have hlen : l.length ≤ 1 := by
        have := ha.size_small hb
        simp only [priorityqueue.Size, this] at hs
        have : ¬ (1 : Int) < l.length := hs
        omega
      refine ⟨h, q, l, by simp only [mergeLoop, if_neg hs], ha, hg, hlen, fun e => e,
        List.Perm.refl _⟩

theorem forestLeaves_of_keys (map : hashmapF) (keys : List Int) :
    forestLeaves (keys.map (fun key =>
      (HuffmanNode.node key (map.get key) .nullptr .nullptr, map.get key))) = keys := by
  induction keys with
  | nil => rfl
  | cons key rest ih => simp [forestLeaves, leaves, ih]

theorem buildEncodingTree_good (k : Consts) (map : hashmapF) (hne : map.keys ≠ [])
    (hlen : map.keys.length < 2147483648) :
    ∃ tree, buildEncodingTree k map = some tree ∧ (tree = .nullptr ∨ Good k tree) ∧
      (map.keys ≠ [] → Good k tree) ∧ (leaves tree).Perm map.keys := by
  obtain ⟨h1, q1, he1, ha1⟩ := enqueueLeaves_spec map map.keys
    (Abs.new false : Abs false (Heap.empty : Heap HuffmanNode) _ _)
  simp only [List.nil_append] at ha1
  have hg1 : ∀ x ∈ map.keys.map (fun key =>
      (HuffmanNode.node key (map.get key) .nullptr .nullptr, map.get key)), Good k x.1 := by
    intro x hx
    obtain ⟨key, _, hk⟩ := List.mem_map.1 hx
    subst hk
    exact Or.inl ⟨rfl, rfl⟩
  obtain ⟨h2, q2, l2, he2, ha2, hg2, hl2, hne2, hp2⟩ := mergeLoop_spec k map.keys.length ha1 hg1
    (by simp) (by simpa using hlen)
  rw [forestLeaves_of_keys] at hp2
  cases l2 with
  | nil => exact absurd rfl (hne2 (by simpa using hne))
  | cons x rest =>
    have hx : firstMin (x :: rest) = some x := by
      have : rest = [] := by
        simp only [List.length_cons] at hl2
        exact List.length_eq_zero.1 (by omega)
      subst this
      rfl
    obtain ⟨h3, q3, he3, _⟩ := ha2.dequeue_abs x hx
    have hgx := hg2 x (by simp)
    have hrest : rest = [] := by
      simp only [List.length_cons] at hl2
      exact List.length_eq_zero.1 (by omega)
    subst hrest
    refine ⟨x.1, ?_, Or.inr hgx, fun _ => hgx, by simpa [forestLeaves] using hp2⟩
    simp only [buildEncodingTree, he1, Option.some_bind, he2, he3, Option.map_some']

/-- C1, the code at the failing inputs: a file that holds the single byte 255
is compressed and decompressed to the empty string, and the file with the
bytes 97, 255, 98 to the single character 97: `encode` and
`buildFrequencyMap` read a byte into a `char` and take the byte 255 for the
end of the file. -/
theorem C1_byte_255_ends_the_input :
    roundTrip stdConsts [255] = some [] ∧
    roundTrip stdConsts [97, 255, 98] = some [97] ∧
    (encode stdConsts [97, 255, 98]
      (buildEncodingMap stdConsts
        ((buildEncodingTree stdConsts (buildFrequencyMap stdConsts [97, 255, 98] true ⟨[]⟩)).getD
          .nullptr)) 0 true).bits = [false, true] := by
  refine ⟨by decide, by decide, by decide⟩

theorem hashmapF.containsKey_iff (m : hashmapF) (key : Int) :
    m.containsKey key = true ↔ key ∈ m.keys := by
  simp only [hashmapF.containsKey, hashmapF.keys, List.any_eq_true, decide_eq_true_eq,
    List.mem_map]

theorem hashmapF.keys_put (m : hashmapF) (key value : Int) :
    (m.put key value).keys = if key ∈ m.keys then m.keys else m.keys ++ [key] := by
  simp only [hashmapF.put]
  by_cases h : m.containsKey key = true
  · rw [if_pos h, if_pos ((hashmapF.containsKey_iff m key).1 h)]
    simp only [hashmapF.keys, List.map_map]
    refine List.map_congr_left ?_
    intro e _
    simp only [Function.comp]
    split_ifs with hc
    · exact hc.symm
    · rfl
  · rw [if_neg h, if_neg (fun hk => h ((hashmapF.containsKey_iff m key).2 hk))]
    simp [hashmapF.keys]

theorem keys_buildFrequencyMap (c : Int) (m : hashmapF) :
    (_buildFrequencyMap c m).keys = if c ∈ m.keys then m.keys else m.keys ++ [c] := by
  simp only [_buildFrequencyMap]
  split_ifs <;> simp_all [hashmapF.keys_put]

theorem nodup_keys_step (c : Int) (keys : List Int) (h : keys.Nodup) :
    (if c ∈ keys then keys else keys ++ [c]).Nodup := by
  split_ifs with hc
  · exact h
  · exact List.nodup_append.2 ⟨h, List.nodup_singleton c, by
      intro x hx hx2
      simp only [List.mem_singleton] at hx2
      exact hc (hx2 ▸ hx)⟩

theorem mem_keys_step (c x : Int) (keys : List Int) :
    x ∈ (if c ∈ keys then keys else keys ++ [c]) ↔ x ∈ keys ∨ x = c := by
  split_ifs with hc
  · constructor
    · exact Or.inl
    · rintro (h | h)
      · exact h
      · exact h ▸ hc
  · simp

theorem toChar_eq_EOF (b : Fin 256) : toChar b.val = EOF ↔ b = 255 := by
  have hb := b.isLt
  simp only [toChar, EOF]
  constructor
  · intro h
    apply Fin.ext
    have : (b.val : Int) = 255 := by omega
    have h2 : b.val = 255 := by exact_mod_cast this
    simpa using h2
  · intro h
    subst h
    decide

theorem readFrequencies_eq (S : List (Fin 256)) (hS : ∀ b ∈ S, b ≠ 255) (m : hashmapF) :
    readFrequencies S m = countString S m := by
  induction S generalizing m with
  | nil => rfl
  | cons b rest ih =>
    have hb : ¬ toChar b.val = EOF := fun e => hS b (by simp) ((toChar_eq_EOF b).1 e)
    simp only [readFrequencies, countString, if_neg hb]
    exact ih (fun x hx => hS x (List.mem_cons_of_mem _ hx)) _

theorem countString_keys (S : List (Fin 256)) :
    ∀ (m : hashmapF), m.keys.Nodup →
      (countString S m).keys.Nodup ∧
      ∀ x, x ∈ (countString S m).keys ↔ x ∈ m.keys ∨ ∃ b ∈ S, x = toChar b.val := by
  induction S with
  | nil => intro m h; exact ⟨h, fun x => by simp [countString]⟩
  | cons b rest ih =>
    intro m h
    have h1 : (_buildFrequencyMap (toChar b.val) m).keys.Nodup := by
      rw [keys_buildFrequencyMap]; exact nodup_keys_step _ _ h
    obtain ⟨h2, h3⟩ := ih _ h1
    refine ⟨h2, ?_⟩
    intro x
    simp only [countString]
    rw [h3, keys_buildFrequencyMap, mem_keys_step]
    simp only [List.mem_cons, exists_eq_or_imp]
    tauto

theorem buildFrequencyMap_table (k : Consts) (S : List (Fin 256)) (hS : ∀ b ∈ S, b ≠ 255) :
    TableOf k S (buildFrequencyMap k S true ⟨[]⟩) := by
  obtain ⟨h2, h3⟩ := countString_keys S ⟨[]⟩ (by simp [hashmapF.keys])
  simp only [buildFrequencyMap, if_true, readFrequencies_eq S hS]
  refine ⟨?_, ?_, ?_, ?_⟩
  · rw [hashmapF.keys_put]; exact nodup_keys_step _ _ h2
  · intro b hb
    rw [hashmapF.keys_put, mem_keys_step]
    exact Or.inl ((h3 _).2 (Or.inr ⟨b, hb, rfl⟩))
  · rw [hashmapF.keys_put, mem_keys_step]; exact Or.inr rfl
  · intro key hk
    rw [hashmapF.keys_put, mem_keys_step] at hk
    rcases hk with e | e
    · rcases (h3 key).1 e with e2 | e2
      · simp [hashmapF.keys] at e2
      · exact Or.inr e2
    · exact Or.inl e

theorem buildEncodingMap_untouched (k : Consts) :
    ∀ (t : HuffmanNode), (t = .nullptr ∨ Good k t) →
      ∀ (m : hashmapE) (str : List Bool) (s : Int), s ∉ leaves t →
        _buildEncodingMap k t m str s = m s := by
  intro t
  induction t with
  | nullptr => intro _ m str s _; rfl
  | node ch cnt z o ihz iho =>
    intro hg m str s hs
    have hgood : Good k (.node ch cnt z o) := by
      rcases hg with e | e
      · cases e
      · exact e
    simp only [_buildEncodingMap]
    rcases hgood with ⟨ez, eo⟩ | ⟨ech, gz, go⟩
    · subst ez; subst eo
      simp only [leaves, and_self, if_true, List.mem_singleton] at hs
      simp only [_buildEncodingMap]
      split_ifs
      · simp only [hashmapE.set, if_neg hs]
      · rfl
    · rw [leaves_good_node gz, List.mem_append, not_or] at hs
      rw [iho (Or.inr go) _ _ s hs.2, ihz (Or.inr gz) _ _ s hs.1]
      simp only [ech, ne_eq, not_true_eq_false, if_false]

theorem buildEncodingMap_leaf (k : Consts) :
    ∀ (t : HuffmanNode), Good k t → (leaves t).Nodup →
      ∀ (m : hashmapE) (str : List Bool) (s : Int), s ∈ leaves t → s ≠ k.NOT_A_CHAR →
        ∃ p cnt, _buildEncodingMap k t m str s = some (str ++ p) ∧
          follow t p = .node s cnt .nullptr .nullptr := by
  intro t
  induction t with
  | nullptr => intro hg; exact absurd hg (by simp [Good])
  | node ch cnt z o ihz iho =>
    intro hgood hnd m str s hs hne
    simp only [_buildEncodingMap]
    rcases hgood with ⟨ez, eo⟩ | ⟨ech, gz, go⟩
    · subst ez; subst eo
      simp only [leaves, and_self, if_true, List.mem_singleton] at hs
      subst hs
      refine ⟨[], cnt, ?_, rfl⟩
      simp only [_buildEncodingMap, ne_eq, hne, not_false_eq_true, if_true, hashmapE.set,
        List.append_nil]
    · rw [leaves_good_node gz] at hs hnd
      obtain ⟨ndz, ndo, hdis⟩ := List.nodup_append.1 hnd
      rcases List.mem_append.1 hs with e | e
      · have hso : s ∉ leaves o := fun e2 => hdis e e2
        obtain ⟨p, c2, hp, hf⟩ := ihz gz ndz
          (if ch ≠ k.NOT_A_CHAR then m.set ch str else m) (str ++ [false]) s e hne
        refine ⟨false :: p, c2, ?_, by rw [follow_cons]; exact hf⟩
        rw [buildEncodingMap_untouched k o (Or.inr go) _ _ s hso, hp]
        simp
      · obtain ⟨p, c2, hp, hf⟩ := iho go ndo
          (_buildEncodingMap k z (if ch ≠ k.NOT_A_CHAR then m.set ch str else m) (str ++ [false]))
          (str ++ [true]) s e hne
        refine ⟨true :: p, c2, ?_, by rw [follow_cons]; exact hf⟩
        rw [hp]
        simp

/-- The descent of `decode` along a bit string that leads to a node. -/
theorem decodeLoop_walk (k : Consts) (tree : HuffmanNode) :
    ∀ (p rest : List Bool) (cur : HuffmanNode) (result : List Int) (s c : Int)
      (z o : HuffmanNode), follow cur p = .node s c z o →
      decodeLoop k tree (p ++ rest) cur result = decodeLoop k tree rest (follow cur p) result := by
  intro p
  induction p with
  | nil => intro rest cur result s c z o _; rfl
  | cons b bs ih =>
    intro rest cur result s c z o hf
    cases cur with
    | nullptr => rw [follow_nullptr] at hf; cases hf
    | node ch cnt cz co =>
      rw [follow_cons] at hf ⊢
      have hleaf : ¬ (cz = .nullptr ∧ co = .nullptr) := by
        rintro ⟨e1, e2⟩
        subst e1; subst e2
        cases b <;> simp [follow_nullptr] at hf
      simp only [List.cons_append, decodeLoop, if_neg hleaf]
      exact ih rest _ result s c z o hf

theorem encodeLoop_eq (m : hashmapE) :
    ∀ (S : List (Fin 256)) (bits : List Bool) (size : Int), (∀ b ∈ S, b ≠ 255) →
      (encodeLoop m S bits size).1 = bits ++ codes m (S.map (fun b => toChar b.val)) := by
  intro S
  induction S with
  | nil => intro bits size _; simp [encodeLoop, codes]
  | cons b rest ih =>
    intro bits size hS
    have hb : ¬ toChar b.val = EOF := fun e => hS b (by simp) ((toChar_eq_EOF b).1 e)
    simp only [encodeLoop, if_neg hb, List.map_cons, codes]
    rw [ih _ _ (fun x hx => hS x (List.mem_cons_of_mem _ hx))]
    simp

/-- The loop of `decode` from the leaf of a character `s` over the codes of
further characters and of the end-of-stream symbol. -/
theorem decodeLoop_codes (k : Consts) (tree : HuffmanNode) (m : hashmapE) (rch rcnt : Int)
    (rz ro : HuffmanNode) (htree : tree = .node rch rcnt rz ro)
    (hroot : ¬ (rz = .nullptr ∧ ro = .nullptr))
    (hcode : ∀ s, s ∈ leaves tree → ∃ p cnt, m.lookup s = p ∧
      follow tree p = .node s cnt .nullptr .nullptr)
    (heof : k.PSEUDO_EOF ∈ leaves tree) :
    ∀ (cs : List Int) (s cnt : Int) (result : List Int), (∀ c ∈ cs, c ∈ leaves tree) →
      (∀ c ∈ cs, c ≠ k.PSEUDO_EOF) → s ≠ k.PSEUDO_EOF →
      decodeLoop k tree (codes m cs ++ m.lookup k.PSEUDO_EOF) (.node s cnt .nullptr .nullptr) result =
        some (result ++ toChar s :: cs.map toChar) := by
  have hstep : ∀ (x : Int), x ∈ leaves tree → ∀ (rest : List Bool) (s cnt : Int)
      (result : List Int), s ≠ k.PSEUDO_EOF →
      ∃ cx, decodeLoop k tree (m.lookup x ++ rest) (.node s cnt .nullptr .nullptr) result =
        decodeLoop k tree rest (.node x cx .nullptr .nullptr) (result ++ [toChar s]) := by
    intro x hx rest s cnt result hs
    obtain ⟨p, cx, hp, hf⟩ := hcode x hx
    refine ⟨cx, ?_⟩
    rw [hp]
    cases p with
    | nil =>
      rw [follow_nil, htree] at hf
      simp only [HuffmanNode.node.injEq] at hf
      exact absurd ⟨hf.2.2.1, hf.2.2.2⟩ hroot
    | cons b bs =>
      rw [htree, follow_cons] at hf
      simp only [List.cons_append, decodeLoop, and_self, if_true, if_neg hs, htree,
        List.append_eq]
      rw [decodeLoop_walk k _ bs rest _ _ x cx .nullptr .nullptr hf, hf]
  intro cs
  induction cs with
  | nil =>
    intro s cnt result _ _ hs
    obtain ⟨cx, hx⟩ := hstep k.PSEUDO_EOF heof [] s cnt result hs
    simp only [codes, List.nil_append, List.map_nil]
    rw [List.append_nil] at hx
    rw [hx]
    simp [decodeLoop]
  | cons c cs ih =>
    intro s cnt result hmem hne hs
    obtain ⟨cx, hx⟩ := hstep c (hmem c (by simp)) (codes m cs ++ m.lookup k.PSEUDO_EOF) s cnt
      result hs
    simp only [codes, List.append_assoc, List.map_cons]
    rw [hx, ih c cx _ (fun y hy => hmem y (List.mem_cons_of_mem _ hy))
      (fun y hy => hne y (List.mem_cons_of_mem _ hy)) (hne c (by simp))]
    simp

theorem toChar_range (x : Int) : -128 ≤ toChar x ∧ toChar x ≤ 127 := by
  simp only [toChar]; omega

theorem TableOf.keys_length {k : Consts} {S : List (Fin 256)} {map : hashmapF}
    (ht : TableOf k S map) : map.keys.length ≤ 257 := by
  have hsub : map.keys.toFinset ⊆ insert k.PSEUDO_EOF (Finset.Icc (-128 : Int) 127) := by
    intro x hx
    rcases ht.sub x (List.mem_toFinset.1 hx) with e | ⟨b, _, e⟩
    · exact Finset.mem_insert.2 (Or.inl e)
    · have := toChar_range b.val
      exact Finset.mem_insert.2 (Or.inr (Finset.mem_Icc.2 (by rw [e]; omega)))
  have hcard := Finset.card_le_card hsub
  rw [List.toFinset_card_of_nodup ht.nodup] at hcard
  refine le_trans hcard (le_trans (Finset.card_insert_le _ _) ?_)
  simp

theorem TableOf.keys_ne_nil {k : Consts} {S : List (Fin 256)} {map : hashmapF}
    (ht : TableOf k S map) : map.keys ≠ [] := by
  intro e
  have := ht.eof
  rw [e] at this
  simp at this

theorem toChar_idem (x : Int) : toChar (toChar x) = toChar x := by
  simp only [toChar]; omega

theorem leaves_ne_nil {k : Consts} : ∀ (t : HuffmanNode), Good k t → leaves t ≠ [] := by
  intro t
  induction t with
  | nullptr => intro hg; exact absurd hg (by simp [Good])
  | node ch cnt z o ihz _ =>
    intro hg
    rcases hg with ⟨ez, eo⟩ | ⟨_, gz, _⟩
    · subst ez; subst eo; simp [leaves]
    · rw [leaves_good_node gz]
      intro e
      exact ihz gz (List.append_eq_nil.1 e).1

/-- The round trip on a file without the byte 255: with the end-of-stream
symbol and the marker outside the range of `char` and different from one
another, compressing and decompressing returns the characters of the file. -/
theorem roundTrip_without_255 (k : Consts)
    (hE : k.PSEUDO_EOF < -128 ∨ 127 < k.PSEUDO_EOF)
    (hN : k.NOT_A_CHAR < -128 ∨ 127 < k.NOT_A_CHAR)
    (hNE : k.NOT_A_CHAR ≠ k.PSEUDO_EOF)
    (S : List (Fin 256)) (hS : ∀ b ∈ S, b ≠ 255) :
    roundTrip k S = some (S.map (fun b => toChar b.val)) := by
  have htab := buildFrequencyMap_table k S hS
  obtain ⟨tree, he, _, hgood, hperm⟩ :=
    buildEncodingTree_good k (buildFrequencyMap k S true ⟨[]⟩) htab.keys_ne_nil
      (lt_of_le_of_lt htab.keys_length (by decide))
  have hg : Good k tree := hgood (fun e => by
    have := htab.eof
    rw [e] at this
    simp at this)
  have hnd : (leaves tree).Nodup := hperm.nodup_iff.2 htab.nodup
  have hcharNE : ∀ x : Int, toChar x ≠ k.PSEUDO_EOF := by
    intro x e
    have := toChar_range x
    rw [e] at this
    omega
  have hleafNot : ∀ s ∈ leaves tree, s ≠ k.NOT_A_CHAR := by
    intro s hs e
    rcases htab.sub s (hperm.mem_iff.1 hs) with e2 | ⟨b, _, e2⟩
    · exact hNE (e ▸ e2)
    · have := toChar_range b.val
      rw [← e2, e] at this
      omega
  have hcode : ∀ s, s ∈ leaves tree → ∃ p cnt, (buildEncodingMap k tree).lookup s = p ∧
      follow tree p = .node s cnt .nullptr .nullptr := by
    intro s hs
    obtain ⟨p, cnt, hp, hf⟩ := buildEncodingMap_leaf k tree hg hnd hashmapE.empty [] s hs
      (hleafNot s hs)
    refine ⟨p, cnt, ?_, hf⟩
    simp only [hashmapE.lookup, buildEncodingMap, hp, List.nil_append, Option.getD_some]
  have heofL : k.PSEUDO_EOF ∈ leaves tree := hperm.mem_iff.2 htab.eof
  simp only [roundTrip, he, Option.some_bind, encode, if_true, decode]
  rw [encodeLoop_eq _ S [] 0 hS, List.nil_append]
  cases S with
  | nil =>
    simp only [List.map_nil, codes, List.nil_append]
    obtain ⟨p, cnt, hp, hf⟩ := hcode _ heofL
    rw [hp]
    have hkeys : ∀ x ∈ leaves tree, x = k.PSEUDO_EOF := by
      intro x hx
      rcases htab.sub x (hperm.mem_iff.1 hx) with e | ⟨b, hb, _⟩
      · exact e
      · simp at hb
    cases tree with
    | nullptr => exact absurd hg (by simp [Good])
    | node ch c z o =>
      rcases hg with ⟨ez, eo⟩ | ⟨_, gz, go⟩
      · subst ez; subst eo
        have hch : ch = k.PSEUDO_EOF := hkeys ch (by simp [leaves])
        cases p with
        | nil => simp [decodeLoop, hch]
        | cons b bs =>
          rw [follow_cons] at hf
          cases b <;> simp [follow_nullptr] at hf
      · exfalso
        rw [leaves_good_node gz] at hnd hkeys
        obtain ⟨a, ha⟩ := List.exists_mem_of_ne_nil _ (leaves_ne_nil z gz)
        obtain ⟨b, hb⟩ := List.exists_mem_of_ne_nil _ (leaves_ne_nil o go)
        have e1 := hkeys a (List.mem_append_left _ ha)
        have e2 := hkeys b (List.mem_append_right _ hb)
        exact (List.nodup_append.1 hnd).2.2 ha (e1.trans e2.symm ▸ hb)
  | cons b0 rest =>
    have hc0 : toChar b0.val ∈ leaves tree := hperm.mem_iff.2 (htab.chars b0 (by simp))
    cases htree : tree with
    | nullptr => rw [htree] at hg; exact absurd hg (by simp [Good])
    | node rch rcnt rz ro =>
      have hroot : ¬ (rz = .nullptr ∧ ro = .nullptr) := by
        rintro ⟨ez, eo⟩
        rw [htree, ez, eo] at hc0 heofL
        simp only [leaves, and_self, if_true, List.mem_singleton] at hc0 heofL
        exact hcharNE _ (hc0.trans heofL.symm)
      rw [← htree]
      obtain ⟨p0, cnt0, hp0, hf0⟩ := hcode _ hc0
      simp only [List.map_cons, codes, List.append_assoc]
      rw [hp0, decodeLoop_walk k tree p0 _ tree [] _ cnt0 .nullptr .nullptr hf0, hf0]
      rw [decodeLoop_codes k tree (buildEncodingMap k tree) rch rcnt rz ro htree hroot hcode heofL
        (rest.map (fun b => toChar b.val)) (toChar b0.val) cnt0 []
        (fun c hc => by
          obtain ⟨b, hb, e⟩ := List.mem_map.1 hc
          rw [← e]
          exact hperm.mem_iff.2 (htab.chars b (List.mem_cons_of_mem _ hb)))
        (fun c hc => by
          obtain ⟨b, _, e⟩ := List.mem_map.1 hc
          rw [← e]
          exact hcharNE _)
        (hcharNE _)]
      simp [toChar_idem, List.map_map, Function.comp]

/-- The round trip on a file without the byte 255, an instance: the file
with the content `aab`. -/
theorem roundTrip_without_255_witness :
    (stdConsts.PSEUDO_EOF < -128 ∨ 127 < stdConsts.PSEUDO_EOF) ∧
    (stdConsts.NOT_A_CHAR < -128 ∨ 127 < stdConsts.NOT_A_CHAR) ∧
    stdConsts.NOT_A_CHAR ≠ stdConsts.PSEUDO_EOF ∧
    (∀ b ∈ ([97, 97, 98] : List (Fin 256)), b ≠ 255) ∧
    roundTrip stdConsts [97, 97, 98] = some [97, 97, 98] :=
  ⟨by decide, by decide, by decide, by simp,
    roundTrip_without_255 stdConsts (by decide) (by decide) (by decide) [97, 97, 98] (by simp)⟩

end Huffman

namespace PQ

variable {T : Type}

theorem Abs.root_none {s : Bool} {h : Heap T} {q : priorityqueue} (ha : Abs s h q []) :
    q.root = none := by
  obtain ⟨g, hi, hg⟩ := ha
  cases g with
  | nil => exact hi.root
  | node a p v ch l r =>
    have := congrArg List.length hg
    simp [GT.toList, stableSort] at this

/-- For a class type (a value type with a default constructor), in every state
reached from the empty queue by enqueue and dequeue calls in which nothing is
stored (the new queue among them): `dequeue` and `peek` return the
default-constructed value, the heap and the queue object are left as they
were, the queue is empty (`root` is null) and `Size()` is 0, also after any
number of further calls of `dequeue`. -/
theorem empty_queue_of_class_type [Inhabited T] [ClassType T] (ops : List (Op T))
    (hempty : stored ops = []) :
    ∃ h q outs, run ops Heap.empty priorityqueue.new [] = some (h, q, outs) ∧
      q.root = none ∧ q.Size = 0 ∧
      dequeue h q = some (default, h, q) ∧
      peek h q = some (default, q) ∧
      ∀ n : Nat, dequeueN n h q = some (List.replicate n default, h, q) := by
  obtain ⟨h, q, outs, hr, ha⟩ := Abs.run ops [] (Abs.new false)
  have ha2 : Abs false h q [] := by
    have : Abs false h q (stored ops) := ha
    rwa [hempty] at this
  have hroot : q.root = none := ha2.root_none
  refine ⟨h, q, outs, hr, hroot, ?_, ha2.dequeue_empty, ?_, ?_⟩
  · simpa [wrap32_zero] using Abs.size_eq ha2
  · simp [priorityqueue.peek, hroot, ClassType.constructed]
  · intro n
    induction n with
    | zero => rfl
    | succ n ih =>
      simp only [dequeueN, ha2.dequeue_empty, Option.some_bind, ih, Option.map_some',
        List.replicate_succ]

/-- The queue of strings emptied by three calls of dequeue after two calls of
enqueue, the last of them already on the empty queue: a further `dequeue` and
`peek` return the empty string and `Size()` is 0. -/
theorem empty_queue_of_strings :
    ∃ h q outs, run emptiedOps Heap.empty priorityqueue.new [] = some (h, q, outs) ∧
      q.root = none ∧ q.Size = 0 ∧
      dequeue h q = some ("", h, q) ∧
      peek h q = some ("", q) ∧
      ∀ n : Nat, dequeueN n h q = some (List.replicate n "", h, q) :=
  empty_queue_of_class_type emptiedOps (by decide)

/-- C11, on the code: the local `T valueOut;` of `dequeue` and of `peek` has no
initialiser.  For the queue of `HuffmanNode*` of `buildEncodingTree` the
declaration leaves it without a value, and on the empty queue both methods
return it as it is: the result is no default value (a null pointer) but
undefined, and so is the tree that `buildEncodingTree` returns for an empty
table. -/
theorem C11_empty_queue_returns_uninitialised_local :
    (DefaultInit.valueOut : Option Huffman.HuffmanNode) = none ∧
    dequeue (Heap.empty : Heap Huffman.HuffmanNode) priorityqueue.new = none ∧
    peek (Heap.empty : Heap Huffman.HuffmanNode) priorityqueue.new = none ∧
    Huffman.buildEncodingTree Huffman.stdConsts ⟨[]⟩ = none :=
  ⟨rfl, rfl, rfl, by decide⟩

end PQ

namespace Huffman

theorem readable_ne (S : List (Fin 256)) : ∀ b ∈ readable S, b ≠ 255 := by
  induction S with
  | nil => intro b hb; simp [readable] at hb
  | cons x rest ih =>
    intro b hb
    by_cases hx : x = 255
    · simp [readable, hx] at hb
    · simp only [readable, if_neg hx, List.mem_cons] at hb
      rcases hb with e | e
      · exact e ▸ hx
      · exact ih b e

theorem readable_eq_self (S : List (Fin 256)) (hS : ∀ b ∈ S, b ≠ 255) : readable S = S := by
  induction S with
  | nil => rfl
  | cons x rest ih =>
    simp only [readable, if_neg (hS x (by simp))]
    rw [ih (fun b hb => hS b (List.mem_cons_of_mem _ hb))]

theorem readable_initial (S : List (Fin 256)) : readable S <+: S := by
  induction S with
  | nil => exact List.nil_prefix
  | cons x rest ih =>
    by_cases hx : x = 255
    · simp only [readable, if_pos hx]; exact List.nil_prefix
    · simp only [readable, if_neg hx]
      exact (List.prefix_cons_inj x).2 ih

theorem readFrequencies_readable (S : List (Fin 256)) (m : hashmapF) :
    readFrequencies S m = countString (readable S) m := by
  induction S generalizing m with
  | nil => simp [readFrequencies, readable, countString]
  | cons x rest ih =>
    by_cases hx : x = 255
    · have : toChar x.val = EOF := (toChar_eq_EOF x).2 hx
      simp only [readFrequencies, readable, if_pos hx, countString, if_pos this]
    · have : ¬ toChar x.val = EOF := fun e => hx ((toChar_eq_EOF x).1 e)
      simp only [readFrequencies, readable, if_neg hx, countString, if_neg this]
      exact ih _

theorem encodeLoop_readable (m : hashmapE) (S : List (Fin 256)) (bits : List Bool) (size : Int) :
    encodeLoop m S bits size = encodeLoop m (readable S) bits size := by
  induction S generalizing bits size with
  | nil => rfl
  | cons x rest ih =>
    by_cases hx : x = 255
    · have : toChar x.val = EOF := (toChar_eq_EOF x).2 hx
      simp only [encodeLoop, readable, if_pos hx, if_pos this]
    · have : ¬ toChar x.val = EOF := fun e => hx ((toChar_eq_EOF x).1 e)
      simp only [encodeLoop, readable, if_neg hx, if_neg this]
      exact ih _ _

/-- The frequency table of a file is that of its bytes before the first byte 255. -/
theorem buildFrequencyMap_readable (k : Consts) (S : List (Fin 256)) (m : hashmapF) :
    buildFrequencyMap k S true m = buildFrequencyMap k (readable S) true m := by
  simp only [buildFrequencyMap, if_true, readFrequencies_readable, readable_eq_self _
    (readable_ne S)]

/-- The function `encode` hands back what it hands back for the bytes before the first
byte 255. -/
theorem encode_readable (k : Consts) (S : List (Fin 256)) (m : hashmapE) (size : Int)
    (makeFile : Bool) : encode k S m size makeFile = encode k (readable S) m size makeFile := by
  simp only [encode, encodeLoop_readable m S, readable_eq_self _ (readable_ne S)]

/-- The bits that `encode` returns: the codes of the characters before the first byte
255 and the code of the end-of-stream symbol. -/
theorem encode_bits (k : Consts) (S : List (Fin 256)) (m : hashmapE) (size : Int)
    (makeFile : Bool) :
    (encode k S m size makeFile).bits = codes m (chars (readable S)) ++ m.lookup k.PSEUDO_EOF := by
  rw [encode_readable]
  simp only [encode]
  rw [encodeLoop_eq m _ [] size (readable_ne S), List.nil_append]
  rfl

/-- The loop of `decode` only appends to the result. -/
theorem decodeLoop_extends (k : Consts) (tree : HuffmanNode) :
    ∀ (bits : List Bool) (root : HuffmanNode) (result r : List Int),
      decodeLoop k tree bits root result = some r → result <+: r := by
  intro bits
  induction bits with
  | nil =>
    intro root result r h
    cases root with
    | nullptr => simp [decodeLoop] at h
    | node ch c z o =>
      simp only [decodeLoop] at h
      split_ifs at h
      · cases h; exact List.prefix_refl _
      · cases h; exact List.prefix_append _ _
      · cases h; exact List.prefix_refl _
  | cons b bits ih =>
    intro root result r h
    cases root with
    | nullptr => simp [decodeLoop] at h
    | node ch c z o =>
      by_cases hl : z = .nullptr ∧ o = .nullptr
      · by_cases he : ch = k.PSEUDO_EOF
        · simp only [decodeLoop, if_pos hl, if_pos he] at h
          cases h; exact List.prefix_refl _
        · cases tree with
          | nullptr =>
            simp only [decodeLoop, if_pos hl, if_neg he] at h
            cases h
          | node _ _ z2 o2 =>
            simp only [decodeLoop, if_pos hl, if_neg he] at h
            exact (List.prefix_append _ _).trans (ih _ _ _ h)
      · simp only [decodeLoop, if_neg hl] at h
        exact ih _ _ _ h

/-- The loop of `decode` on an initial segment of its input: it ends without
an absent branch followed when the loop on the whole input does, and its
result is an initial segment of the result on the whole input. -/
theorem decodeLoop_initial (k : Consts) (tree : HuffmanNode) :
    ∀ (bits1 bits2 : List Bool) (root : HuffmanNode) (result r : List Int),
      decodeLoop k tree (bits1 ++ bits2) root result = some r →
      ∃ r1, decodeLoop k tree bits1 root result = some r1 ∧ r1 <+: r := by
  intro bits1
  induction bits1 with
  | nil =>
    intro bits2 root result r h
    rw [List.nil_append] at h
    cases root with
    | nullptr => cases bits2 <;> simp [decodeLoop] at h
    | node ch c z o =>
      cases bits2 with
      | nil => exact ⟨r, h, List.prefix_refl _⟩
      | cons b bits =>
        by_cases hl : z = .nullptr ∧ o = .nullptr
        · by_cases he : ch = k.PSEUDO_EOF
          · simp only [decodeLoop, if_pos hl, if_pos he] at h ⊢
            cases h; exact ⟨_, rfl, List.prefix_refl _⟩
          · cases tree with
            | nullptr =>
              simp only [decodeLoop, if_pos hl, if_neg he] at h
              cases h
            | node _ _ z2 o2 =>
              simp only [decodeLoop, if_pos hl, if_neg he] at h ⊢
              exact ⟨_, rfl, decodeLoop_extends k _ _ _ _ _ h⟩
        · simp only [decodeLoop, if_neg hl] at h ⊢
          exact ⟨_, rfl, decodeLoop_extends k _ _ _ _ _ h⟩
  | cons b bits ih =>
    intro bits2 root result r h
    cases root with
    | nullptr => simp [decodeLoop] at h
    | node ch c z o =>
      by_cases hl : z = .nullptr ∧ o = .nullptr
      · by_cases he : ch = k.PSEUDO_EOF
        · simp only [List.cons_append, decodeLoop, if_pos hl, if_pos he] at h ⊢
          cases h; exact ⟨_, rfl, List.prefix_refl _⟩
        · cases tree with
          | nullptr =>
            simp only [List.cons_append, decodeLoop, if_pos hl, if_neg he] at h
            cases h
          | node _ _ z2 o2 =>
            simp only [List.cons_append, decodeLoop, if_pos hl, if_neg he] at h ⊢
            simp only [List.append_eq] at h
            exact ih _ _ _ _ h
      · simp only [List.cons_append, decodeLoop, if_neg hl] at h ⊢
        exact ih _ _ _ _ h

/-- The loop of `decode` from the leaf of a character `s` over the codes of
further characters and of the end-of-stream symbol, with bits `P` after them:
the bits `P` add nothing to the result. -/
theorem decodeLoop_codes_padding (k : Consts) (tree : HuffmanNode) (m : hashmapE)
    (rch rcnt : Int) (rz ro : HuffmanNode) (htree : tree = .node rch rcnt rz ro)
    (hroot : ¬ (rz = .nullptr ∧ ro = .nullptr))
    (hcode : ∀ s, s ∈ leaves tree → ∃ p cnt, m.lookup s = p ∧
      follow tree p = .node s cnt .nullptr .nullptr)
    (heof : k.PSEUDO_EOF ∈ leaves tree) (P : List Bool) :
    ∀ (cs : List Int) (s cnt : Int) (result : List Int), (∀ c ∈ cs, c ∈ leaves tree) →
      (∀ c ∈ cs, c ≠ k.PSEUDO_EOF) → s ≠ k.PSEUDO_EOF →
      decodeLoop k tree (codes m cs ++ (m.lookup k.PSEUDO_EOF ++ P))
          (.node s cnt .nullptr .nullptr) result =
        some (result ++ toChar s :: cs.map toChar) := by
  have hstep : ∀ (x : Int), x ∈ leaves tree → ∀ (rest : List Bool) (s cnt : Int)
      (result : List Int), s ≠ k.PSEUDO_EOF →
      ∃ cx, decodeLoop k tree (m.lookup x ++ rest) (.node s cnt .nullptr .nullptr) result =
        decodeLoop k tree rest (.node x cx .nullptr .nullptr) (result ++ [toChar s]) := by
    intro x hx rest s cnt result hs
    obtain ⟨p, cx, hp, hf⟩ := hcode x hx
    refine ⟨cx, ?_⟩
    rw [hp]
    cases p with
    | nil =>
      rw [follow_nil, htree] at hf
      simp only [HuffmanNode.node.injEq] at hf
      exact absurd ⟨hf.2.2.1, hf.2.2.2⟩ hroot
    | cons b bs =>
      rw [htree, follow_cons] at hf
      simp only [List.cons_append, decodeLoop, and_self, if_true, if_neg hs, htree,
        List.append_eq]
      rw [decodeLoop_walk k _ bs rest _ _ x cx .nullptr .nullptr hf, hf]
  intro cs
  induction cs with
  | nil =>
    intro s cnt result _ _ hs
    obtain ⟨cx, hx⟩ := hstep k.PSEUDO_EOF heof P s cnt result hs
    simp only [codes, List.nil_append, List.map_nil]
    rw [hx]
    cases P <;> simp [decodeLoop]
  | cons c cs ih =>
    intro s cnt result hmem hne hs
    obtain ⟨cx, hx⟩ := hstep c (hmem c (by simp))
      (codes m cs ++ (m.lookup k.PSEUDO_EOF ++ P)) s cnt result hs
    simp only [codes, List.append_assoc, List.map_cons]
    rw [hx, ih c cx _ (fun y hy => hmem y (List.mem_cons_of_mem _ hy))
      (fun y hy => hne y (List.mem_cons_of_mem _ hy)) (hne c (by simp))]
    simp

/-- The function `decode` on the code stream of the characters of `S`, followed by
any bits `P`, for the tree of a table that holds the characters of `S` and the
end-of-stream symbol: the result is the characters of `S`, whatever bytes `S` holds. -/
theorem decode_code_stream (k : Consts)
    (hE : k.PSEUDO_EOF < -128 ∨ 127 < k.PSEUDO_EOF)
    (hN : k.NOT_A_CHAR < -128 ∨ 127 < k.NOT_A_CHAR)
    (hNE : k.NOT_A_CHAR ≠ k.PSEUDO_EOF)
    (S : List (Fin 256)) (map : hashmapF) (htab : TableOf k S map) (P : List Bool) :
    ∃ tree, buildEncodingTree k map = some tree ∧ Good k tree ∧
      decode k (codes (buildEncodingMap k tree) (chars S) ++
        ((buildEncodingMap k tree).lookup k.PSEUDO_EOF ++ P)) tree = some (chars S) := by
  obtain ⟨tree, he, _, hgood, hperm⟩ := buildEncodingTree_good k map htab.keys_ne_nil
    (lt_of_le_of_lt htab.keys_length (by decide))
  have hg : Good k tree := hgood (fun e => by
    have := htab.eof
    rw [e] at this
    simp at this)
  refine ⟨tree, he, hg, ?_⟩
  have hnd : (leaves tree).Nodup := hperm.nodup_iff.2 htab.nodup
  have hcharNE : ∀ x : Int, toChar x ≠ k.PSEUDO_EOF := by
    intro x e
    have := toChar_range x
    rw [e] at this
    omega
  have hleafNot : ∀ s ∈ leaves tree, s ≠ k.NOT_A_CHAR := by
    intro s hs e
    rcases htab.sub s (hperm.mem_iff.1 hs) with e2 | ⟨b, _, e2⟩
    · exact hNE (e ▸ e2)
    · have := toChar_range b.val
      rw [← e2, e] at this
      omega
  have hcode : ∀ s, s ∈ leaves tree → ∃ p cnt, (buildEncodingMap k tree).lookup s = p ∧
      follow tree p = .node s cnt .nullptr .nullptr := by
    intro s hs
    obtain ⟨p, cnt, hp, hf⟩ := buildEncodingMap_leaf k tree hg hnd hashmapE.empty [] s hs
      (hleafNot s hs)
    refine ⟨p, cnt, ?_, hf⟩
    simp only [hashmapE.lookup, buildEncodingMap, hp, List.nil_append, Option.getD_some]
  have heofL : k.PSEUDO_EOF ∈ leaves tree := hperm.mem_iff.2 htab.eof
  simp only [decode, chars]
  cases S with
  | nil =>
    simp only [List.map_nil, codes, List.nil_append]
    obtain ⟨p, cnt, hp, hf⟩ := hcode _ heofL
    rw [hp]
    have hkeys : ∀ x ∈ leaves tree, x = k.PSEUDO_EOF := by
      intro x hx
      rcases htab.sub x (hperm.mem_iff.1 hx) with e | ⟨b, hb, _⟩
      · exact e
      · simp at hb
    cases tree with
    | nullptr => exact absurd hg (by simp [Good])
    | node ch c z o =>
      rcases hg with ⟨ez, eo⟩ | ⟨_, gz, go⟩
      · subst ez; subst eo
        have hch : ch = k.PSEUDO_EOF := hkeys ch (by simp [leaves])
        cases p with
        | nil => cases P <;> simp [decodeLoop, hch]
        | cons b bs =>
          rw [follow_cons] at hf
          cases b <;> simp [follow_nullptr] at hf
      · exfalso
        rw [leaves_good_node gz] at hnd hkeys
        obtain ⟨a, ha⟩ := List.exists_mem_of_ne_nil _ (leaves_ne_nil z gz)
        obtain ⟨b, hb⟩ := List.exists_mem_of_ne_nil _ (leaves_ne_nil o go)
        have e1 := hkeys a (List.mem_append_left _ ha)
        have e2 := hkeys b (List.mem_append_right _ hb)
        exact (List.nodup_append.1 hnd).2.2 ha (e1.trans e2.symm ▸ hb)
  | cons b0 rest =>
    have hc0 : toChar b0.val ∈ leaves tree := hperm.mem_iff.2 (htab.chars b0 (by simp))
    cases htree : tree with
    | nullptr => rw [htree] at hg; exact absurd hg (by simp [Good])
    | node rch rcnt rz ro =>
      have hroot : ¬ (rz = .nullptr ∧ ro = .nullptr) := by
        rintro ⟨ez, eo⟩
        rw [htree, ez, eo] at hc0 heofL
        simp only [leaves, and_self, if_true, List.mem_singleton] at hc0 heofL
        exact hcharNE _ (hc0.trans heofL.symm)
      rw [← htree]
      obtain ⟨p0, cnt0, hp0, hf0⟩ := hcode _ hc0
      simp only [List.map_cons, codes, List.append_assoc]
      rw [hp0, decodeLoop_walk k tree p0 _ tree [] _ cnt0 .nullptr .nullptr hf0, hf0]
      rw [decodeLoop_codes_padding k tree (buildEncodingMap k tree) rch rcnt rz ro htree hroot
        hcode heofL P (rest.map (fun b => toChar b.val)) (toChar b0.val) cnt0 []
        (fun c hc => by
          obtain ⟨b, hb, e⟩ := List.mem_map.1 hc
          rw [← e]
          exact hperm.mem_iff.2 (htab.chars b (List.mem_cons_of_mem _ hb)))
        (fun c hc => by
          obtain ⟨b, _, e⟩ := List.mem_map.1 hc
          rw [← e]
          exact hcharNE _)
        (hcharNE _)]
      simp [toChar_idem, List.map_map, Function.comp]

/-- Compressing and decompressing a file, with any bits after those that
`encode` has written: the result is the characters before the first byte 255,
and the bits that follow the code of the end-of-stream symbol add nothing. -/
theorem roundTripPadded_eq (k : Consts)
    (hE : k.PSEUDO_EOF < -128 ∨ 127 < k.PSEUDO_EOF)
    (hN : k.NOT_A_CHAR < -128 ∨ 127 < k.NOT_A_CHAR)
    (hNE : k.NOT_A_CHAR ≠ k.PSEUDO_EOF)
    (S : List (Fin 256)) (P : List Bool) :
    roundTripPadded k S P = some (chars (readable S)) := by
  have htab := buildFrequencyMap_table k (readable S) (readable_ne S)
  obtain ⟨tree, he, _, hd⟩ := decode_code_stream k hE hN hNE (readable S) _ htab P
  simp only [roundTripPadded, buildFrequencyMap_readable k S, he, Option.some_bind]
  have hw : (encode k S (buildEncodingMap k tree) 0 true).written =
      (encode k S (buildEncodingMap k tree) 0 true).bits := rfl
  rw [hw, encode_bits, List.append_assoc]
  exact hd

/-- C12, the code at the failing inputs: the file that holds the single byte
255 and the file with the bytes 97, 255, 98 (the characters -1 and 97, -1, 98),
compressed, followed by the padding bits 1 0 1 and decoded, give the empty
string and the single character 97 instead of the characters of the file. The
padding bits add nothing; what is lost is lost by `encode` and
`buildFrequencyMap`, which take the byte 255 for the end of the file (the
defect of C1). -/
theorem C12_padded_round_trip_with_byte_255 :
    roundTripPadded stdConsts [255] [true, false, true] = some [] ∧
    chars [255] = [-1] ∧
    roundTripPadded stdConsts [97, 255, 98] [true, false, true] = some [97] ∧
    chars [97, 255, 98] = [97, -1, 98] := by
  refine ⟨by decide, by decide, by decide, by decide⟩

/-- C14, the code at the failing input: for the input bytes 97, 255, 98 (the
characters 97, -1, 98) and an encoding map with an entry for each of them and
for the end-of-stream symbol, `encode` returns the code of 97 followed by the
code of the end-of-stream symbol, not the concatenation of the four codes: the
byte 255 read into a `char` equals `EOF` and ends the loop (the defect of C1). -/
theorem C14_encode_stops_at_byte_255 :
    (∀ s ∈ chars [97, 255, 98], (exampleCodes s).isSome = true) ∧
    (exampleCodes stdConsts.PSEUDO_EOF).isSome = true ∧
    (encode stdConsts [97, 255, 98] exampleCodes 0 false).bits = [false, true, true, true] ∧
    codes exampleCodes (chars [97, 255, 98]) ++ exampleCodes.lookup stdConsts.PSEUDO_EOF =
      [false, true, false, true, true, false, true, true, true] := by
  refine ⟨by decide, by decide, by decide, by decide⟩

/-- The bits that `encode` returns for an input without the byte 255: the
codes of its characters in their order, then the code of the end-of-stream
symbol, for every encoding map and every value of `size` and `makeFile`. -/
theorem encode_bits_without_255 (k : Consts) (S : List (Fin 256)) (hS : ∀ b ∈ S, b ≠ 255)
    (m : hashmapE) (size : Int) (makeFile : Bool) :
    (encode k S m size makeFile).bits = codes m (chars S) ++ m.lookup k.PSEUDO_EOF := by
  rw [encode_bits, readable_eq_self S hS]

theorem encodeLoop_size (m : hashmapE) :
    ∀ (S : List (Fin 256)) (bits : List Bool) (size x : Int),
      wrap32 ((encodeLoop m S bits size).2 + x) =
        wrap32 (size + ((encodeLoop m S bits size).1.length - bits.length) + x) := by
  intro S
  induction S with
  | nil => intro bits size x; simp [encodeLoop]
  | cons b rest ih =>
    intro bits size x
    by_cases hb : toChar b.val = EOF
    · simp [encodeLoop, hb]
    · simp only [encodeLoop, if_neg hb]
      rw [ih, add_assoc, add_assoc, wrap32_add]
      congr 1
      simp only [List.length_append, Nat.cast_add]
      ring

/-- The value of `size` after `encode`: the value before the call plus the
number of bits returned, as an `int`. -/
theorem encode_size (k : Consts) (S : List (Fin 256)) (m : hashmapE) (size : Int)
    (makeFile : Bool) :
    (encode k S m size makeFile).size =
      wrap32 (size + ((encode k S m size makeFile).bits.length : Int)) := by
  simp only [encode]
  rw [encodeLoop_size m S [] size]
  congr 1
  simp only [List.length_nil, Nat.cast_zero, sub_zero, List.length_append, Nat.cast_add]
  ring

/-- The value of `size` after `encode` when it holds 0 before the call and
fewer than 2^31 bits are returned: the number of bits returned. -/
theorem encode_size_from_zero (k : Consts) (S : List (Fin 256)) (m : hashmapE) (makeFile : Bool)
    (hlen : (encode k S m 0 makeFile).bits.length < 2147483648) :
    (encode k S m 0 makeFile).size = ((encode k S m 0 makeFile).bits.length : Int) := by
  rw [encode_size, zero_add]
  exact wrap32_id _ (by omega) (by omega)

/-- C15, the code at the failing input: with the input `ab`, the encoding map
of the example and `size` holding 5 before the call, `encode` returns 7 bits
and leaves 12 in `size`: it adds the number of bits to the value that `size`
holds and never assigns it, while its doc comment and the claim say that it
sets `size` to the number of bits.  With 0 in `size` before the call, as in
`compress`, it leaves 7. -/
theorem C15_encode_adds_to_size :
    (encode stdConsts [97, 98] exampleCodes 5 false).bits.length = 7 ∧
    (encode stdConsts [97, 98] exampleCodes 5 false).size = 12 ∧
    (encode stdConsts [97, 98] exampleCodes 0 false).size = 7 := by
  refine ⟨by decide, by decide, by decide⟩

/-- The tree of a table with the single entry `(x, c)`: one leaf. -/
theorem buildEncodingTree_single (k : Consts) (x c : Int) :
    buildEncodingTree k ⟨[(x, c)]⟩ = some (.node x c .nullptr .nullptr) := by
  have hg : (⟨[(x, c)]⟩ : hashmapF).get x = c := by
    simp [hashmapF.get]
  simp only [buildEncodingTree, hashmapF.keys, List.map_cons, List.map_nil, enqueueLeaves, hg]
  rfl

/-- A table whose one key is the marker `NOT_A_CHAR` (257, with count 3), which
is no symbol: the tree is a single leaf and its encoding map has no entry. -/
theorem marker_as_only_key :
    buildEncodingTree stdConsts ⟨[(257, 3)]⟩ = some (.node 257 3 .nullptr .nullptr) ∧
    buildEncodingMap stdConsts (.node 257 3 .nullptr .nullptr) 257 = none := by
  refine ⟨by decide, by decide⟩

/-- C16: for every frequency table with exactly one symbol `x` (a key that is
not the marker `NOT_A_CHAR` of the nodes that are no leaves), with any count
`c`, `buildEncodingTree` returns a single leaf for `x` with count `c` and no
children, and `buildEncodingMap` of that tree maps `x` to the empty bit string
and has no other entry. -/
theorem C16_single_symbol_tree_and_map (k : Consts) (x c : Int) (hx : x ≠ k.NOT_A_CHAR) :
    buildEncodingTree k ⟨[(x, c)]⟩ = some (.node x c .nullptr .nullptr) ∧
    buildEncodingMap k (.node x c .nullptr .nullptr) x = some [] ∧
    ∀ y, y ≠ x → buildEncodingMap k (.node x c .nullptr .nullptr) y = none := by
  refine ⟨buildEncodingTree_single k x c, ?_, ?_⟩
  · simp [buildEncodingMap, _buildEncodingMap, hx, hashmapE.set]
  · intro y hy
    simp [buildEncodingMap, _buildEncodingMap, hx, hashmapE.set, hashmapE.empty, hy]

/-- C16, witness: the table with the single entry 97 ↦ 3. -/
theorem C16_single_symbol_tree_and_map_witness :
    (97 : Int) ≠ stdConsts.NOT_A_CHAR ∧
    buildEncodingTree stdConsts ⟨[(97, 3)]⟩ = some (.node 97 3 .nullptr .nullptr) ∧
    buildEncodingMap stdConsts (.node 97 3 .nullptr .nullptr) 97 = some [] ∧
    ∀ y, y ≠ 97 → buildEncodingMap stdConsts (.node 97 3 .nullptr .nullptr) y = none :=
  ⟨by decide, C16_single_symbol_tree_and_map stdConsts 97 3 (by decide)⟩

theorem good_one_leaf {k : Consts} {t : HuffmanNode} (hg : Good k t)
    (hl : (leaves t).length = 1) : ∃ a c, t = .node a c .nullptr .nullptr := by
  cases t with
  | nullptr => exact absurd hg (by simp [Good])
  | node ch c z o =>
    rcases hg with ⟨ez, eo⟩ | ⟨_, gz, go⟩
    · subst ez; subst eo; exact ⟨ch, c, rfl⟩
    · exfalso
      rw [leaves_good_node gz, List.length_append] at hl
      have h1 := List.length_pos.2 (leaves_ne_nil z gz)
      have h2 := List.length_pos.2 (leaves_ne_nil o go)
      omega

theorem good_two_leaves {k : Consts} {t : HuffmanNode} (hg : Good k t)
    (hl : (leaves t).length = 2) :
    ∃ cnt a ca b cb, t = .node k.NOT_A_CHAR cnt (.node a ca .nullptr .nullptr)
      (.node b cb .nullptr .nullptr) := by
  cases t with
  | nullptr => exact absurd hg (by simp [Good])
  | node ch c z o =>
    rcases hg with ⟨ez, eo⟩ | ⟨hch, gz, go⟩
    · subst ez; subst eo; simp [leaves] at hl
    · rw [leaves_good_node gz, List.length_append] at hl
      have h1 := List.length_pos.2 (leaves_ne_nil z gz)
      have h2 := List.length_pos.2 (leaves_ne_nil o go)
      obtain ⟨a, ca, ea⟩ := good_one_leaf gz (by omega)
      obtain ⟨b, cb, eb⟩ := good_one_leaf go (by omega)
      subst ea; subst eb; subst hch
      exact ⟨c, a, ca, b, cb, rfl⟩

theorem codes_replicate (m : hashmapE) (s : Int) (n : Nat) :
    (codes m (List.replicate n s)).length = n * (m.lookup s).length := by
  induction n with
  | zero => simp [codes]
  | succ n ih =>
    simp only [List.replicate_succ, codes, List.length_append, ih]
    ring

/-- A table with two different symbols: the tree has two leaves and the map
gives the two symbols different codes of one bit, whatever the counts and the
order of the keys. -/
theorem two_symbol_table (k : Consts) (map : hashmapF) (a b : Int) (hab : a ≠ b)
    (ha : a ≠ k.NOT_A_CHAR) (hb : b ≠ k.NOT_A_CHAR) (hkeys : map.keys.Perm [a, b]) :
    ∃ tree x y, buildEncodingTree k map = some tree ∧ (leaves tree).length = 2 ∧
      buildEncodingMap k tree a = some [x] ∧ buildEncodingMap k tree b = some [y] ∧ x ≠ y := by
  have hlen2 : map.keys.length = 2 := hkeys.length_eq
  obtain ⟨tree, he, _, hgood, hperm⟩ := buildEncodingTree_good k map
    (fun e => by rw [e] at hlen2; simp at hlen2) (by rw [hlen2]; decide)
  have hg : Good k tree := hgood (fun e => by
    rw [e] at hkeys
    exact absurd hkeys.length_eq (by simp))
  have hl2 : (leaves tree).Perm [a, b] := hperm.trans hkeys
  have hlen : (leaves tree).length = 2 := by rw [hl2.length_eq]; rfl
  obtain ⟨cnt, u, cu, v, cv, ht⟩ := good_two_leaves hg hlen
  subst ht
  simp only [leaves, and_self, if_true, List.singleton_append, reduceCtorEq, false_and,
    if_false, and_false] at hl2
  have huv : (u = a ∧ v = b) ∨ (u = b ∧ v = a) := by
    have h1 := hl2.mem_iff (a := u)
    have h2 := hl2.mem_iff (a := v)
    have h3 := hl2.nodup_iff.2 (by simp [hab])
    simp only [List.mem_cons, List.mem_singleton, true_or, or_true, List.mem_nil_iff, or_false,
      true_iff] at h1 h2
    simp only [List.nodup_cons, List.mem_singleton, List.not_mem_nil, not_false_eq_true,
      List.nodup_nil, and_true] at h3
    rcases h1 with e1 | e1 <;> rcases h2 with e2 | e2
    · exact absurd (e1.trans e2.symm) h3
    · exact Or.inl ⟨e1, e2⟩
    · exact Or.inr ⟨e1, e2⟩
    · exact absurd (e1.trans e2.symm) h3
  rcases huv with ⟨e1, e2⟩ | ⟨e1, e2⟩
  · subst e1; subst e2
    refine ⟨_, false, true, he, hlen, ?_, ?_, by decide⟩
    · simp [buildEncodingMap, _buildEncodingMap, hashmapE.set, ha, hb, hab]
    · simp [buildEncodingMap, _buildEncodingMap, hashmapE.set, ha, hb, hab]
  · subst e1; subst e2
    refine ⟨_, true, false, he, hlen, ?_, ?_, by decide⟩
    · simp [buildEncodingMap, _buildEncodingMap, hashmapE.set, ha, hb, hab]
    · simp [buildEncodingMap, _buildEncodingMap, hashmapE.set, ha, hb, hab, Ne.symm hab]

/-- A file of `n` copies of one byte other than 255: the tree has two leaves,
the character and the end-of-stream symbol have different codes of one bit,
and `encode` returns `n + 1` bits. -/
theorem single_byte_file (k : Consts)
    (hE : k.PSEUDO_EOF < -128 ∨ 127 < k.PSEUDO_EOF)
    (hN : k.NOT_A_CHAR < -128 ∨ 127 < k.NOT_A_CHAR)
    (hNE : k.NOT_A_CHAR ≠ k.PSEUDO_EOF)
    (c : Fin 256) (hc : c ≠ 255) (n : Nat) (hn : 1 ≤ n) :
    ∃ tree x y,
      buildEncodingTree k (buildFrequencyMap k (List.replicate n c) true ⟨[]⟩) = some tree ∧
      (leaves tree).length = 2 ∧
      buildEncodingMap k tree (toChar c.val) = some [x] ∧
      buildEncodingMap k tree k.PSEUDO_EOF = some [y] ∧ x ≠ y ∧
      (encode k (List.replicate n c) (buildEncodingMap k tree) 0 true).bits.length = n + 1 := by
  have hS : ∀ b ∈ List.replicate n c, b ≠ 255 := by
    intro b hb
    rw [List.eq_of_mem_replicate hb]
    exact hc
  have htab := buildFrequencyMap_table k _ hS
  have hcE : toChar c.val ≠ k.PSEUDO_EOF := by
    intro e
    have := toChar_range c.val
    rw [e] at this
    omega
  have hcN : toChar c.val ≠ k.NOT_A_CHAR := by
    intro e
    have := toChar_range c.val
    rw [e] at this
    omega
  have hkeys : (buildFrequencyMap k (List.replicate n c) true ⟨[]⟩).keys.Perm
      [toChar c.val, k.PSEUDO_EOF] := by
    refine (List.perm_ext_iff_of_nodup htab.nodup (by simp [hcE])).2 (fun a => ?_)
    constructor
    · intro ha
      rcases htab.sub a ha with e | ⟨b, hb, e⟩
      · simp [e]
      · rw [List.eq_of_mem_replicate hb] at e
        simp [e]
    · intro ha
      simp only [List.mem_cons, List.mem_singleton, List.mem_nil_iff, or_false] at ha
      rcases ha with e | e
      · rw [e]
        exact htab.chars c (List.mem_replicate.2 ⟨by omega, rfl⟩)
      · rw [e]; exact htab.eof
  obtain ⟨tree, x, y, he, hlen, m1, m2, hxy⟩ :=
    two_symbol_table k _ (toChar c.val) k.PSEUDO_EOF hcE hcN (Ne.symm hNE) hkeys
  refine ⟨tree, x, y, he, hlen, m1, m2, hxy, ?_⟩
  rw [encode_bits_without_255 k _ hS, List.length_append]
  simp only [chars, List.map_replicate]
  rw [codes_replicate]
  simp [hashmapE.lookup, m1, m2]

/-- The table that holds a byte `c` with a count `n` and the end-of-stream
symbol with the count 1, for every byte (255 among them) and every count:
the tree has two leaves and the two symbols have different codes of one bit. -/
theorem single_byte_table (k : Consts)
    (hE : k.PSEUDO_EOF < -128 ∨ 127 < k.PSEUDO_EOF)
    (hN : k.NOT_A_CHAR < -128 ∨ 127 < k.NOT_A_CHAR)
    (hNE : k.NOT_A_CHAR ≠ k.PSEUDO_EOF)
    (c : Fin 256) (n : Int) :
    ∃ tree x y,
      buildEncodingTree k ⟨[(toChar c.val, n), (k.PSEUDO_EOF, 1)]⟩ = some tree ∧
      (leaves tree).length = 2 ∧
      buildEncodingMap k tree (toChar c.val) = some [x] ∧
      buildEncodingMap k tree k.PSEUDO_EOF = some [y] ∧ x ≠ y := by
  have hcE : toChar c.val ≠ k.PSEUDO_EOF := by
    intro e
    have := toChar_range c.val
    rw [e] at this
    omega
  have hcN : toChar c.val ≠ k.NOT_A_CHAR := by
    intro e
    have := toChar_range c.val
    rw [e] at this
    omega
  exact two_symbol_table k _ (toChar c.val) k.PSEUDO_EOF hcE hcN (Ne.symm hNE)
    (List.Perm.refl _)

/-- C17, the code at the failing input, the file of three copies of the byte
255 (the character -1).  From the table 255 ↦ 3, end-of-stream ↦ 1 the tree
has two leaves and the two symbols have codes of one bit, but `encode` returns
the one bit of the end-of-stream symbol, not 3 + 1 bits; and the table that
`buildFrequencyMap` itself reads off the file holds the end-of-stream symbol
alone, which gives a single leaf, the empty code and no bit at all.  The
reading loops take the byte 255 for the end of the file (the defect of C1). -/
theorem C17_copies_of_byte_255 :
    buildEncodingTree stdConsts ⟨[(toChar 255, 3), (256, 1)]⟩ =
      some (.node 257 4 (.node 256 1 .nullptr .nullptr) (.node (-1) 3 .nullptr .nullptr)) ∧
    (encode stdConsts [255, 255, 255] (buildEncodingMap stdConsts
      (.node 257 4 (.node 256 1 .nullptr .nullptr) (.node (-1) 3 .nullptr .nullptr)))
      0 true).bits = [false] ∧
    (buildFrequencyMap stdConsts [255, 255, 255] true ⟨[]⟩).entries = [(256, 1)] ∧
    buildEncodingTree stdConsts (buildFrequencyMap stdConsts [255, 255, 255] true ⟨[]⟩) =
      some (.node 256 1 .nullptr .nullptr) ∧
    buildEncodingMap stdConsts (.node 256 1 .nullptr .nullptr) 256 = some [] ∧
    buildEncodingMap stdConsts (.node 256 1 .nullptr .nullptr) (toChar 255) = none ∧
    (encode stdConsts [255, 255, 255] (buildEncodingMap stdConsts (.node 256 1 .nullptr .nullptr))
      0 true).bits = [] := by
  refine ⟨by decide, by decide, by decide, by decide, by decide, by decide, by decide⟩

/-- The second loop of `buildEncodingTree` keeps every property of the stored
trees that one merge keeps, and leaves at most one tree. -/
theorem mergeLoop_inv (k : Consts) (P : List (HuffmanNode × Int) → Prop)
    (hnode : ∀ l x, P l → x ∈ l → x.1 ≠ .nullptr)
    (hstep : ∀ l x y chx c0 zx ox chy c1 zy oy, P l → firstMin l = some x →
      firstMin (removeFirstMin l) = some y → x.1 = .node chx c0 zx ox →
      y.1 = .node chy c1 zy oy →
      P (removeFirstMin (removeFirstMin l) ++
        [(.node k.NOT_A_CHAR (intAdd c0 c1) x.1 y.1, intAdd c0 c1)])) :
    ∀ (fuel : Nat) {h : Heap HuffmanNode} {q : priorityqueue} {l : List (HuffmanNode × Int)},
      Abs false h q l → P l → l.length ≤ fuel + 1 → l.length < 2147483648 →
      ∃ h2 q2 l2, mergeLoop k fuel h q = some (h2, q2) ∧ Abs false h2 q2 l2 ∧
        P l2 ∧ l2.length ≤ 1 ∧ (l ≠ [] → l2 ≠ []) := by
  intro fuel
  induction fuel with
  | zero =>
    intro h q l ha hg hl hb
    have hs : ¬ q.Size > 1 := by
      have := ha.size_small hb
      simp only [priorityqueue.Size, this]
      have : (l.length : Int) ≤ 1 := by exact_mod_cast hl
      omega
    exact ⟨h, q, l, by simp only [mergeLoop, if_neg hs], ha, hg, hl, fun e => e⟩
  | succ fuel ih =>
    intro h q l ha hg hl hb
    by_cases hs : q.Size > 1
    · have hlen : 1 < l.length := by
        have := ha.size_small hb
        simp only [priorityqueue.Size, this] at hs
        exact_mod_cast hs
      have hne : l ≠ [] := by intro e; rw [e] at hlen; simp at hlen
      obtain ⟨x, hx⟩ := firstMin_isSome hne
      obtain ⟨h1, q1, he1, ha1, _, _⟩ := ha.dequeue_abs x hx
      have hlen1 := removeFirstMin_length hne
      have hne1 : removeFirstMin l ≠ [] := by
        intro e; rw [e] at hlen1; simp at hlen1; omega
      obtain ⟨y, hy⟩ := firstMin_isSome hne1
      obtain ⟨h2, q2, he2, ha2, _, _⟩ := ha1.dequeue_abs y hy
      have hlen2 := removeFirstMin_length hne1
      have hgx := hnode l x hg (firstMin_mem hx)
      have hgy := hnode l y hg (removeFirstMin_mem (firstMin_mem hy))
      cases hxv : x.1 with
      | nullptr => exact absurd hxv hgx
      | node chx c0 zx ox =>
        cases hyv : y.1 with
        | nullptr => exact absurd hyv hgy
        | node chy c1 zy oy =>
          obtain ⟨h3, q3, he3, ha3, _⟩ := ha2.enqueue_abs
            (.node k.NOT_A_CHAR (intAdd c0 c1) x.1 y.1) (intAdd c0 c1)
          have hg3 := hstep l x y chx c0 zx ox chy c1 zy oy hg hx hy hxv hyv
          obtain ⟨h4, q4, l4, he4, ha4, hg4, hl4, hne4⟩ := ih ha3 hg3 (by
            simp only [List.length_append, List.length_singleton]; omega) (by
            simp only [List.length_append, List.length_singleton]; omega)
          refine ⟨h4, q4, l4, ?_, ha4, hg4, hl4, fun _ => hne4 (by simp)⟩
          simp only [mergeLoop, if_pos hs, he1, Option.some_bind, he2]
          rw [hxv, hyv] at he3
          simp only [intAdd] at he3
          simp only [hxv, hyv, he3, Option.some_bind, he4]
    · have hlen : l.length ≤ 1 := by
        have := ha.size_small hb
        simp only [priorityqueue.Size, this] at hs
        have : ¬ (1 : Int) < l.length := hs
        omega
      exact ⟨h, q, l, by simp only [mergeLoop, if_neg hs], ha, hg, hlen, fun e => e⟩

/-- The function `buildEncodingTree` on a table with a symbol: the tree is the
one tree left by the loops, for every property that the leaves have and a
merge keeps. -/
theorem buildEncodingTree_inv (k : Consts) (map : hashmapF) (hne : map.keys ≠ [])
    (hlen : map.keys.length < 2147483648)
    (P : List (HuffmanNode × Int) → Prop)
    (hnode : ∀ l x, P l → x ∈ l → x.1 ≠ .nullptr)
    (hstep : ∀ l x y chx c0 zx ox chy c1 zy oy, P l → firstMin l = some x →
      firstMin (removeFirstMin l) = some y → x.1 = .node chx c0 zx ox →
      y.1 = .node chy c1 zy oy →
      P (removeFirstMin (removeFirstMin l) ++
        [(.node k.NOT_A_CHAR (intAdd c0 c1) x.1 y.1, intAdd c0 c1)]))
    (hinit : P (map.keys.map (fun key =>
      (.node key (map.get key) .nullptr .nullptr, map.get key)))) :
    ∃ tree p, buildEncodingTree k map = some tree ∧ P [(tree, p)] := by
  obtain ⟨h1, q1, he1, ha1⟩ := enqueueLeaves_spec map map.keys
    (Abs.new false : Abs false (Heap.empty : Heap HuffmanNode) _ _)
  simp only [List.nil_append] at ha1
  obtain ⟨h2, q2, l2, he2, ha2, hg2, hl2, hne2⟩ :=
    mergeLoop_inv k P hnode hstep map.keys.length ha1 hinit (by simp) (by simpa using hlen)
  cases l2 with
  | nil => exact absurd rfl (hne2 (by simpa using hne))
  | cons x rest =>
    have hrest : rest = [] := by
      simp only [List.length_cons] at hl2
      exact List.length_eq_zero.1 (by omega)
    subst hrest
    have hx : firstMin [x] = some x := rfl
    obtain ⟨h3, q3, he3, _⟩ := ha2.dequeue_abs x hx
    refine ⟨x.1, x.2, ?_, hg2⟩
    simp only [buildEncodingTree, he1, Option.some_bind, he2, he3, Option.map_some']

theorem firstMin_head {T : Type} (x : T × Int) (xs : List (T × Int))
    (h : ∀ y ∈ xs, x.2 ≤ y.2) : firstMin (x :: xs) = some x := by
  simp only [firstMin]
  cases hf : firstMin xs with
  | none => rfl
  | some y => simp only [if_pos (h y (firstMin_mem hf))]

theorem mergeLoop_not_entered (k : Consts) (fuel : Nat) (h : Heap HuffmanNode) (q : priorityqueue)
    (hs : ¬ q.Size > 1) : mergeLoop k fuel h q = some (h, q) := by
  cases fuel <;> simp only [mergeLoop, if_neg hs]

/-- Where the number of keys, as the `int` that `Size()` returns, is not greater
than 1, the loop `while (pq.Size() > 1)` of `buildEncodingTree` is not entered
and the tree returned is the leaf of the first key of least count. -/
theorem buildEncodingTree_size_wrapped (k : Consts) (map : hashmapF) (key : Int)
    (rest : List Int) (hkeys : map.keys = key :: rest)
    (hsz : wrap32 (map.keys.length : Int) ≤ 1)
    (hmin : ∀ x ∈ rest, map.get key ≤ map.get x) :
    buildEncodingTree k map = some (.node key (map.get key) .nullptr .nullptr) := by
  obtain ⟨h1, q1, he1, ha1⟩ := enqueueLeaves_spec map map.keys
    (Abs.new false : Abs false (Heap.empty : Heap HuffmanNode) _ _)
  simp only [List.nil_append] at ha1
  have hs : ¬ q1.Size > 1 := by
    have := ha1.size
    simp only [List.length_map] at this
    simp only [priorityqueue.Size, this]
    omega
  have he2 := mergeLoop_not_entered k map.keys.length h1 q1 hs
  rw [hkeys] at ha1
  simp only [List.map_cons] at ha1
  have hx := firstMin_head
    ((HuffmanNode.node key (map.get key) .nullptr .nullptr, map.get key) : HuffmanNode × Int)
    (rest.map (fun key => (HuffmanNode.node key (map.get key) .nullptr .nullptr, map.get key)))
    (by
      intro y hy
      obtain ⟨x, hx, e⟩ := List.mem_map.1 hy
      rw [← e]
      exact hmin x hx)
  obtain ⟨h3, q3, he3, _⟩ := ha1.dequeue_abs _ hx
  simp only [buildEncodingTree, he1, Option.some_bind, he2, he3, Option.map_some']

theorem hashmapF.get_of_const (m : hashmapF) (c : Int) (hall : ∀ e ∈ m.entries, e.2 = c)
    (key : Int) (h : key ∈ m.keys) : m.get key = c := by
  simp only [hashmapF.get]
  cases hf : m.entries.find? (fun e => decide (e.1 = key)) with
  | some e => exact hall e (List.mem_of_find?_eq_some hf)
  | none =>
    rw [List.find?_eq_none] at hf
    simp only [hashmapF.keys, List.mem_map] at h
    obtain ⟨e, he, hk⟩ := h
    exact absurd (by simpa using hk) (hf e he)

theorem manySymbols_keys :
    manySymbols.keys = 0 :: List.map (fun i : Nat => (i : Int) + 1) (List.range 2147483647) := by
  unfold manySymbols hashmapF.keys
  rw [List.map_cons, List.map_map]
  exact List.cons_eq_cons.2 ⟨rfl, List.map_congr_left (fun i _ => rfl)⟩

theorem manySymbols_length : manySymbols.keys.length = 2147483648 := by
  rw [manySymbols_keys, List.length_cons, List.length_map, List.length_range]

theorem manySymbols_mem_zero : (0 : Int) ∈ manySymbols.keys := by
  rw [manySymbols_keys]
  exact List.mem_cons_self _ _

theorem manySymbols_mem_one : (1 : Int) ∈ manySymbols.keys := by
  rw [manySymbols_keys]
  exact List.mem_cons_of_mem _ (List.mem_map.2 ⟨0, List.mem_range.2 (by norm_num), by norm_num⟩)

theorem manySymbols_get (key : Int) (h : key ∈ manySymbols.keys) : manySymbols.get key = 1 := by
  refine hashmapF.get_of_const manySymbols 1 ?_ key h
  unfold manySymbols
  intro e he
  rcases List.mem_cons.1 he with e1 | e1
  · rw [e1]
  · obtain ⟨i, _, e2⟩ := List.mem_map.1 e1
    rw [← e2]

/-- The tree of the table of 2147483648 symbols: the counter of the queue has
wrapped to -2147483648 when the loop tests `pq.Size() > 1`, no two trees are
merged, and the tree returned is the leaf of the symbol 0. -/
theorem manySymbols_tree (k : Consts) :
    buildEncodingTree k manySymbols = some (.node 0 1 .nullptr .nullptr) := by
  have h0 : manySymbols.get 0 = 1 := manySymbols_get 0 manySymbols_mem_zero
  have hw : wrap32 ((2147483648 : Nat) : Int) = -2147483648 := by decide
  have h := buildEncodingTree_size_wrapped k manySymbols 0 _ manySymbols_keys
    (by rw [manySymbols_length, hw]; decide)
    (by
      intro x hx
      have hm : x ∈ manySymbols.keys := by
        rw [manySymbols_keys]
        exact List.mem_cons_of_mem _ hx
      rw [h0, manySymbols_get x hm])
  rw [h0] at h
  exact h

theorem SumTree.ne_nullptr {k : Consts} {add : Int → Int → Int} {t : HuffmanNode}
    (h : SumTree k add t) : t ≠ .nullptr := by
  intro e
  rw [e] at h
  exact h

theorem leafEntries_node {ch c : Int} {z o : HuffmanNode} (hz : z ≠ .nullptr) :
    leafEntries (.node ch c z o) = leafEntries z ++ leafEntries o := by
  have : ¬ (z = .nullptr ∧ o = .nullptr) := fun e => hz e.1
  simp only [leafEntries, if_neg this]

theorem forestEntries_append (l1 l2 : List (HuffmanNode × Int)) :
    forestEntries (l1 ++ l2) = forestEntries l1 ++ forestEntries l2 := by
  induction l1 with
  | nil => rfl
  | cons x xs ih =>
    simp only [List.cons_append, forestEntries, List.append_eq, ih, List.append_assoc]

theorem forestEntries_removeFirstMin {l : List (HuffmanNode × Int)} {x : HuffmanNode × Int}
    (h : firstMin l = some x) :
    (forestEntries l).Perm (leafEntries x.1 ++ forestEntries (removeFirstMin l)) := by
  obtain ⟨pre, post, hl, _, _, hrem⟩ := firstMin_split h
  rw [hrem, hl]
  simp only [forestEntries_append, forestEntries]
  exact List.perm_append_comm_assoc _ _ _

theorem forestEntries_of_keys (map : hashmapF) (keys : List Int) :
    forestEntries (keys.map (fun key =>
      (HuffmanNode.node key (map.get key) .nullptr .nullptr, map.get key))) =
      keys.map (fun key => (key, map.get key)) := by
  induction keys with
  | nil => rfl
  | cons key rest ih => simp [forestEntries, leafEntries, ih]

/-- The tree of a table with a symbol: its leaves are the symbols of the table
with their counts, and the count of every other node is the `int` sum of the
counts of its children. -/
theorem buildEncodingTree_sumTree (k : Consts) (map : hashmapF) (hne : map.keys ≠ [])
    (hlen : map.keys.length < 2147483648) :
    ∃ tree, buildEncodingTree k map = some tree ∧ SumTree k intAdd tree ∧
      (leafEntries tree).Perm map.table := by
  obtain ⟨tree, p, he, hP⟩ := buildEncodingTree_inv k map hne hlen
    (fun l => (∀ x ∈ l, SumTree k intAdd x.1) ∧ (forestEntries l).Perm map.table)
    (fun l x hl hx => (hl.1 x hx).ne_nullptr)
    (by
      intro l x y chx c0 zx ox chy c1 zy oy hl hx hy hxv hyv
      have hgx := hl.1 x (firstMin_mem hx)
      have hgy := hl.1 y (removeFirstMin_mem (firstMin_mem hy))
      refine ⟨?_, ?_⟩
      · intro z hz
        rcases List.mem_append.1 hz with e | e
        · exact hl.1 z (removeFirstMin_mem (removeFirstMin_mem e))
        · simp only [List.mem_singleton] at e
          subst e
          refine Or.inr ⟨rfl, hgx.ne_nullptr, hgy.ne_nullptr, ?_, hgx, hgy⟩
          simp only [hxv, hyv, nodeCount]
      · have p1 := forestEntries_removeFirstMin hx
        have p2 := forestEntries_removeFirstMin hy
        refine List.Perm.trans ?_ hl.2
        simp only [forestEntries_append, forestEntries, List.append_nil]
        rw [leafEntries_node hgx.ne_nullptr]
        refine List.Perm.trans ?_ p1.symm
        refine List.Perm.trans ?_ (List.Perm.append_left _ p2.symm)
        refine List.perm_append_comm.trans ?_
        simp only [List.append_assoc]
        exact List.Perm.refl _)
    (by
      refine ⟨?_, ?_⟩
      · intro x hx
        obtain ⟨key, _, hk⟩ := List.mem_map.1 hx
        subst hk
        exact Or.inl ⟨rfl, rfl⟩
      · rw [forestEntries_of_keys]
        exact List.Perm.refl _)
  refine ⟨tree, he, hP.1 (tree, p) (by simp), ?_⟩
  simpa [forestEntries] using hP.2

theorem sum_nonneg_of_mem (l : List (Int × Int)) (h : ∀ e ∈ l, 0 ≤ e.2) :
    0 ≤ (l.map Prod.snd).sum := by
  induction l with
  | nil => simp
  | cons x xs ih =>
    simp only [List.map_cons, List.sum_cons]
    have h1 := h x (by simp)
    have h2 := ih (fun e he => h e (List.mem_cons_of_mem _ he))
    omega

/-- Where the counts of the leaves are not negative and their sum is below
2^31, the `int` sums of a tree are the sums. -/
theorem sumTree_exact (k : Consts) :
    ∀ (t : HuffmanNode), SumTree k intAdd t → (∀ e ∈ leafEntries t, 0 ≤ e.2) →
      ((leafEntries t).map Prod.snd).sum < 2147483648 →
      SumTree k (fun a b => a + b) t ∧ nodeCount t = ((leafEntries t).map Prod.snd).sum := by
  intro t
  induction t with
  | nullptr => intro h _ _; exact absurd h (by simp [SumTree])
  | node ch c z o ihz iho =>
    intro h hnn hlt
    rcases h with ⟨ez, eo⟩ | ⟨hch, hz, ho, hc, sz, so⟩
    · subst ez; subst eo
      refine ⟨Or.inl ⟨rfl, rfl⟩, ?_⟩
      simp [leafEntries, nodeCount]
    · rw [leafEntries_node hz] at hnn hlt ⊢
      simp only [List.map_append, List.sum_append] at hlt ⊢
      have nz := sum_nonneg_of_mem (leafEntries z) (fun e he => hnn e (List.mem_append_left _ he))
      have no := sum_nonneg_of_mem (leafEntries o) (fun e he => hnn e (List.mem_append_right _ he))
      obtain ⟨tz, cz⟩ := ihz sz (fun e he => hnn e (List.mem_append_left _ he)) (by omega)
      obtain ⟨t1, co⟩ := iho so (fun e he => hnn e (List.mem_append_right _ he)) (by omega)
      have hsum : c = nodeCount z + nodeCount o := by
        rw [hc, intAdd, zero_add, wrap32_add]
        exact wrap32_id _ (by omega) (by omega)
      refine ⟨Or.inr ⟨hch, hz, ho, hsum, tz, t1⟩, ?_⟩
      simp only [nodeCount]
      rw [hsum, cz, co]

/-- C18, the counterexamples.  For the table with the counts 2147483647 and 1
the root of the tree carries the count -2147483648, which is not the sum
2147483648 of the counts of its two children: the sum does not fit the `int`
that holds it.  For the table of 2147483648 symbols the tree is one leaf, not a
leaf for every symbol: the counter `int size` of the queue has wrapped when
the loop tests `pq.Size() > 1`. -/
theorem C18_count_sum_overflows :
    (buildEncodingTree stdConsts ⟨[(97, 2147483647), (98, 1)]⟩ =
      some (.node 257 (-2147483648) (.node 98 1 .nullptr .nullptr)
        (.node 97 2147483647 .nullptr .nullptr)) ∧
      (-2147483648 : Int) ≠ 1 + 2147483647) ∧
    (manySymbols.keys ≠ [] ∧
      buildEncodingTree stdConsts manySymbols = some (.node 0 1 .nullptr .nullptr) ∧
      (leafEntries (.node 0 1 .nullptr .nullptr)).length = 1 ∧
      manySymbols.table.length = 2147483648) := by
  refine ⟨⟨by decide, by decide⟩, ?_, manySymbols_tree stdConsts, by decide, ?_⟩
  · rw [manySymbols_keys]
    exact List.cons_ne_nil _ _
  · unfold hashmapF.table
    rw [List.length_map, manySymbols_length]

/-- C18, amended: for every non-empty frequency table of fewer than 2^31
symbols `buildEncodingTree` returns a tree whose leaves are, one for one, the
symbols of the table, each leaf carrying its symbol and the count of that
symbol; every other node carries the marker `NOT_A_CHAR`, has a zero branch and
a one branch, and a count equal to the `int` sum of the counts of its two
children; where no count of the table is negative and the counts sum to less
than 2^31, that count is the sum of the two counts and the count of the root
is the sum of all counts. -/
theorem C18_tree_over_the_table (k : Consts) (map : hashmapF) (hne : map.keys ≠ [])
    (hlen : map.keys.length < 2147483648) :
    ∃ tree, buildEncodingTree k map = some tree ∧
      (leafEntries tree).Perm map.table ∧
      SumTree k intAdd tree ∧
      ((∀ e ∈ map.table, 0 ≤ e.2) → (map.table.map Prod.snd).sum < 2147483648 →
        SumTree k (fun a b => a + b) tree ∧
        nodeCount tree = (map.table.map Prod.snd).sum) := by
  obtain ⟨tree, he, hs, hp⟩ := buildEncodingTree_sumTree k map hne hlen
  refine ⟨tree, he, hp, hs, fun hnn hlt => ?_⟩
  have hsum : ((leafEntries tree).map Prod.snd).sum = (map.table.map Prod.snd).sum :=
    (hp.map Prod.snd).sum_eq
  rw [← hsum] at hlt ⊢
  exact sumTree_exact k tree hs (fun e he => hnn e (hp.mem_iff.1 he)) hlt

/-- C18, amended, witness: the table of the file `aab`. -/
theorem C18_tree_over_the_table_witness :
    (⟨[(97, 2), (98, 1), (256, 1)]⟩ : hashmapF).keys ≠ [] ∧
    (⟨[(97, 2), (98, 1), (256, 1)]⟩ : hashmapF).keys.length < 2147483648 ∧
    ∃ tree, buildEncodingTree stdConsts ⟨[(97, 2), (98, 1), (256, 1)]⟩ = some tree ∧
      (leafEntries tree).Perm (⟨[(97, 2), (98, 1), (256, 1)]⟩ : hashmapF).table ∧
      SumTree stdConsts intAdd tree ∧
      ((∀ e ∈ (⟨[(97, 2), (98, 1), (256, 1)]⟩ : hashmapF).table, 0 ≤ e.2) →
        ((⟨[(97, 2), (98, 1), (256, 1)]⟩ : hashmapF).table.map Prod.snd).sum < 2147483648 →
        SumTree stdConsts (fun a b => a + b) tree ∧
        nodeCount tree = ((⟨[(97, 2), (98, 1), (256, 1)]⟩ : hashmapF).table.map Prod.snd).sum) :=
  ⟨by decide, by decide,
    C18_tree_over_the_table stdConsts ⟨[(97, 2), (98, 1), (256, 1)]⟩ (by decide) (by decide)⟩

theorem hashmapF.get_absent (m : hashmapF) (key : Int) (h : ¬ m.containsKey key = true) :
    m.get key = 0 := by
  have : m.entries.find? (fun e => decide (e.1 = key)) = none := by
    rw [List.find?_eq_none]
    intro e he hk
    exact h (by
      simp only [hashmapF.containsKey, List.any_eq_true]
      exact ⟨e, he, hk⟩)
  simp only [hashmapF.get, this]

theorem find_map_replace (l : List (Int × Int)) (key value x : Int) :
    (l.map (fun e => if e.1 = key then (key, value) else e)).find? (fun e => decide (e.1 = x)) =
      if x = key then (l.find? (fun e => decide (e.1 = key))).map (fun _ => (key, value))
      else l.find? (fun e => decide (e.1 = x)) := by
  induction l with
  | nil => simp
  | cons e rest ih =>
    simp only [List.map_cons, List.find?_cons]
    by_cases hx : x = key
    · subst hx
      rw [if_pos rfl] at ih ⊢
      by_cases he : e.1 = x
      · simp [he]
      · simp only [if_neg he, he, decide_False, if_false]
        exact ih
    · rw [if_neg hx] at ih ⊢
      by_cases he : e.1 = key
      · have hex : ¬ e.1 = x := fun e2 => hx (e2.symm.trans he)
        have hkx : ¬ key = x := fun e2 => hx e2.symm
        simp only [if_pos he, hex, hkx, decide_False]
        exact ih
      · by_cases hex : e.1 = x
        · rw [if_neg he]
          simp only [hex, decide_True]
        · simp only [if_neg he, hex, decide_False]
          exact ih

/-- The table after `put`: the key holds the value, every other key what it
held. -/
theorem hashmapF.get_put (m : hashmapF) (key value x : Int) :
    (m.put key value).get x = if x = key then value else m.get x := by
  by_cases hc : m.containsKey key = true
  · simp only [hashmapF.put, if_pos hc, hashmapF.get, find_map_replace]
    by_cases hx : x = key
    · subst hx
      simp only [if_true]
      obtain ⟨e, he, hk⟩ : ∃ e ∈ m.entries, decide (e.1 = x) = true := by
        simpa [hashmapF.containsKey] using hc
      cases hf : m.entries.find? (fun e => decide (e.1 = x)) with
      | none =>
        rw [List.find?_eq_none] at hf
        exact absurd hk (hf e he)
      | some e2 => rfl
    · simp only [if_neg hx]
  · simp only [hashmapF.put, if_neg hc, hashmapF.get, List.find?_append]
    have hnone : m.entries.find? (fun e => decide (e.1 = key)) = none := by
      rw [List.find?_eq_none]
      intro e he hk
      exact hc (by
        simp only [hashmapF.containsKey, List.any_eq_true]
        exact ⟨e, he, hk⟩)
    by_cases hx : x = key
    · subst hx
      simp [hnone, List.find?]
    · have hkx : ¬ key = x := fun e => hx e.symm
      simp only [if_neg hx]
      cases hf : m.entries.find? (fun e => decide (e.1 = x)) with
      | none => simp [List.find?, hkx]
      | some e2 => simp

/-- The table after one step of the counting: the count of the character is
one more, as an `int`. -/
theorem get_buildFrequencyMap (c x : Int) (m : hashmapF) :
    (_buildFrequencyMap c m).get x = if x = c then wrap32 (m.get c + 1) else m.get x := by
  by_cases hc : m.containsKey c = true
  · simp only [_buildFrequencyMap, if_pos hc, hashmapF.get_put]
  · simp only [_buildFrequencyMap, if_neg hc, hashmapF.get_put]
    rw [hashmapF.get_absent m c hc]
    rfl

/-- The counts after the loop over a string: the occurrences are added as an
`int`. -/
theorem countString_get (S : List (Fin 256)) :
    ∀ (m : hashmapF) (x : Int), (countString S m).get x =
      if x ∈ chars S then wrap32 (m.get x + ((chars S).count x : Int)) else m.get x := by
  induction S with
  | nil => intro m x; simp [countString, chars]
  | cons b rest ih =>
    intro m x
    simp only [countString]
    rw [ih, get_buildFrequencyMap]
    have hch : chars (b :: rest) = toChar b.val :: chars rest := rfl
    rw [hch]
    by_cases hx : x = toChar b.val
    · subst hx
      simp only [if_true, List.mem_cons, true_or, List.count_cons_self, Nat.cast_add,
        Nat.cast_one]
      by_cases hm : toChar b.val ∈ chars rest
      · rw [if_pos hm, wrap32_add]
        congr 1
        ring
      · rw [if_neg hm, List.count_eq_zero_of_not_mem hm]
        simp
    · have hx2 : ¬ toChar b.val = x := fun e => hx e.symm
      simp only [if_neg hx, List.mem_cons, hx, false_or, if_false, List.count_cons_of_ne hx]

theorem toChar_injective : Function.Injective (fun b : Fin 256 => toChar b.val) := by
  intro a b h
  have ha := a.isLt
  have hb := b.isLt
  simp only [toChar] at h
  apply Fin.ext
  have : (a.val : Int) = b.val := by omega
  exact_mod_cast this

theorem count_chars (S : List (Fin 256)) (b : Fin 256) :
    (chars S).count (toChar b.val) = S.count b :=
  List.count_map_of_injective S (fun b : Fin 256 => toChar b.val) toChar_injective b

theorem mem_chars {S : List (Fin 256)} {x : Int} :
    x ∈ chars S ↔ ∃ b ∈ S, x = toChar b.val := by
  simp only [chars, List.mem_map]
  constructor
  · rintro ⟨b, hb, e⟩; exact ⟨b, hb, e.symm⟩
  · rintro ⟨b, hb, e⟩; exact ⟨b, hb, e.symm⟩

theorem eof_not_char (k : Consts) (hE : k.PSEUDO_EOF < -128 ∨ 127 < k.PSEUDO_EOF)
    (S : List (Fin 256)) : k.PSEUDO_EOF ∉ chars S := by
  intro h
  obtain ⟨b, _, e⟩ := mem_chars.1 h
  have := toChar_range b.val
  rw [← e] at this
  omega

/-- The keys of the table of a string: every character of the string once, in
the order of the first occurrences, then the end-of-stream symbol. -/
theorem buildFrequencyMap_string_keys (k : Consts)
    (hE : k.PSEUDO_EOF < -128 ∨ 127 < k.PSEUDO_EOF) (S : List (Fin 256)) :
    (buildFrequencyMap k S false ⟨[]⟩).keys = (countString S ⟨[]⟩).keys ++ [k.PSEUDO_EOF] ∧
    (countString S ⟨[]⟩).keys.Nodup ∧
    ∀ x, x ∈ (countString S ⟨[]⟩).keys ↔ x ∈ chars S := by
  obtain ⟨h2, h3⟩ := countString_keys S ⟨[]⟩ (by simp [hashmapF.keys])
  have h4 : ∀ x, x ∈ (countString S ⟨[]⟩).keys ↔ x ∈ chars S := by
    intro x
    rw [h3, mem_chars]
    simp [hashmapF.keys]
  refine ⟨?_, h2, h4⟩
  have : k.PSEUDO_EOF ∉ (countString S ⟨[]⟩).keys := fun h =>
    eof_not_char k hE S ((h4 _).1 h)
  simp only [buildFrequencyMap, Bool.false_eq_true, if_false, hashmapF.keys_put, if_neg this]

/-- The counts of the table of a string: the number of occurrences as an `int`,
and 1 for the end-of-stream symbol. -/
theorem buildFrequencyMap_string_get (k : Consts)
    (hE : k.PSEUDO_EOF < -128 ∨ 127 < k.PSEUDO_EOF) (S : List (Fin 256)) :
    (buildFrequencyMap k S false ⟨[]⟩).get k.PSEUDO_EOF = 1 ∧
    ∀ b : Fin 256, (buildFrequencyMap k S false ⟨[]⟩).get (toChar b.val) =
      wrap32 (S.count b : Int) := by
  refine ⟨?_, ?_⟩
  · simp only [buildFrequencyMap, Bool.false_eq_true, if_false, hashmapF.get_put, if_true]
  · intro b
    have hne : ¬ toChar b.val = k.PSEUDO_EOF := by
      intro e
      have := toChar_range b.val
      rw [e] at this
      omega
    simp only [buildFrequencyMap, Bool.false_eq_true, if_false, hashmapF.get_put, if_neg hne]
    rw [countString_get, count_chars]
    have h0 : (⟨[]⟩ : hashmapF).get (toChar b.val) = 0 := rfl
    rw [h0, zero_add]
    by_cases hm : toChar b.val ∈ chars S
    · rw [if_pos hm]
    · rw [if_neg hm]
      have : S.count b = 0 := by
        rw [← count_chars]
        exact List.count_eq_zero_of_not_mem hm
      rw [this]
      rfl

/-- C19, the counterexample: for the string of 2^31 copies of the character
`a` (97) the table holds -2147483648 for `a`, not the number 2147483648 of its
occurrences: the count does not fit the `int` that holds it. -/
theorem C19_count_of_occurrences_overflows :
    (buildFrequencyMap stdConsts (List.replicate 2147483648 (97 : Fin 256)) false ⟨[]⟩).get 97 =
      -2147483648 ∧
    (List.replicate 2147483648 (97 : Fin 256)).count 97 = 2147483648 := by
  refine ⟨?_, List.count_replicate_self _ _⟩
  have h := (buildFrequencyMap_string_get stdConsts (by decide)
    (List.replicate 2147483648 (97 : Fin 256))).2 97
  rw [List.count_replicate_self] at h
  have h97 : toChar ((97 : Fin 256).val : Int) = 97 := by decide
  rw [h97] at h
  rw [h]
  decide

/-- C19, amended: for every string `s` of fewer than 2^31 characters and the
empty table, `buildFrequencyMap(s, false, map)` leaves the table with exactly
these entries: each character that occurs in `s`, once, with the number of its
occurrences, and the end-of-stream symbol with 1; the counts sum to the length
of `s` plus 1.  The end-of-stream symbol is taken outside the range of
`char`. -/
theorem C19_table_of_a_string (k : Consts)
    (hE : k.PSEUDO_EOF < -128 ∨ 127 < k.PSEUDO_EOF) (S : List (Fin 256))
    (hlen : S.length < 2147483648) :
    (buildFrequencyMap k S false ⟨[]⟩).keys.Nodup ∧
    (∀ x, x ∈ (buildFrequencyMap k S false ⟨[]⟩).keys ↔ x = k.PSEUDO_EOF ∨ x ∈ chars S) ∧
    (∀ b : Fin 256, (buildFrequencyMap k S false ⟨[]⟩).get (toChar b.val) = (S.count b : Int)) ∧
    (buildFrequencyMap k S false ⟨[]⟩).get k.PSEUDO_EOF = 1 ∧
    ((buildFrequencyMap k S false ⟨[]⟩).table.map Prod.snd).sum = (S.length : Int) + 1 := by
  obtain ⟨hk, hnd, hmem⟩ := buildFrequencyMap_string_keys k hE S
  obtain ⟨hg1, hg2⟩ := buildFrequencyMap_string_get k hE S
  have hget : ∀ b : Fin 256,
      (buildFrequencyMap k S false ⟨[]⟩).get (toChar b.val) = (S.count b : Int) := by
    intro b
    rw [hg2 b]
    have := List.count_le_length b S
    exact wrap32_id _ (by omega) (by omega)
  have hnotin : k.PSEUDO_EOF ∉ (countString S ⟨[]⟩).keys := fun h =>
    eof_not_char k hE S ((hmem _).1 h)
  refine ⟨?_, ?_, hget, hg1, ?_⟩
  · rw [hk]
    exact List.nodup_append.2 ⟨hnd, List.nodup_singleton _, by
      intro x hx hx2
      simp only [List.mem_singleton] at hx2
      exact hnotin (hx2 ▸ hx)⟩
  · intro x
    rw [hk, List.mem_append, hmem, List.mem_singleton]
    tauto
  · have hperm : (countString S ⟨[]⟩).keys.Perm (chars S).dedup :=
      (List.perm_ext_iff_of_nodup hnd (List.nodup_dedup _)).2 (fun a => by
        rw [hmem, List.mem_dedup])
    have hval : ∀ x ∈ (countString S ⟨[]⟩).keys,
        (buildFrequencyMap k S false ⟨[]⟩).get x = ((chars S).count x : Int) := by
      intro x hx
      obtain ⟨b, _, e⟩ := mem_chars.1 ((hmem x).1 hx)
      rw [e, hget, count_chars]
    simp only [hashmapF.table, hk, List.map_append, List.map_map, List.map_cons, List.map_nil,
      List.sum_append, List.sum_cons, List.sum_nil, Function.comp, hg1, add_zero]
    congr 1
    rw [List.map_congr_left (g := fun x => ((chars S).count x : Int)) (fun x hx => by
      simp only [Function.comp]
      exact hval x hx)]
    have h1 : (List.map (fun x => ((chars S).count x : Int)) (countString S ⟨[]⟩).keys).sum =
        (List.map (fun x => ((chars S).count x : Int)) (chars S).dedup).sum :=
      (hperm.map _).sum_eq
    rw [h1]
    have h2 := List.sum_map_count_dedup_eq_length (chars S)
    have h3 : (chars S).length = S.length := by simp [chars]
    rw [← h3, ← h2]
    simp only [Nat.cast_list_sum, List.map_map]
    rfl

/-- C19, amended, witness: the string with the bytes 97, 255, 255, 98, 97. -/
theorem C19_table_of_a_string_witness :
    (stdConsts.PSEUDO_EOF < -128 ∨ 127 < stdConsts.PSEUDO_EOF) ∧
    ([97, 255, 255, 98, 97] : List (Fin 256)).length < 2147483648 ∧
    (buildFrequencyMap stdConsts [97, 255, 255, 98, 97] false ⟨[]⟩).keys.Nodup ∧
    (∀ x, x ∈ (buildFrequencyMap stdConsts [97, 255, 255, 98, 97] false ⟨[]⟩).keys ↔
      x = stdConsts.PSEUDO_EOF ∨ x ∈ chars [97, 255, 255, 98, 97]) ∧
    (∀ b : Fin 256, (buildFrequencyMap stdConsts [97, 255, 255, 98, 97] false ⟨[]⟩).get
      (toChar b.val) = (([97, 255, 255, 98, 97] : List (Fin 256)).count b : Int)) ∧
    (buildFrequencyMap stdConsts [97, 255, 255, 98, 97] false ⟨[]⟩).get stdConsts.PSEUDO_EOF = 1 ∧
    ((buildFrequencyMap stdConsts [97, 255, 255, 98, 97] false ⟨[]⟩).table.map Prod.snd).sum =
      (([97, 255, 255, 98, 97] : List (Fin 256)).length : Int) + 1 :=
  ⟨by decide, by decide,
    C19_table_of_a_string stdConsts (by decide) [97, 255, 255, 98, 97] (by decide)⟩

end Huffman

namespace PQ

variable {T : Type}

theorem ChainRep.chained {h : Heap T} {p : Int} :
    ∀ (ch : List (Nat × T)) (par : Option Nat) (x : Nat), ChainRep h p par ch →
      Chained h (chPtr ch) x →
      ∃ nx, h.cells x = some nx ∧ nx.priority = p ∧ nx.left = none ∧ nx.right = none := by
  intro ch
  induction ch with
  | nil => intro par x _ hc; cases hc
  | cons c rest ih =>
    intro par x hr hc
    obtain ⟨⟨n, hn, hp, _, _, _, hl, hrr, hlk⟩, hrest⟩ := hr
    have hptr : chPtr (c :: rest) = some c.1 := rfl
    rw [hptr] at hc
    cases hc with
    | here => exact ⟨n, hn, hp, hl, hrr⟩
    | next _ n2 _ hn2 hx =>
      rw [hn] at hn2
      cases hn2
      rw [hlk] at hx
      exact ih _ x hrest hx

theorem ChainRep.sub_chain {h : Heap T} {p : Int} :
    ∀ (ch : List (Nat × T)) (par : Option Nat) (x : Nat), ChainRep h p par ch →
      Sub h (chPtr ch) x → ∃ nx, h.cells x = some nx ∧ nx.priority = p := by
  intro ch
  induction ch with
  | nil => intro par x _ hc; cases hc
  | cons c rest ih =>
    intro par x hr hc
    obtain ⟨⟨n, hn, hp, _, _, _, hl, hrr, hlk⟩, hrest⟩ := hr
    have hptr : chPtr (c :: rest) = some c.1 := rfl
    rw [hptr] at hc
    cases hc with
    | here => exact ⟨n, hn, hp⟩
    | left _ n2 _ hn2 hx =>
      rw [hn] at hn2
      cases hn2
      rw [hl] at hx
      cases hx
    | right _ n2 _ hn2 hx =>
      rw [hn] at hn2
      cases hn2
      rw [hrr] at hx
      cases hx
    | link _ n2 _ hn2 hx =>
      rw [hn] at hn2
      cases hn2
      rw [hlk] at hx
      exact ih _ x hrest hx

theorem Rep.sub_rep {s : Bool} {h : Heap T} :
    ∀ (g : GT T) (par : Option (Option Nat)) (x : Nat), Rep s h g par → Sub h g.ptr x →
      ∃ nx, h.cells x = some nx ∧ ∃ e ∈ g.toList, e.2 = nx.priority := by
  intro g
  induction g with
  | nil => intro par x _ hs; cases hs
  | node a p v ch l r ihl ihr =>
    intro par x hr hs
    obtain ⟨⟨n, hn, hp, _, _, _, hlk, hl, hrr⟩, hch, hrl, hrrr⟩ := hr
    rw [GT.ptr_node] at hs
    have hmid : (v, p) ∈ (GT.node a p v ch l r).toList := by
      simp [GT.toList]
    cases hs with
    | here => exact ⟨n, hn, (v, p), hmid, hp.symm⟩
    | left _ n2 _ hn2 hx =>
      rw [hn] at hn2
      cases hn2
      rw [hl] at hx
      obtain ⟨nx, hnx, e, he, hep⟩ := ihl _ x hrl hx
      exact ⟨nx, hnx, e, by simp [GT.toList, he], hep⟩
    | right _ n2 _ hn2 hx =>
      rw [hn] at hn2
      cases hn2
      rw [hrr] at hx
      obtain ⟨nx, hnx, e, he, hep⟩ := ihr _ x hrrr hx
      exact ⟨nx, hnx, e, by simp [GT.toList, he], hep⟩
    | link _ n2 _ hn2 hx =>
      rw [hn] at hn2
      cases hn2
      rw [hlk] at hx
      obtain ⟨nx, hnx, hpx⟩ := ChainRep.sub_chain ch _ x hch hx
      exact ⟨nx, hnx, (v, p), hmid, hpx.symm⟩

theorem Rep.orderedAt {s : Bool} {h : Heap T} :
    ∀ (g : GT T) (par : Option (Option Nat)) (N : Nat), Rep s h g par → g.Ordered →
      Primary h g.ptr N → ∃ n, h.cells N = some n ∧ OrderedAt h n := by
  intro g
  induction g with
  | nil => intro par N _ _ hp; cases hp
  | node a p v ch l r ihl ihr =>
    intro par N hr ho hpr
    have hr2 := hr
    obtain ⟨⟨n, hn, hp, _, _, _, hlk, hl, hrr⟩, hch, hrl, hrrr⟩ := hr2
    obtain ⟨hol, hor, hlo, hro⟩ := ho
    rw [GT.ptr_node] at hpr
    cases hpr with
    | here =>
      refine ⟨n, hn, ?_, ?_, ?_⟩
      · intro x hx
        rw [hl] at hx
        obtain ⟨nx, hnx, e, he, hep⟩ := Rep.sub_rep l _ x hrl hx
        exact ⟨nx, hnx, by rw [← hep, hp]; exact hol e he⟩
      · intro x hx
        rw [hrr] at hx
        obtain ⟨nx, hnx, e, he, hep⟩ := Rep.sub_rep r _ x hrrr hx
        exact ⟨nx, hnx, by rw [← hep, hp]; exact hor e he⟩
      · intro x hx
        rw [hlk] at hx
        obtain ⟨nx, hnx, hpx, h1, h2⟩ := ChainRep.chained ch _ x hch hx
        exact ⟨nx, hnx, hpx.trans hp.symm, h1, h2⟩
    | left _ n2 _ hn2 hx =>
      rw [hn] at hn2
      cases hn2
      rw [hl] at hx
      exact ihl _ N hrl hlo hx
    | right _ n2 _ hn2 hx =>
      rw [hn] at hn2
      cases hn2
      rw [hrr] at hx
      exact ihr _ N hrrr hro hx

theorem chPtr_cons (c : Nat × T) (rest : List (Nat × T)) : chPtr (c :: rest) = some c.1 := rfl

theorem ChainRep.head_cell {h : Heap T} {p : Int} {par : Option Nat} {ch : List (Nat × T)}
    {c : Nat} (hr : ChainRep h p par ch) (hc : chPtr ch = some c) :
    ∃ nc, h.cells c = some nc ∧ nc.parent = par ∧ nc.dup = true := by
  cases ch with
  | nil => cases hc
  | cons x rest =>
    rw [chPtr_cons] at hc
    cases hc
    obtain ⟨⟨n, hn, _, _, hd, hp, _⟩, _⟩ := hr
    exact ⟨n, hn, hp, hd⟩

theorem ChainRep.links_chain {strict : Bool} {h : Heap T} {p : Int} :
    ∀ (ch : List (Nat × T)) (par : Option Nat) (a : Nat), ChainRep h p par ch →
      Sub h (chPtr ch) a → ∃ n, h.cells a = some n ∧ LinksAt strict h a n := by
  intro ch
  induction ch with
  | nil => intro par a _ hs; cases hs
  | cons c rest ih =>
    intro par a hr hs
    obtain ⟨⟨n, hn, _, _, _, _, hl, hrr, hlk⟩, hrest⟩ := hr
    rw [chPtr_cons] at hs
    cases hs with
    | here =>
      refine ⟨n, hn, ?_, ?_, ?_⟩
      · intro c2 e; rw [hl] at e; cases e
      · intro c2 e; rw [hrr] at e; cases e
      · intro c2 e
        rw [hlk] at e
        exact hrest.head_cell e
    | left _ n2 _ hn2 hx =>
      rw [hn] at hn2; cases hn2
      rw [hl] at hx; cases hx
    | right _ n2 _ hn2 hx =>
      rw [hn] at hn2; cases hn2
      rw [hrr] at hx; cases hx
    | link _ n2 _ hn2 hx =>
      rw [hn] at hn2; cases hn2
      rw [hlk] at hx
      exact ih _ a hrest hx

theorem Rep.root_cell {s : Bool} {h : Heap T} {g : GT T} {par : Option (Option Nat)} {c : Nat}
    (hr : Rep s h g par) (hc : g.ptr = some c) :
    ∃ nc, h.cells c = some nc ∧ (∀ x, par = some x → nc.parent = x) ∧
      (s = true → nc.dup = false) := by
  cases g with
  | nil => cases hc
  | node a p v ch l r =>
    rw [GT.ptr_node] at hc
    cases hc
    obtain ⟨⟨n, hn, _, _, hd, hp, _⟩, _⟩ := hr
    exact ⟨n, hn, hp, hd⟩

theorem Rep.links_rep {s : Bool} {h : Heap T} :
    ∀ (g : GT T) (par : Option (Option Nat)) (a : Nat), Rep s h g par → Sub h g.ptr a →
      ∃ n, h.cells a = some n ∧ LinksAt s h a n := by
  intro g
  induction g with
  | nil => intro par a _ hs; cases hs
  | node b p v ch l r ihl ihr =>
    intro par a hr hs
    obtain ⟨⟨n, hn, _, _, _, _, hlk, hl, hrr⟩, hch, hrl, hrrr⟩ := hr
    rw [GT.ptr_node] at hs
    cases hs with
    | here =>
      refine ⟨n, hn, ?_, ?_, ?_⟩
      · intro c e
        rw [hl] at e
        obtain ⟨nc, hnc, hp, hd⟩ := hrl.root_cell e
        exact ⟨nc, hnc, hp _ rfl, hd⟩
      · intro c e
        rw [hrr] at e
        obtain ⟨nc, hnc, hp, hd⟩ := hrrr.root_cell e
        refine ⟨nc, hnc, fun hs => ?_⟩
        subst hs
        exact ⟨hp _ rfl, hd rfl⟩
      · intro c e
        rw [hlk] at e
        exact hch.head_cell e
    | left _ n2 _ hn2 hx =>
      rw [hn] at hn2; cases hn2
      rw [hl] at hx
      exact ihl _ a hrl hx
    | right _ n2 _ hn2 hx =>
      rw [hn] at hn2; cases hn2
      rw [hrr] at hx
      exact ihr _ a hrrr hx
    | link _ n2 _ hn2 hx =>
      rw [hn] at hn2; cases hn2
      rw [hlk] at hx
      exact ChainRep.links_chain ch _ a hch hx

theorem Inv.linkConsistent {s : Bool} {h : Heap T} {q : priorityqueue} {g : GT T}
    (hi : Inv s h q g) : LinkConsistent s h q := by
  refine ⟨?_, ?_⟩
  · intro r hr
    rw [hi.root] at hr
    obtain ⟨n, hn, hp, hd⟩ := hi.rep.root_cell hr
    exact ⟨n, hn, hp _ rfl, hd⟩
  · intro a ha
    rw [hi.root] at ha
    exact Rep.links_rep g _ a hi.rep ha

/-- In the queue built by enqueue calls alone the links are consistent: the
root has no parent, every child and chain successor points back to the node
that holds it, and `dup` is true exactly on the nodes of the chains. -/
theorem link_consistency_after_enqueues (L : List (T × Int)) :
    ∃ h q, enqueueAll L Heap.empty priorityqueue.new = some (h, q) ∧
      LinkConsistent true h q := by
  obtain ⟨h, q, he, ⟨g, hi, _⟩, _⟩ :=
    Abs.enqueueAll L (Abs.new true : Abs true (Heap.empty : Heap T) _ _)
  exact ⟨h, q, he, hi.linkConsistent⟩

/-- What of the link consistency holds in every state reached by enqueue and
dequeue calls: the root has no parent, every left child and every chain
successor points back to the node that holds it, the nodes of the chains
have `dup` true, and every node under the root is allocated. -/
theorem link_consistency_in_every_state [Inhabited T] [ClassType T] (ops : List (Op T)) :
    ∃ h q outs, run ops Heap.empty priorityqueue.new [] = some (h, q, outs) ∧
      LinkConsistent false h q := by
  obtain ⟨h, q, outs, hr, g, hi, _⟩ := Abs.run ops [] (Abs.new false)
  exact ⟨h, q, outs, hr, hi.linkConsistent⟩

/-- C21, the code at the failing input: after enqueue a:1, b:1, c:2 and one
dequeue, which removes the node of a (address 0) and puts the head b of its
chain (address 1) in its place, the root is the node of b, a primary node
whose `dup` is still true, and its right child, the node of c (address 2),
still has the released node of a as its parent: the branch of `dequeue` for
a node with a chain neither clears `dup` of the chain head nor assigns the
parent of the inherited right child.  The branch for a node without a chain
does assign it: after enqueue b:2, a:1, c:3 and a dequeue that removes the
leaf a the root b has c as right child with parent b, and a second dequeue,
which removes b, leaves c as root with no parent. -/
theorem C21_promoted_chain_head_keeps_dup :
    (run promoteOps Heap.empty priorityqueue.new []).map (fun s => s.2.1.root) =
      some (some 1) ∧
    (run promoteOps Heap.empty priorityqueue.new []).map (fun s => dupParent s.1 0) =
      some none ∧
    (run promoteOps Heap.empty priorityqueue.new []).map (fun s => dupParent s.1 1) =
      some (some (true, none)) ∧
    (run promoteOps Heap.empty priorityqueue.new []).map (fun s => outLinks s.1 1) =
      some (some (none, none, some 2)) ∧
    (run promoteOps Heap.empty priorityqueue.new []).map (fun s => dupParent s.1 2) =
      some (some (false, some 0)) ∧
    (run plainOps Heap.empty priorityqueue.new []).map (fun s => s.2.1.root) =
      some (some 0) ∧
    (run plainOps Heap.empty priorityqueue.new []).map (fun s => outLinks s.1 0) =
      some (some (none, none, some 2)) ∧
    (run plainOps Heap.empty priorityqueue.new []).map (fun s => dupParent s.1 2) =
      some (some (false, some 0)) ∧
    (run (plainOps ++ [Op.dequeue]) Heap.empty priorityqueue.new []).map (fun s =>
      (s.2.1.root, dupParent s.1 2)) = some (some 2, some (false, none)) := by
  refine ⟨by decide, by decide, by decide, by decide, by decide, by decide, by decide,
    by decide, by decide⟩

/-- C22, the code at the failing inputs.  After enqueue a:1, b:1, c:2 and one
dequeue the elements b:1 and c:2 are stored, and the first call of `next`
after `begin` is undefined behaviour (`none`): the root b, the former head
of the chain of a, still has `dup` true and no parent, so the loop
`while (curr->dup) curr = curr->parent;` reaches the null pointer and reads
through it.  With x:5 enqueued before them b takes the place of a as left
child of x; the first call of `next` stores b:1, climbs from b to x as if b
were a chain node and ends the traversal: c:2 and x:5 are never delivered.
After a dequeue that removed a node without a chain (enqueue b:2, a:1, c:3,
dequeue) the traversal delivers the stored elements b:2, c:3.  The defect is
that of C21. -/
theorem C22_traversal_after_promoting_dequeue :
    stableSort (stored promoteOps) = [("b", 1), ("c", 2)] ∧
    traversalAfter promoteOps 1 = none ∧
    stableSort (stored promoteBelowOps) = [("b", 1), ("c", 2), ("x", 5)] ∧
    traversalAfter promoteBelowOps 1 = some [("b", 1)] ∧
    traversalAfter promoteBelowOps 3 = some [("b", 1)] ∧
    stableSort (stored plainOps) = [("b", 2), ("c", 3)] ∧
    traversalAfter plainOps 2 = some [("b", 2), ("c", 3)] := by
  refine ⟨by decide, by decide, by decide, by decide, by decide, by decide, by decide⟩

end PQ

namespace Huffman

theorem kraftSum_nil (B : Nat) : kraftSum B [] = 0 := rfl

theorem kraftSum_cons (B d : Nat) (ds : List Nat) :
    kraftSum B (d :: ds) = 2 ^ (B - d) + kraftSum B ds := by
  simp [kraftSum]

theorem kraftSum_perm (B : Nat) {ds1 ds2 : List Nat} (h : ds1.Perm ds2) :
    kraftSum B ds1 = kraftSum B ds2 :=
  (h.map _).sum_eq

theorem mem_tailsOf {b : Bool} {t : List Bool} :
    ∀ {cs : List (List Bool)}, t ∈ tailsOf b cs → (b :: t) ∈ cs := by
  intro cs
  induction cs with
  | nil => intro h; simp [tailsOf] at h
  | cons c cs ih =>
    intro h
    cases c with
    | nil => exact List.mem_cons_of_mem _ (ih h)
    | cons x u =>
      by_cases hx : x = b
      · simp only [tailsOf, if_pos hx, List.mem_cons] at h
        rcases h with e | e
        · rw [e, hx]; exact List.mem_cons_self _ _
        · exact List.mem_cons_of_mem _ (ih e)
      · simp only [tailsOf, if_neg hx] at h
        exact List.mem_cons_of_mem _ (ih h)

theorem Apart.tail {b : Bool} {t u : List Bool} (h : Apart (b :: t) (b :: u)) : Apart t u :=
  ⟨fun hp => h.1 ((List.prefix_cons_inj b).2 hp), fun hp => h.2 ((List.prefix_cons_inj b).2 hp)⟩

theorem tailsOf_pairwise (b : Bool) :
    ∀ (cs : List (List Bool)), cs.Pairwise Apart → (tailsOf b cs).Pairwise Apart := by
  intro cs
  induction cs with
  | nil => intro _; exact List.Pairwise.nil
  | cons c cs ih =>
    intro h
    obtain ⟨h1, h2⟩ := List.pairwise_cons.1 h
    cases c with
    | nil => exact ih h2
    | cons x u =>
      by_cases hx : x = b
      · simp only [tailsOf, if_pos hx]
        refine List.pairwise_cons.2 ⟨?_, ih h2⟩
        intro t ht
        have := h1 _ (mem_tailsOf ht)
        rw [hx] at this
        exact this.tail
      · simp only [tailsOf, if_neg hx]
        exact ih h2

theorem tailsOf_length_le (b : Bool) (B : Nat) :
    ∀ (cs : List (List Bool)), (∀ c ∈ cs, c.length ≤ B + 1) →
      ∀ t ∈ tailsOf b cs, t.length ≤ B := by
  intro cs h t ht
  have := h _ (mem_tailsOf ht)
  simpa using this

theorem kraftSum_split (B : Nat) :
    ∀ (cs : List (List Bool)), [] ∉ cs →
      kraftSum (B + 1) (cs.map List.length) =
        kraftSum B ((tailsOf false cs).map List.length) +
          kraftSum B ((tailsOf true cs).map List.length) := by
  intro cs
  induction cs with
  | nil => intro _; rfl
  | cons c cs ih =>
    intro h
    have hc : c ≠ [] := fun e => h (e ▸ List.mem_cons_self _ _)
    have hcs : [] ∉ cs := fun e => h (List.mem_cons_of_mem _ e)
    cases c with
    | nil => exact absurd rfl hc
    | cons x u =>
      have hpow : B + 1 - (u.length + 1) = B - u.length := by omega
      cases x with
      | false =>
        simp only [List.map_cons, kraftSum_cons, tailsOf, if_true, List.length_cons, hpow,
          ih hcs, Bool.false_eq_true, if_false]
        omega
      | true =>
        simp only [List.map_cons, kraftSum_cons, tailsOf, if_true, List.length_cons, hpow,
          ih hcs, Bool.true_eq_false, if_false]
        omega

theorem only_nil_of_pairwise :
    ∀ (cs : List (List Bool)), cs.Pairwise Apart → [] ∈ cs → cs = [[]] := by
  intro cs h hm
  cases cs with
  | nil => simp at hm
  | cons c rest =>
    obtain ⟨h1, _⟩ := List.pairwise_cons.1 h
    cases c with
    | nil =>
      cases rest with
      | nil => rfl
      | cons d _ => exact absurd List.nil_prefix (h1 d (List.mem_cons_self _ _)).1
    | cons x u =>
      rcases List.mem_cons.1 hm with e | e
      · cases e
      · exact absurd List.nil_prefix (h1 [] e).2

/-- The inequality of Kraft: the lengths of bit strings of which none is an
initial segment of another have a Kraft sum of at most 1. -/
theorem kraft_of_apart :
    ∀ (B : Nat) (cs : List (List Bool)), cs.Pairwise Apart → (∀ c ∈ cs, c.length ≤ B) →
      kraftSum B (cs.map List.length) ≤ 2 ^ B := by
  intro B
  induction B with
  | zero =>
    intro cs hp hl
    cases cs with
    | nil => simp [kraftSum]
    | cons c rest =>
      have hc : c = [] := List.length_eq_zero.1 (Nat.le_zero.1 (hl c (List.mem_cons_self _ _)))
      rw [only_nil_of_pairwise _ hp (hc ▸ List.mem_cons_self _ _)]
      simp [kraftSum]
  | succ B ih =>
    intro cs hp hl
    by_cases hn : [] ∈ cs
    · rw [only_nil_of_pairwise _ hp hn]
      simp [kraftSum]
    · rw [kraftSum_split B cs hn]
      have h0 := ih _ (tailsOf_pairwise false cs hp) (tailsOf_length_le false B cs hl)
      have h1 := ih _ (tailsOf_pairwise true cs hp) (tailsOf_length_le true B cs hl)
      rw [pow_succ]
      omega

theorem cost2_cons (p : Int × Nat) (ps : List (Int × Nat)) :
    cost2 (p :: ps) = p.1 * (p.2 : Int) + cost2 ps := by
  simp [cost2]

theorem cost2_perm {ps qs : List (Int × Nat)} (h : ps.Perm qs) : cost2 ps = cost2 qs :=
  (h.map _).sum_eq

/-- A pair of greatest depth can be taken out of a non-empty list. -/
theorem exists_deepest :
    ∀ (ps : List (Int × Nat)), ps ≠ [] →
      ∃ p qs, ps.Perm (p :: qs) ∧ ∀ q ∈ qs, q.2 ≤ p.2 := by
  intro ps
  induction ps with
  | nil => intro h; exact absurd rfl h
  | cons x rest ih =>
    intro _
    cases rest with
    | nil => exact ⟨x, [], List.Perm.refl _, fun q hq => by cases hq⟩
    | cons y rest2 =>
      obtain ⟨p, qs, hp, hq⟩ := ih (by simp)
      by_cases hx : x.2 ≤ p.2
      · refine ⟨p, x :: qs, ?_, ?_⟩
        · exact (List.Perm.cons x hp).trans (List.Perm.swap p x qs)
        · intro q hq2
          rcases List.mem_cons.1 hq2 with e | e
          · rw [e]; exact hx
          · exact hq q e
      · refine ⟨x, p :: qs, List.Perm.cons x hp, ?_⟩
        intro q hq2
        rcases List.mem_cons.1 hq2 with e | e
        · rw [e]; omega
        · have := hq q e; omega

/-- A pair with a given first component can be taken out of a list. -/
theorem exists_with_weight {a : Int} :
    ∀ (ps : List (Int × Nat)), a ∈ ps.map Prod.fst → ∃ d qs, ps.Perm ((a, d) :: qs) := by
  intro ps h
  obtain ⟨p, hp, e⟩ := List.mem_map.1 h
  obtain ⟨s, t, hst⟩ := List.append_of_mem hp
  refine ⟨p.2, s ++ t, ?_⟩
  rw [hst, ← e]
  exact List.perm_middle

/-- A pair with a given second component can be taken out of a list. -/
theorem exists_with_depth {D : Nat} :
    ∀ (ps : List (Int × Nat)), D ∈ ps.map Prod.snd → ∃ w qs, ps.Perm ((w, D) :: qs) := by
  intro ps h
  obtain ⟨p, hp, e⟩ := List.mem_map.1 h
  obtain ⟨s, t, hst⟩ := List.append_of_mem hp
  refine ⟨p.1, s ++ t, ?_⟩
  rw [hst, ← e]
  exact List.perm_middle

/-- The least weight can be moved to a place of greatest depth without a
greater cost. -/
theorem place_least (a : Int) (ws : List Int) (D : Nat) (ps : List (Int × Nat))
    (hw : (ps.map Prod.fst).Perm (a :: ws)) (hmin : ∀ w ∈ ws, a ≤ w)
    (hD : ∀ p ∈ ps, p.2 ≤ D) (hmem : D ∈ ps.map Prod.snd) :
    ∃ qs : List (Int × Nat), (qs.map Prod.fst).Perm ws ∧
      (D :: qs.map Prod.snd).Perm (ps.map Prod.snd) ∧
      a * (D : Int) + cost2 qs ≤ cost2 ps := by
  obtain ⟨da, ps1, h1⟩ := exists_with_weight ps (hw.mem_iff.2 (List.mem_cons_self _ _))
  have hw1 : (ps1.map Prod.fst).Perm ws := by
    have := (h1.map Prod.fst).symm.trans hw
    simp only [List.map_cons] at this
    exact List.Perm.cons_inv this
  by_cases hda : da = D
  · subst hda
    refine ⟨ps1, hw1, ?_, ?_⟩
    · have := (h1.map Prod.snd).symm
      simpa using this
    · rw [cost2_perm h1, cost2_cons]
  · have hmem1 : D ∈ ps1.map Prod.snd := by
      have := (h1.map Prod.snd).mem_iff.1 hmem
      simp only [List.map_cons, List.mem_cons] at this
      rcases this with e | e
      · exact absurd e.symm hda
      · exact e
    obtain ⟨c, ps2, h2⟩ := exists_with_depth ps1 hmem1
    have hc : a ≤ c := by
      refine hmin c (hw1.mem_iff.1 ?_)
      exact (h2.map Prod.fst).mem_iff.2 (by simp)
    have hdaD : da ≤ D := hD (a, da) (h1.mem_iff.2 (List.mem_cons_self _ _))
    refine ⟨(c, da) :: ps2, ?_, ?_, ?_⟩
    · have := (h2.map Prod.fst)
      simp only [List.map_cons] at this ⊢
      exact this.symm.trans hw1
    · have e1 := (h1.map Prod.snd)
      have e2 := (h2.map Prod.snd)
      simp only [List.map_cons] at e1 e2 ⊢
      refine List.Perm.trans ?_ e1.symm
      refine (List.Perm.swap _ _ _).trans ?_
      exact List.Perm.cons da e2.symm
    · have e1 : cost2 ps = a * (da : Int) + (c * (D : Int) + cost2 ps2) := by
        rw [cost2_perm h1, cost2_cons, cost2_perm h2, cost2_cons]
      rw [e1, cost2_cons]
      simp only
      have hd : (da : Int) ≤ (D : Int) := by exact_mod_cast hdaD
      nlinarith [mul_nonneg (sub_nonneg.2 hc) (sub_nonneg.2 hd)]

/-- With a single pair of the greatest depth, that depth can be lowered by
one within the inequality of Kraft. -/
theorem kraft_lower_deepest (B D : Nat) (ds : List Nat) (hD1 : 1 ≤ D) (hDB : D ≤ B)
    (hlt : ∀ d ∈ ds, d < D) (hk : kraftSum B (D :: ds) ≤ 2 ^ B) :
    kraftSum B ((D - 1) :: ds) ≤ 2 ^ B := by
  have hdvd : 2 ^ (B - D + 1) ∣ kraftSum B ds := by
    refine List.dvd_sum ?_
    intro x hx
    obtain ⟨d, hd, e⟩ := List.mem_map.1 hx
    rw [← e]
    exact pow_dvd_pow 2 (by have := hlt d hd; omega)
  have hdvdB : 2 ^ (B - D + 1) ∣ 2 ^ B := pow_dvd_pow 2 (by omega)
  obtain ⟨s, hs⟩ := hdvd
  obtain ⟨m, hm⟩ := hdvdB
  rw [kraftSum_cons] at hk ⊢
  have he : B - (D - 1) = B - D + 1 := by omega
  rw [he]
  have hu : 2 ^ (B - D + 1) = 2 * 2 ^ (B - D) := by rw [pow_succ]; ring
  have hpos : 0 < 2 ^ (B - D) := Nat.two_pow_pos _
  rw [hs, hm] at hk ⊢
  have hsm : s < m := by
    by_contra hge
    push_neg at hge
    have := Nat.mul_le_mul_left (2 ^ (B - D + 1)) hge
    omega
  have : 2 ^ (B - D + 1) * (s + 1) ≤ 2 ^ (B - D + 1) * m := Nat.mul_le_mul_left _ hsm
  rw [Nat.mul_add, Nat.mul_one] at this
  omega

/-- One step towards the merge of the two least weights `a` and `b` in an
assignment of depths that obeys the inequality of Kraft: either the two
weights can be put on two places of the greatest depth and merged into one
place above them, which lowers the cost by `a + b`, or the single place of
the greatest depth can be raised by one. -/
theorem exchange_or_lower (B : Nat) (ps : List (Int × Nat)) (a b : Int) (rest : List Int)
    (hw : (ps.map Prod.fst).Perm (a :: b :: rest)) (hmin : ∀ w ∈ b :: rest, a ≤ w)
    (hmin2 : ∀ w ∈ rest, b ≤ w) (ha : 0 ≤ a) (hB : ∀ p ∈ ps, p.2 ≤ B)
    (hk : kraftSum B (ps.map Prod.snd) ≤ 2 ^ B) :
    (∃ qs : List (Int × Nat), (qs.map Prod.fst).Perm ((a + b) :: rest) ∧
      (∀ p ∈ qs, p.2 ≤ B) ∧ kraftSum B (qs.map Prod.snd) ≤ 2 ^ B ∧
      cost2 qs + (a + b) ≤ cost2 ps) ∨
    (∃ ps2 : List (Int × Nat), (ps2.map Prod.snd).sum + 1 = (ps.map Prod.snd).sum ∧
      (ps2.map Prod.fst).Perm (a :: b :: rest) ∧ (∀ p ∈ ps2, p.2 ≤ B) ∧
      kraftSum B (ps2.map Prod.snd) ≤ 2 ^ B ∧ cost2 ps2 ≤ cost2 ps) := by
  have hlen : ps.length = rest.length + 2 := by
    have := hw.length_eq
    simpa using this
  have hne : ps ≠ [] := by
    intro e
    rw [e] at hlen
    simp at hlen
  obtain ⟨p, qs, hperm, hle⟩ := exists_deepest ps hne
  have hdep : (ps.map Prod.snd).Perm (p.2 :: qs.map Prod.snd) := by
    simpa using hperm.map Prod.snd
  have hD : ∀ x ∈ ps, x.2 ≤ p.2 := by
    intro x hx
    rcases List.mem_cons.1 (hperm.mem_iff.1 hx) with e | e
    · rw [e]
    · exact hle x e
  have hpB : p.2 ≤ B := hB p (hperm.mem_iff.2 (List.mem_cons_self _ _))
  have hqne : qs ≠ [] := by
    intro e
    have := hperm.length_eq
    rw [e, hlen] at this
    simp at this
  by_cases hD0 : p.2 = 0
  · -- all depths are 0: two places already break the inequality
    exfalso
    obtain ⟨q, qs2, hq⟩ := List.exists_cons_of_ne_nil hqne
    subst hq
    have hq0 : q.2 = 0 := by
      have := hle q (List.mem_cons_self _ _)
      omega
    rw [kraftSum_perm B hdep] at hk
    simp only [List.map_cons, kraftSum_cons, hD0, hq0, Nat.sub_zero] at hk
    have hpos : 0 < 2 ^ B := Nat.two_pow_pos _
    omega
  · have hD1 : 1 ≤ p.2 := by omega
    have hwnn : ∀ x ∈ ps, 0 ≤ x.1 := by
      intro x hx
      have : x.1 ∈ a :: b :: rest := hw.mem_iff.1 (List.mem_map.2 ⟨x, hx, rfl⟩)
      rcases List.mem_cons.1 this with e | e
      · rw [e]; exact ha
      · exact le_trans ha (hmin _ e)
    by_cases hex : p.2 ∈ qs.map Prod.snd
    · -- two places of the greatest depth
      left
      have hmem : p.2 ∈ ps.map Prod.snd := hdep.mem_iff.2 (List.mem_cons_self _ _)
      obtain ⟨qs1, hw1, hd1, hc1⟩ := place_least a (b :: rest) p.2 ps hw hmin hD hmem
      have hd1q : (qs1.map Prod.snd).Perm (qs.map Prod.snd) :=
        List.Perm.cons_inv (hd1.trans hdep)
      have hD1q : ∀ x ∈ qs1, x.2 ≤ p.2 := by
        intro x hx
        have : x.2 ∈ qs.map Prod.snd := hd1q.mem_iff.1 (List.mem_map.2 ⟨x, hx, rfl⟩)
        obtain ⟨y, hy, e⟩ := List.mem_map.1 this
        rw [← e]
        exact hle y hy
      obtain ⟨qs2, hw2, hd2, hc2⟩ := place_least b rest p.2 qs1 hw1 hmin2 hD1q
        (hd1q.mem_iff.2 hex)
      have hdall : (p.2 :: p.2 :: qs2.map Prod.snd).Perm (ps.map Prod.snd) :=
        (List.Perm.cons p.2 hd2).trans hd1
      refine ⟨(a + b, p.2 - 1) :: qs2, ?_, ?_, ?_, ?_⟩
      · simpa using List.Perm.cons (a + b) hw2
      · intro x hx
        rcases List.mem_cons.1 hx with e | e
        · rw [e]; simp only; omega
        · have : x.2 ∈ ps.map Prod.snd :=
            hdall.mem_iff.1 (List.mem_cons_of_mem _ (List.mem_cons_of_mem _
              (List.mem_map.2 ⟨x, e, rfl⟩)))
          obtain ⟨y, hy, e2⟩ := List.mem_map.1 this
          rw [← e2]
          exact hB y hy
      · rw [← kraftSum_perm B hdall] at hk
        simp only [List.map_cons, kraftSum_cons] at hk ⊢
        have he : B - (p.2 - 1) = B - p.2 + 1 := by omega
        rw [he, pow_succ]
        omega
      · rw [cost2_cons]
        simp only
        have hcast : ((p.2 - 1 : Nat) : Int) = (p.2 : Int) - 1 := by
          rw [Nat.cast_sub hD1]; simp
        rw [hcast]
        linarith
    · -- a single place of the greatest depth
      right
      have hlt : ∀ d ∈ qs.map Prod.snd, d < p.2 := by
        intro d hd
        obtain ⟨y, hy, e⟩ := List.mem_map.1 hd
        have h1 := hle y hy
        have h2 : d ≠ p.2 := fun e2 => hex (e2 ▸ hd)
        rw [← e] at h2 ⊢
        omega
      refine ⟨(p.1, p.2 - 1) :: qs, ?_, ?_, ?_, ?_, ?_⟩
      · rw [hdep.sum_eq]
        simp only [List.map_cons, List.sum_cons]
        omega
      · have := (hperm.map Prod.fst).symm.trans hw
        simpa using this
      · intro x hx
        rcases List.mem_cons.1 hx with e | e
        · rw [e]; simp only; omega
        · exact hB x (hperm.mem_iff.2 (List.mem_cons_of_mem _ e))
      · rw [kraftSum_perm B hdep] at hk
        simpa using kraft_lower_deepest B p.2 (qs.map Prod.snd) hD1 hpB hlt hk
      · rw [cost2_perm hperm, cost2_cons, cost2_cons]
        simp only
        have hcast : ((p.2 - 1 : Nat) : Int) = (p.2 : Int) - 1 := by
          rw [Nat.cast_sub hD1]; simp
        rw [hcast]
        have := hwnn p (hperm.mem_iff.2 (List.mem_cons_self _ _))
        nlinarith

/-- The merge of the two least weights: an assignment of depths to the
weights that obeys the inequality of Kraft gives one for the weights after the
two least of them are replaced by their sum, with a cost that is lower by
at least that sum. -/
theorem exchange (B : Nat) :
    ∀ (n : Nat) (ps : List (Int × Nat)) (a b : Int) (rest : List Int),
      (ps.map Prod.snd).sum ≤ n → (ps.map Prod.fst).Perm (a :: b :: rest) →
      (∀ w ∈ b :: rest, a ≤ w) → (∀ w ∈ rest, b ≤ w) → 0 ≤ a → (∀ p ∈ ps, p.2 ≤ B) →
      kraftSum B (ps.map Prod.snd) ≤ 2 ^ B →
      ∃ qs : List (Int × Nat), (qs.map Prod.fst).Perm ((a + b) :: rest) ∧
        (∀ p ∈ qs, p.2 ≤ B) ∧ kraftSum B (qs.map Prod.snd) ≤ 2 ^ B ∧
        cost2 qs + (a + b) ≤ cost2 ps := by
  intro n
  induction n with
  | zero =>
    intro ps a b rest hn hw hmin hmin2 ha hB hk
    rcases exchange_or_lower B ps a b rest hw hmin hmin2 ha hB hk with h | ⟨ps2, hs, _⟩
    · exact h
    · omega
  | succ n ih =>
    intro ps a b rest hn hw hmin hmin2 ha hB hk
    rcases exchange_or_lower B ps a b rest hw hmin hmin2 ha hB hk with h |
      ⟨ps2, hs, hw2, hB2, hk2, hc2⟩
    · exact h
    · obtain ⟨qs, h1, h2, h3, h4⟩ := ih ps2 a b rest (by omega) hw2 hmin hmin2 ha hB2 hk2
      exact ⟨qs, h1, h2, h3, le_trans h4 hc2⟩

theorem firstMin_perm {T : Type} {l : List (T × Int)} {x : T × Int} (h : firstMin l = some x) :
    l.Perm (x :: removeFirstMin l) ∧ ∀ y ∈ removeFirstMin l, x.2 ≤ y.2 := by
  obtain ⟨pre, post, hl, hpre, hpost, hrem⟩ := firstMin_split h
  rw [hrem, hl]
  refine ⟨List.perm_middle, ?_⟩
  intro y hy
  rcases List.mem_append.1 hy with e | e
  · exact le_of_lt (hpre y e)
  · exact hpost y e

theorem tcost_merge (ch c : Int) {x y : HuffmanNode} (hx : x ≠ .nullptr) :
    tcost (.node ch c x y) = tcost x + tcost y + nodeCount x + nodeCount y := by
  have : ¬ (x = .nullptr ∧ y = .nullptr) := fun e => hx e.1
  simp only [tcost, if_neg this]

theorem intAdd_exact {a b : Int} (ha : 0 ≤ a) (hb : 0 ≤ b) (hs : a + b < 2147483648) :
    intAdd a b = a + b := by
  rw [intAdd, zero_add, wrap32_add]
  exact wrap32_id _ (by omega) hs

/-- One merge keeps the invariant. -/
theorem GreedyInv.merge (k : Consts) {B : Nat} {C : Int} {l : List (HuffmanNode × Int)}
    {x y : HuffmanNode × Int} {chx c0 chy c1 : Int} {zx ox zy oy : HuffmanNode}
    (hi : GreedyInv B C l) (hx : firstMin l = some x)
    (hy : firstMin (removeFirstMin l) = some y) (hxv : x.1 = .node chx c0 zx ox)
    (hyv : y.1 = .node chy c1 zy oy) :
    GreedyInv B C (removeFirstMin (removeFirstMin l) ++
      [(.node k.NOT_A_CHAR (intAdd c0 c1) x.1 y.1, intAdd c0 c1)]) := by
  obtain ⟨p1, m1⟩ := firstMin_perm hx
  obtain ⟨p2, m2⟩ := firstMin_perm hy
  have pall : l.Perm (x :: y :: removeFirstMin (removeFirstMin l)) :=
    p1.trans (List.Perm.cons x p2)
  have hxl : x ∈ l := pall.mem_iff.2 (by simp)
  have hyl : y ∈ l := pall.mem_iff.2 (by simp)
  have hrl : ∀ z ∈ removeFirstMin (removeFirstMin l), z ∈ l := fun z hz =>
    pall.mem_iff.2 (List.mem_cons_of_mem _ (List.mem_cons_of_mem _ hz))
  have hc0 : c0 = x.2 := by
    have := hi.prio x hxl
    rw [hxv] at this
    exact this.symm
  have hc1 : c1 = y.2 := by
    have := hi.prio y hyl
    rw [hyv] at this
    exact this.symm
  have hx0 := hi.nonneg x hxl
  have hy0 := hi.nonneg y hyl
  have hsum : (l.map Prod.snd).sum =
      x.2 + y.2 + ((removeFirstMin (removeFirstMin l)).map Prod.snd).sum := by
    rw [(pall.map Prod.snd).sum_eq]
    simp only [List.map_cons, List.sum_cons]
    ring
  have hrest0 : 0 ≤ ((removeFirstMin (removeFirstMin l)).map Prod.snd).sum := by
    refine List.sum_nonneg ?_
    intro w hw
    obtain ⟨z, hz, e⟩ := List.mem_map.1 hw
    rw [← e]
    exact hi.nonneg z (hrl z hz)
  have hsmall := hi.small
  have hadd : intAdd c0 c1 = x.2 + y.2 := by
    rw [hc0, hc1]
    exact intAdd_exact hx0 hy0 (by omega)
  rw [hadd]
  obtain ⟨ps, hw, hB, hk, hc⟩ := hi.plan
  have hw2 : (ps.map Prod.fst).Perm
      (x.2 :: y.2 :: (removeFirstMin (removeFirstMin l)).map Prod.snd) := by
    refine hw.trans ?_
    simpa using pall.map Prod.snd
  obtain ⟨qs, hq1, hq2, hq3, hq4⟩ := exchange B _ ps x.2 y.2 _ (le_refl _) hw2
    (by
      intro w hw3
      rcases List.mem_cons.1 hw3 with e | e
      · rw [e]
        exact m1 y (p2.mem_iff.2 (List.mem_cons_self _ _))
      · obtain ⟨z, hz, e2⟩ := List.mem_map.1 e
        rw [← e2]
        exact m1 z (p2.mem_iff.2 (List.mem_cons_of_mem _ hz)))
    (by
      intro w hw3
      obtain ⟨z, hz, e2⟩ := List.mem_map.1 hw3
      rw [← e2]
      exact m2 z hz)
    hx0 hB hk
  refine ⟨?_, ?_, ?_, ?_, ?_⟩
  · intro z hz
    rcases List.mem_append.1 hz with e | e
    · exact hi.node z (hrl z e)
    · simp only [List.mem_singleton] at e
      rw [e]
      exact fun e2 => by cases e2
  · intro z hz
    rcases List.mem_append.1 hz with e | e
    · exact hi.prio z (hrl z e)
    · simp only [List.mem_singleton] at e
      rw [e]
      rfl
  · intro z hz
    rcases List.mem_append.1 hz with e | e
    · exact hi.nonneg z (hrl z e)
    · simp only [List.mem_singleton] at e
      rw [e]
      simp only
      omega
  · simp only [List.map_append, List.map_cons, List.map_nil, List.sum_append, List.sum_cons,
      List.sum_nil]
    omega
  · refine ⟨qs, ?_, hq2, hq3, ?_⟩
    · refine hq1.trans ?_
      simp only [List.map_append, List.map_cons, List.map_nil]
      exact (List.perm_append_singleton _ _).symm
    · have ht : (l.map (fun z => tcost z.1)).sum = tcost x.1 + tcost y.1 +
          ((removeFirstMin (removeFirstMin l)).map (fun z => tcost z.1)).sum := by
        rw [(pall.map (fun z => tcost z.1)).sum_eq]
        simp only [List.map_cons, List.sum_cons]
        ring
      simp only [List.map_append, List.map_cons, List.map_nil, List.sum_append, List.sum_cons,
        List.sum_nil]
      rw [tcost_merge _ _ (hi.node x hxl), ← hi.prio x hxl, ← hi.prio y hyl]
      rw [ht] at hc
      linarith

theorem codeCost_congr {code1 code2 : Int → List Bool} {es : List (Int × Int)}
    (h : ∀ e ∈ es, code1 e.1 = code2 e.1) : codeCost code1 es = codeCost code2 es := by
  simp only [codeCost]
  congr 1
  refine List.map_congr_left ?_
  intro e he
  rw [h e he]

theorem codeCost_append (code : Int → List Bool) (es1 es2 : List (Int × Int)) :
    codeCost code (es1 ++ es2) = codeCost code es1 + codeCost code es2 := by
  simp [codeCost]

theorem codeCost_perm (code : Int → List Bool) {es1 es2 : List (Int × Int)}
    (h : es1.Perm es2) : codeCost code es1 = codeCost code es2 :=
  (h.map _).sum_eq

theorem leaves_eq_leafEntries : ∀ (t : HuffmanNode), leaves t = (leafEntries t).map Prod.fst := by
  intro t
  induction t with
  | nullptr => rfl
  | node ch c z o ihz iho =>
    simp only [leaves, leafEntries]
    split_ifs
    · rfl
    · rw [ihz, iho, List.map_append]

theorem SumTree.good {k : Consts} {add : Int → Int → Int} :
    ∀ {t : HuffmanNode}, SumTree k add t → Good k t := by
  intro t
  induction t with
  | nullptr => intro h; exact h
  | node ch c z o ihz iho =>
    intro h
    rcases h with e | ⟨hch, _, _, _, sz, so⟩
    · exact Or.inl e
    · exact Or.inr ⟨hch, ihz sz, iho so⟩

/-- The encoded length of the leaves of a tree under the map that
`_buildEncodingMap` builds from the bit string `str`: the count of the tree
times the length of `str`, plus the cost of the tree. -/
theorem codeCost_tree (k : Consts) :
    ∀ (t : HuffmanNode), SumTree k (fun a b => a + b) t → (leaves t).Nodup →
      (∀ s ∈ leaves t, s ≠ k.NOT_A_CHAR) → ∀ (m : hashmapE) (str : List Bool),
      codeCost (_buildEncodingMap k t m str).lookup (leafEntries t) =
        nodeCount t * (str.length : Int) + tcost t := by
  intro t
  induction t with
  | nullptr => intro h; exact absurd h (by simp [SumTree])
  | node ch c z o ihz iho =>
    intro h hnd hne m str
    rcases h with ⟨ez, eo⟩ | ⟨hch, hz, ho, hc, sz, so⟩
    · subst ez; subst eo
      have hch : ch ≠ k.NOT_A_CHAR := hne ch (by simp [leaves])
      simp [codeCost, leafEntries, _buildEncodingMap, hch, hashmapE.set, hashmapE.lookup,
        nodeCount, tcost]
    · have hnz : ¬ (z = .nullptr ∧ o = .nullptr) := fun e => hz e.1
      have gz := sz.good
      have go := so.good
      rw [leaves_good_node gz] at hnd hne
      obtain ⟨ndz, ndo, hdis⟩ := List.nodup_append.1 hnd
      rw [leafEntries_node hz, codeCost_append]
      simp only [_buildEncodingMap, hch, ne_eq, not_true_eq_false, if_false]
      have e1 : codeCost (_buildEncodingMap k o (_buildEncodingMap k z m (str ++ [false]))
          (str ++ [true])).lookup (leafEntries z) =
          codeCost (_buildEncodingMap k z m (str ++ [false])).lookup (leafEntries z) := by
        refine codeCost_congr ?_
        intro e he
        have hez : e.1 ∈ leaves z := by
          rw [leaves_eq_leafEntries]
          exact List.mem_map.2 ⟨e, he, rfl⟩
        have heo : e.1 ∉ leaves o := fun e2 => hdis hez e2
        simp only [hashmapE.lookup, buildEncodingMap_untouched k o (Or.inr go) _ _ e.1 heo]
      rw [e1, ihz sz ndz (fun s hs => hne s (List.mem_append_left _ hs)),
        iho so ndo (fun s hs => hne s (List.mem_append_right _ hs))]
      simp only [List.length_append, List.length_singleton, Nat.cast_add, Nat.cast_one]
      have hcn : nodeCount (.node k.NOT_A_CHAR c z o) = nodeCount z + nodeCount o := hc
      rw [tcost_merge _ _ hz, hcn]
      ring

/-- The map of `buildEncodingMap` is prefix-free on the leaves of the tree. -/
theorem buildEncodingMap_prefixFree (k : Consts) (tree : HuffmanNode) (hg : Good k tree)
    (hnd : (leaves tree).Nodup) (hne : ∀ s ∈ leaves tree, s ≠ k.NOT_A_CHAR) :
    PrefixFree (leaves tree) (buildEncodingMap k tree).lookup := by
  intro s1 h1 s2 h2 hs hp
  obtain ⟨p1, c1, e1, f1⟩ := buildEncodingMap_leaf k tree hg hnd hashmapE.empty [] s1 h1
    (hne s1 h1)
  obtain ⟨p2, c2, e2, f2⟩ := buildEncodingMap_leaf k tree hg hnd hashmapE.empty [] s2 h2
    (hne s2 h2)
  simp only [hashmapE.lookup, buildEncodingMap, e1, e2, List.nil_append,
    Option.getD_some] at hp
  exact hs (leaf_of_initial_segment f1 f2 hp)

/-- The tree of `buildEncodingTree` costs no more than any assignment of code
lengths that obeys the inequality of Kraft, for a table with a symbol whose
counts are not negative and sum to less than 2^31. -/
theorem tcost_le_of_kraft (k : Consts) (map : hashmapF) (hne : map.keys ≠ [])
    (hlen : map.keys.length < 2147483648)
    (hnn : ∀ e ∈ map.table, 0 ≤ e.2) (hsum : (map.table.map Prod.snd).sum < 2147483648)
    (B : Nat) (len : Int → Nat) (hB : ∀ key ∈ map.keys, len key ≤ B)
    (hk : kraftSum B (map.keys.map len) ≤ 2 ^ B) :
    ∃ tree, buildEncodingTree k map = some tree ∧
      tcost tree ≤ (map.table.map (fun e => e.2 * (len e.1 : Int))).sum := by
  obtain ⟨tree, p, he, hi⟩ := buildEncodingTree_inv k map hne hlen
    (GreedyInv B (map.table.map (fun e => e.2 * (len e.1 : Int))).sum)
    (fun l x hl hx => hl.node x hx)
    (fun l x y chx c0 zx ox chy c1 zy oy hl hx hy hxv hyv => hl.merge k hx hy hxv hyv)
    (by
      refine ⟨?_, ?_, ?_, ?_, ?_⟩
      · intro x hx
        obtain ⟨key, _, e⟩ := List.mem_map.1 hx
        rw [← e]
        exact fun e2 => by cases e2
      · intro x hx
        obtain ⟨key, _, e⟩ := List.mem_map.1 hx
        rw [← e]
        rfl
      · intro x hx
        obtain ⟨key, hkey, e⟩ := List.mem_map.1 hx
        rw [← e]
        exact hnn (key, map.get key) (List.mem_map.2 ⟨key, hkey, rfl⟩)
      · have : (map.keys.map (fun key => (HuffmanNode.node key (map.get key) .nullptr .nullptr,
            map.get key))).map Prod.snd = map.table.map Prod.snd := by
          simp [hashmapF.table, List.map_map, Function.comp]
        rw [this]
        exact hsum
      · refine ⟨map.keys.map (fun key => (map.get key, len key)), ?_, ?_, ?_, ?_⟩
        · simp only [List.map_map, Function.comp]
          exact List.Perm.refl _
        · intro q hq
          obtain ⟨key, hkey, e⟩ := List.mem_map.1 hq
          rw [← e]
          exact hB key hkey
        · have : (map.keys.map (fun key => (map.get key, len key))).map Prod.snd =
              map.keys.map len := by
            simp [List.map_map, Function.comp]
          rw [this]
          exact hk
        · have h0 : ((map.keys.map (fun key => (HuffmanNode.node key (map.get key) .nullptr
              .nullptr, map.get key))).map (fun x => tcost x.1)).sum = 0 := by
            refine List.sum_eq_zero ?_
            intro w hw
            obtain ⟨x, hx, e⟩ := List.mem_map.1 hw
            obtain ⟨key, _, e2⟩ := List.mem_map.1 hx
            rw [← e, ← e2]
            simp [tcost]
          rw [h0, zero_add]
          simp only [cost2, hashmapF.table, List.map_map, Function.comp]
          exact le_refl _)
  refine ⟨tree, he, ?_⟩
  obtain ⟨ps, hw, _, _, hc⟩ := hi.plan
  simp only [List.map_cons, List.map_nil, List.sum_cons, List.sum_nil, add_zero] at hw hc
  have hps := List.perm_singleton.1 hw
  obtain ⟨q, hq⟩ : ∃ q, ps = [q] := by
    cases ps with
    | nil => simp at hps
    | cons q rest =>
      cases rest with
      | nil => exact ⟨q, rfl⟩
      | cons r _ => simp at hps
  subst hq
  simp only [List.map_cons, List.map_nil, List.cons.injEq, and_true] at hps
  have hp0 := hi.nonneg (tree, p) (List.mem_singleton.2 rfl)
  simp only [cost2, List.map_cons, List.map_nil, List.sum_cons, List.sum_nil, add_zero] at hc
  have hq0 : 0 ≤ q.1 * (q.2 : Int) := by
    rw [hps]
    exact mul_nonneg hp0 (Int.natCast_nonneg _)
  linarith

/-- The code of `buildEncodingMap(buildEncodingTree(table))` is prefix-free and
of least total encoded length among the prefix-free codes, for a table with a
symbol and fewer than 2^31 symbols whose counts are not negative and sum to
less than 2^31. -/
theorem huffman_optimal (k : Consts) (map : hashmapF) (hne : map.keys ≠ [])
    (hlen : map.keys.length < 2147483648)
    (hnd : map.keys.Nodup) (hsym : ∀ key ∈ map.keys, key ≠ k.NOT_A_CHAR)
    (hnn : ∀ e ∈ map.table, 0 ≤ e.2) (hsum : (map.table.map Prod.snd).sum < 2147483648) :
    ∃ tree, buildEncodingTree k map = some tree ∧
      PrefixFree map.keys (buildEncodingMap k tree).lookup ∧
      ∀ code : Int → List Bool, PrefixFree map.keys code →
        encodedLength map (buildEncodingMap k tree).lookup ≤ encodedLength map code := by
  obtain ⟨tree, he, hs, hp⟩ := buildEncodingTree_sumTree k map hne hlen
  have hsumeq : ((leafEntries tree).map Prod.snd).sum = (map.table.map Prod.snd).sum :=
    (hp.map Prod.snd).sum_eq
  obtain ⟨hsx, _⟩ := sumTree_exact k tree hs (fun e he2 => hnn e (hp.mem_iff.1 he2))
    (by rw [hsumeq]; exact hsum)
  have hkeys : map.table.map Prod.fst = map.keys := by
    simp only [hashmapF.table, List.map_map]
    exact List.map_id _
  have hleaves : (leaves tree).Perm map.keys := by
    rw [leaves_eq_leafEntries, ← hkeys]
    exact hp.map Prod.fst
  have hndl : (leaves tree).Nodup := hleaves.nodup_iff.2 hnd
  have hnel : ∀ s ∈ leaves tree, s ≠ k.NOT_A_CHAR := fun s hs2 =>
    hsym s (hleaves.mem_iff.1 hs2)
  have hcost : encodedLength map (buildEncodingMap k tree).lookup = tcost tree := by
    rw [encodedLength, ← codeCost_perm _ hp]
    have := codeCost_tree k tree hsx hndl hnel hashmapE.empty []
    simpa [buildEncodingMap] using this
  refine ⟨tree, he, ?_, ?_⟩
  · intro s1 h1 s2 h2
    exact buildEncodingMap_prefixFree k tree hs.good hndl hnel s1 (hleaves.mem_iff.2 h1) s2
      (hleaves.mem_iff.2 h2)
  · intro code hcode
    have hB : ∀ key ∈ map.keys,
        (code key).length ≤ (map.keys.map (fun key => (code key).length)).sum := by
      intro key hkey
      exact List.single_le_sum (fun _ _ => Nat.zero_le _) _
        (List.mem_map.2 ⟨key, hkey, rfl⟩)
    have hpw : (map.keys.map code).Pairwise Apart := by
      rw [List.pairwise_map]
      refine List.Pairwise.imp_of_mem ?_ hnd
      intro a b ha hb hab
      exact ⟨hcode a ha b hb hab, hcode b hb a ha (Ne.symm hab)⟩
    have hk := kraft_of_apart (map.keys.map (fun key => (code key).length)).sum
      (map.keys.map code) hpw (by
        intro c hc
        obtain ⟨key, hkey, e⟩ := List.mem_map.1 hc
        rw [← e]
        exact hB key hkey)
    rw [List.map_map] at hk
    obtain ⟨tree2, he2, hle⟩ := tcost_le_of_kraft k map hne hlen hnn hsum _
      (fun key => (code key).length) hB hk
    rw [he] at he2
    cases he2
    rw [hcost]
    exact hle

/-- C23, the counterexamples.  For the table of four symbols with the count
2^30 each, the code of `buildEncodingMap(buildEncodingTree(table))` has the
code lengths 3, 3, 2, 1 and the total encoded length 9 * 2^30, while the
prefix-free code with four bit strings of length 2 has 8 * 2^30: the sum of
the first two counts does not fit the `int` that holds it and is enqueued with
a negative priority.  For the table of 2147483648 symbols the tree is one leaf
and the symbols 0 and 1 get the same, empty, bit string, which is no
prefix-free code: the counter `int size` of the queue has wrapped when the
loop tests `pq.Size() > 1`. -/
theorem C23_overflowing_counts_are_not_optimal :
    (2 ≤ overflowTable.keys.length ∧
      PrefixFree overflowTable.keys flatCode ∧
      (buildEncodingTree stdConsts overflowTable).map (fun tree =>
        overflowTable.keys.map (fun s => ((buildEncodingMap stdConsts tree).lookup s).length)) =
        some [3, 3, 2, 1] ∧
      (buildEncodingTree stdConsts overflowTable).map (fun tree =>
        encodedLength overflowTable (buildEncodingMap stdConsts tree).lookup) =
        some 9663676416 ∧
      encodedLength overflowTable flatCode = 8589934592) ∧
    (2 ≤ manySymbols.keys.length ∧
      ∃ tree, buildEncodingTree stdConsts manySymbols = some tree ∧
        (buildEncodingMap stdConsts tree).lookup 0 = [] ∧
        (buildEncodingMap stdConsts tree).lookup 1 = [] ∧
        ¬ PrefixFree manySymbols.keys (buildEncodingMap stdConsts tree).lookup) := by
  refine ⟨⟨by decide, ?_, by decide, by decide, by decide⟩, ?_,
    ⟨_, manySymbols_tree stdConsts, by decide, by decide, ?_⟩⟩
  · unfold PrefixFree
    decide
  · rw [manySymbols_length]
    norm_num
  · intro hp
    refine hp 0 manySymbols_mem_zero 1 manySymbols_mem_one (by decide) ?_
    have h0 : (buildEncodingMap stdConsts (.node 0 1 .nullptr .nullptr)).lookup 0 = [] := by
      decide
    have h1 : (buildEncodingMap stdConsts (.node 0 1 .nullptr .nullptr)).lookup 1 = [] := by
      decide
    rw [h0, h1]

/-- C23, amended: for every frequency table with at least two and fewer than
2^31 symbols (keys that differ from one another and from the marker
`NOT_A_CHAR`) whose counts are not negative and sum to less than 2^31, the
code of `buildEncodingMap(buildEncodingTree(table))` is prefix-free on the
symbols of the table and its total encoded length, the sum over the symbols of
count times code length, is at most that of every prefix-free binary code for
these symbols. -/
theorem C23_huffman_code_is_optimal (k : Consts) (map : hashmapF)
    (h2 : 2 ≤ map.keys.length) (hlen : map.keys.length < 2147483648) (hnd : map.keys.Nodup)
    (hsym : ∀ key ∈ map.keys, key ≠ k.NOT_A_CHAR)
    (hnn : ∀ e ∈ map.table, 0 ≤ e.2) (hsum : (map.table.map Prod.snd).sum < 2147483648) :
    ∃ tree, buildEncodingTree k map = some tree ∧
      PrefixFree map.keys (buildEncodingMap k tree).lookup ∧
      ∀ code : Int → List Bool, PrefixFree map.keys code →
        encodedLength map (buildEncodingMap k tree).lookup ≤ encodedLength map code :=
  huffman_optimal k map (fun e => by rw [e] at h2; simp at h2) hlen hnd hsym hnn hsum

/-- C23, amended, witness: the table of the file `aab`. -/
theorem C23_huffman_code_is_optimal_witness :
    2 ≤ (⟨[(97, 2), (98, 1), (256, 1)]⟩ : hashmapF).keys.length ∧
    (⟨[(97, 2), (98, 1), (256, 1)]⟩ : hashmapF).keys.length < 2147483648 ∧
    (⟨[(97, 2), (98, 1), (256, 1)]⟩ : hashmapF).keys.Nodup ∧
    (∀ key ∈ (⟨[(97, 2), (98, 1), (256, 1)]⟩ : hashmapF).keys, key ≠ stdConsts.NOT_A_CHAR) ∧
    (∀ e ∈ (⟨[(97, 2), (98, 1), (256, 1)]⟩ : hashmapF).table, 0 ≤ e.2) ∧
    ((⟨[(97, 2), (98, 1), (256, 1)]⟩ : hashmapF).table.map Prod.snd).sum < 2147483648 ∧
    ∃ tree, buildEncodingTree stdConsts ⟨[(97, 2), (98, 1), (256, 1)]⟩ = some tree ∧
      PrefixFree (⟨[(97, 2), (98, 1), (256, 1)]⟩ : hashmapF).keys
        (buildEncodingMap stdConsts tree).lookup ∧
      ∀ code : Int → List Bool,
        PrefixFree (⟨[(97, 2), (98, 1), (256, 1)]⟩ : hashmapF).keys code →
        encodedLength ⟨[(97, 2), (98, 1), (256, 1)]⟩ (buildEncodingMap stdConsts tree).lookup ≤
          encodedLength ⟨[(97, 2), (98, 1), (256, 1)]⟩ code :=
  ⟨by decide, by decide, by decide, by decide, by decide, by decide,
    C23_huffman_code_is_optimal stdConsts ⟨[(97, 2), (98, 1), (256, 1)]⟩ (by decide) (by decide)
      (by decide) (by decide) (by decide) (by decide)⟩

/-- C2, the counterexample: for the table of 2147483648 symbols the tree of
`buildEncodingTree` is the one leaf of the symbol 0 (the counter `int size` of
the queue has wrapped when the loop tests `pq.Size() > 1`), so the map of
`buildEncodingMap` has no entry for the symbol 1, and the bit strings of the
two different symbols 0 and 1 are both empty. -/
theorem C2_many_symbols_share_a_bit_string :
    2 ≤ manySymbols.keys.length ∧ (0 : Int) ∈ manySymbols.keys ∧
    (1 : Int) ∈ manySymbols.keys ∧
    ∃ tree, buildEncodingTree stdConsts manySymbols = some tree ∧
      buildEncodingMap stdConsts tree 1 = none ∧
      (buildEncodingMap stdConsts tree).lookup 0 = (buildEncodingMap stdConsts tree).lookup 1 := by
  refine ⟨?_, manySymbols_mem_zero, manySymbols_mem_one, _, manySymbols_tree stdConsts,
    by decide, by decide⟩
  rw [manySymbols_length]
  norm_num

/-- C2, amended: for every frequency table with at least two and fewer than
2^31 symbols (keys that differ from one another and from the marker
`NOT_A_CHAR`), `buildEncodingTree` returns a tree and the map that
`buildEncodingMap` derives from it has an entry, a bit string that is not
empty, for every symbol of the table and for nothing else, and the bit strings
of two different symbols of the table are never a prefix of one another nor
equal. -/
theorem C2_encoding_map_prefix_free (k : Consts) (map : hashmapF)
    (h2 : 2 ≤ map.keys.length) (hlen : map.keys.length < 2147483648) (hnd : map.keys.Nodup)
    (hsym : ∀ key ∈ map.keys, key ≠ k.NOT_A_CHAR) :
    ∃ tree, buildEncodingTree k map = some tree ∧
      (∀ s ∈ map.keys, ∃ c, buildEncodingMap k tree s = some c ∧ c ≠ []) ∧
      (∀ s, s ∉ map.keys → buildEncodingMap k tree s = none) ∧
      ∀ s1 ∈ map.keys, ∀ s2 ∈ map.keys, s1 ≠ s2 →
        ∃ c1 c2, buildEncodingMap k tree s1 = some c1 ∧ buildEncodingMap k tree s2 = some c2 ∧
          ¬ c1 <+: c2 ∧ ¬ c2 <+: c1 ∧ c1 ≠ c2 := by
  have hne : map.keys ≠ [] := fun e => by rw [e] at h2; simp at h2
  obtain ⟨tree, he, hg0, hgood, hperm⟩ := buildEncodingTree_good k map hne hlen
  have hg : Good k tree := hgood hne
  have hndl : (leaves tree).Nodup := hperm.nodup_iff.2 hnd
  have hcode : ∀ s ∈ map.keys, ∃ p cnt, buildEncodingMap k tree s = some p ∧
      follow tree p = .node s cnt .nullptr .nullptr := by
    intro s hs
    obtain ⟨p, cnt, hp, hf⟩ := buildEncodingMap_leaf k tree hg hndl hashmapE.empty [] s
      (hperm.mem_iff.2 hs) (hsym s hs)
    exact ⟨p, cnt, by simpa [buildEncodingMap] using hp, hf⟩
  refine ⟨tree, he, ?_, ?_, ?_⟩
  · intro s hs
    obtain ⟨p, cnt, hp, hf⟩ := hcode s hs
    refine ⟨p, hp, ?_⟩
    intro e
    rw [e, follow_nil] at hf
    have hl : (leaves tree).length = 1 := by rw [hf]; simp [leaves]
    rw [hperm.length_eq] at hl
    omega
  · intro s hs
    have := buildEncodingMap_untouched k tree hg0 hashmapE.empty [] s
      (fun e => hs (hperm.mem_iff.1 e))
    simpa [buildEncodingMap, hashmapE.empty] using this
  · intro s1 h1 s2 h2 hs
    obtain ⟨p1, n1, hp1, hf1⟩ := hcode s1 h1
    obtain ⟨p2, n2, hp2, hf2⟩ := hcode s2 h2
    refine ⟨p1, p2, hp1, hp2, fun hp => hs (leaf_of_initial_segment hf1 hf2 hp),
      fun hp => hs (leaf_of_initial_segment hf2 hf1 hp).symm, ?_⟩
    intro e
    exact hs (leaf_of_initial_segment hf1 hf2 (e ▸ List.prefix_refl _))

/-- C2, amended, witness: the table of the file `aab`. -/
theorem C2_encoding_map_prefix_free_witness :
    2 ≤ (⟨[(97, 2), (98, 1), (256, 1)]⟩ : hashmapF).keys.length ∧
    (⟨[(97, 2), (98, 1), (256, 1)]⟩ : hashmapF).keys.length < 2147483648 ∧
    (⟨[(97, 2), (98, 1), (256, 1)]⟩ : hashmapF).keys.Nodup ∧
    (∀ key ∈ (⟨[(97, 2), (98, 1), (256, 1)]⟩ : hashmapF).keys, key ≠ stdConsts.NOT_A_CHAR) ∧
    ∃ tree, buildEncodingTree stdConsts ⟨[(97, 2), (98, 1), (256, 1)]⟩ = some tree ∧
      (∀ s ∈ (⟨[(97, 2), (98, 1), (256, 1)]⟩ : hashmapF).keys,
        ∃ c, buildEncodingMap stdConsts tree s = some c ∧ c ≠ []) ∧
      (∀ s, s ∉ (⟨[(97, 2), (98, 1), (256, 1)]⟩ : hashmapF).keys →
        buildEncodingMap stdConsts tree s = none) ∧
      ∀ s1 ∈ (⟨[(97, 2), (98, 1), (256, 1)]⟩ : hashmapF).keys,
        ∀ s2 ∈ (⟨[(97, 2), (98, 1), (256, 1)]⟩ : hashmapF).keys, s1 ≠ s2 →
        ∃ c1 c2, buildEncodingMap stdConsts tree s1 = some c1 ∧
          buildEncodingMap stdConsts tree s2 = some c2 ∧
          ¬ c1 <+: c2 ∧ ¬ c2 <+: c1 ∧ c1 ≠ c2 :=
  ⟨by decide, by decide, by decide, by decide,
    C2_encoding_map_prefix_free stdConsts ⟨[(97, 2), (98, 1), (256, 1)]⟩ (by decide) (by decide)
      (by decide) (by decide)⟩

/-- The map of the table of the file `aab`: the symbol 97 gets the bit string 0,
the symbols 98 and 256 get 10 and 11, and no other symbol has an entry. -/
theorem encoding_map_of_aab :
    (buildEncodingTree stdConsts ⟨[(97, 2), (98, 1), (256, 1)]⟩).map (fun tree =>
      [buildEncodingMap stdConsts tree 97, buildEncodingMap stdConsts tree 98,
        buildEncodingMap stdConsts tree 256, buildEncodingMap stdConsts tree 99]) =
    some [some [false], some [true, false], some [true, true], none] := by
  decide

theorem decodedWithin_initial (m : hashmapE) :
    ∀ (cs : List Int) (B : List Bool), decodedWithin m cs B <+: cs := by
  intro cs
  induction cs with
  | nil => intro B; exact List.prefix_refl _
  | cons c cs ih =>
    intro B
    simp only [decodedWithin]
    split_ifs
    · exact (List.prefix_cons_inj c).2 (ih _)
    · exact List.nil_prefix

/-- The loop of `decode` on bits that end inside the path to a leaf: no
character is added. -/
theorem decodeLoop_inside_path (k : Consts) (tree : HuffmanNode) :
    ∀ (B q : List Bool) (cur : HuffmanNode) (result : List Int) (x cx : Int), q ≠ [] →
      follow cur (B ++ q) = .node x cx .nullptr .nullptr →
      decodeLoop k tree B cur result = some result := by
  intro B
  induction B with
  | nil =>
    intro q cur result x cx hq hf
    rw [List.nil_append] at hf
    cases q with
    | nil => exact absurd rfl hq
    | cons b q2 =>
      cases cur with
      | nullptr => rw [follow_nullptr] at hf; cases hf
      | node ch c z o =>
        rw [follow_cons] at hf
        have hl : ¬ (z = .nullptr ∧ o = .nullptr) := by
          rintro ⟨ez, eo⟩
          rw [ez, eo] at hf
          cases b <;> simp [follow_nullptr] at hf
        simp only [decodeLoop, if_neg hl]
  | cons b B2 ih =>
    intro q cur result x cx hq hf
    cases cur with
    | nullptr => rw [follow_nullptr] at hf; cases hf
    | node ch c z o =>
      rw [List.cons_append, follow_cons] at hf
      have hl : ¬ (z = .nullptr ∧ o = .nullptr) := by
        rintro ⟨ez, eo⟩
        rw [ez, eo] at hf
        cases b <;> simp [follow_nullptr] at hf
      simp only [decodeLoop, if_neg hl]
      exact ih q _ result x cx hq hf

/-- The loop of `decode` at the leaf of a character: the character is added
and the walk starts again at the root. -/
theorem decodeLoop_restart (k : Consts) (rch rcnt : Int) (rz ro : HuffmanNode)
    (hroot : ¬ (rz = .nullptr ∧ ro = .nullptr)) (s cnt : Int) (hs : s ≠ k.PSEUDO_EOF)
    (B : List Bool) (result : List Int) :
    decodeLoop k (.node rch rcnt rz ro) B (.node s cnt .nullptr .nullptr) result =
      decodeLoop k (.node rch rcnt rz ro) B (.node rch rcnt rz ro) (result ++ [toChar s]) := by
  cases B with
  | nil => simp only [decodeLoop, and_self, if_true, if_neg hs, if_neg hroot]
  | cons b B2 => simp only [decodeLoop, and_self, if_true, if_neg hs, if_neg hroot]

/-- The loop of `decode` from the root over an initial segment `B` of the code
stream of the characters `cs` and the end-of-stream symbol: the result is the
characters whose bit strings lie within `B`. -/
theorem decodeLoop_within (k : Consts) (tree : HuffmanNode) (m : hashmapE)
    (rch rcnt : Int) (rz ro : HuffmanNode) (htree : tree = .node rch rcnt rz ro)
    (hroot : ¬ (rz = .nullptr ∧ ro = .nullptr))
    (hcode : ∀ s, s ∈ leaves tree → ∃ p cnt, m.lookup s = p ∧
      follow tree p = .node s cnt .nullptr .nullptr)
    (heof : k.PSEUDO_EOF ∈ leaves tree) :
    ∀ (cs : List Int), (∀ c ∈ cs, c ∈ leaves tree) → (∀ c ∈ cs, c ≠ k.PSEUDO_EOF) →
      ∀ (B : List Bool) (result : List Int), B <+: codes m cs ++ m.lookup k.PSEUDO_EOF →
        decodeLoop k tree B tree result =
          some (result ++ (decodedWithin m cs B).map toChar) := by
  intro cs
  induction cs with
  | nil =>
    intro _ _ B result hB
    obtain ⟨p, cx, hp, hf⟩ := hcode _ heof
    simp only [codes, List.nil_append, hp] at hB
    obtain ⟨q, hq⟩ := hB
    simp only [decodedWithin, List.map_nil, List.append_nil]
    by_cases hqn : q = []
    · subst hqn
      rw [List.append_nil] at hq
      subst hq
      have hw := decodeLoop_walk k tree B [] tree result _ cx .nullptr .nullptr hf
      rw [List.append_nil] at hw
      rw [hw, hf]
      simp only [decodeLoop, and_self, if_true]
    · exact decodeLoop_inside_path k tree B q tree result _ cx hqn (by rw [hq]; exact hf)
  | cons c cs ih =>
    intro hmem hne B result hB
    obtain ⟨p, cx, hp, hf⟩ := hcode c (hmem c (by simp))
    simp only [codes, List.append_assoc, hp] at hB
    by_cases hpB : p <+: B
    · obtain ⟨B2, hB2⟩ := hpB
      subst hB2
      have hB3 : B2 <+: codes m cs ++ m.lookup k.PSEUDO_EOF :=
        (List.prefix_append_right_inj p).1 hB
      rw [decodeLoop_walk k tree p B2 tree result c cx .nullptr .nullptr hf, hf]
      have hr := decodeLoop_restart k rch rcnt rz ro hroot c cx (hne c (by simp)) B2 result
      rw [← htree] at hr
      rw [hr, ih (fun y hy => hmem y (List.mem_cons_of_mem _ hy))
        (fun y hy => hne y (List.mem_cons_of_mem _ hy)) B2 _ hB3]
      simp only [decodedWithin, hp, if_pos (List.prefix_append p B2), List.drop_left,
        List.map_cons, List.append_assoc, List.singleton_append]
    · have hBp : B <+: p :=
        (List.prefix_or_prefix_of_prefix hB (List.prefix_append p _)).resolve_right hpB
      obtain ⟨q, hq⟩ := hBp
      have hqn : q ≠ [] := by
        intro e
        subst e
        rw [List.append_nil] at hq
        exact hpB (hq ▸ List.prefix_refl _)
      rw [decodeLoop_inside_path k tree B q tree result c cx hqn (by rw [hq]; exact hf)]
      simp only [decodedWithin, hp, if_neg hpB, List.map_nil, List.append_nil]

/-- The function `decode` on an initial segment `B` of the code stream of the
characters of `S` and the end-of-stream symbol, for the tree of a table that
holds the characters of `S` and the end-of-stream symbol: the result is the
characters of `S` whose bit strings lie within `B`. -/
theorem decode_within (k : Consts)
    (hE : k.PSEUDO_EOF < -128 ∨ 127 < k.PSEUDO_EOF)
    (hN : k.NOT_A_CHAR < -128 ∨ 127 < k.NOT_A_CHAR)
    (hNE : k.NOT_A_CHAR ≠ k.PSEUDO_EOF)
    (S : List (Fin 256)) (map : hashmapF) (htab : TableOf k S map) :
    ∃ tree, buildEncodingTree k map = some tree ∧
      ∀ B : List Bool, B <+: codes (buildEncodingMap k tree) (chars S) ++
          (buildEncodingMap k tree).lookup k.PSEUDO_EOF →
        decode k B tree = some (decodedWithin (buildEncodingMap k tree) (chars S) B) := by
  obtain ⟨tree, he, _, hgood, hperm⟩ := buildEncodingTree_good k map htab.keys_ne_nil
    (lt_of_le_of_lt htab.keys_length (by decide))
  have hg : Good k tree := hgood htab.keys_ne_nil
  refine ⟨tree, he, ?_⟩
  have hnd : (leaves tree).Nodup := hperm.nodup_iff.2 htab.nodup
  have hcharNE : ∀ x : Int, toChar x ≠ k.PSEUDO_EOF := by
    intro x e
    have := toChar_range x
    rw [e] at this
    omega
  have hleafNot : ∀ s ∈ leaves tree, s ≠ k.NOT_A_CHAR := by
    intro s hs e
    rcases htab.sub s (hperm.mem_iff.1 hs) with e2 | ⟨b, _, e2⟩
    · exact hNE (e ▸ e2)
    · have := toChar_range b.val
      rw [← e2, e] at this
      omega
  have hcode : ∀ s, s ∈ leaves tree → ∃ p cnt, (buildEncodingMap k tree).lookup s = p ∧
      follow tree p = .node s cnt .nullptr .nullptr := by
    intro s hs
    obtain ⟨p, cnt, hp, hf⟩ := buildEncodingMap_leaf k tree hg hnd hashmapE.empty [] s hs
      (hleafNot s hs)
    refine ⟨p, cnt, ?_, hf⟩
    simp only [hashmapE.lookup, buildEncodingMap, hp, List.nil_append, Option.getD_some]
  have heofL : k.PSEUDO_EOF ∈ leaves tree := hperm.mem_iff.2 htab.eof
  intro B hB
  simp only [decode]
  cases S with
  | nil =>
    obtain ⟨p, cnt, hp, hf⟩ := hcode _ heofL
    simp only [chars, List.map_nil, codes, List.nil_append, hp] at hB
    have hkeys : ∀ x ∈ leaves tree, x = k.PSEUDO_EOF := by
      intro x hx
      rcases htab.sub x (hperm.mem_iff.1 hx) with e | ⟨b, hb, _⟩
      · exact e
      · simp at hb
    cases tree with
    | nullptr => exact absurd hg (by simp [Good])
    | node ch c z o =>
      rcases hg with ⟨ez, eo⟩ | ⟨_, gz, go⟩
      · subst ez; subst eo
        have hch : ch = k.PSEUDO_EOF := hkeys ch (by simp [leaves])
        cases p with
        | nil =>
          have hBn : B = [] := List.prefix_nil.1 hB
          subst hBn
          simp [decodeLoop, hch, chars, decodedWithin]
        | cons b bs =>
          rw [follow_cons] at hf
          cases b <;> simp [follow_nullptr] at hf
      · exfalso
        rw [leaves_good_node gz] at hnd hkeys
        obtain ⟨a, ha⟩ := List.exists_mem_of_ne_nil _ (leaves_ne_nil z gz)
        obtain ⟨b, hb⟩ := List.exists_mem_of_ne_nil _ (leaves_ne_nil o go)
        have e1 := hkeys a (List.mem_append_left _ ha)
        have e2 := hkeys b (List.mem_append_right _ hb)
        exact (List.nodup_append.1 hnd).2.2 ha (e1.trans e2.symm ▸ hb)
  | cons b0 rest =>
    have hc0 : toChar b0.val ∈ leaves tree := hperm.mem_iff.2 (htab.chars b0 (by simp))
    cases htree : tree with
    | nullptr => rw [htree] at hg; exact absurd hg (by simp [Good])
    | node rch rcnt rz ro =>
      have hroot : ¬ (rz = .nullptr ∧ ro = .nullptr) := by
        rintro ⟨ez, eo⟩
        rw [htree, ez, eo] at hc0 heofL
        simp only [leaves, and_self, if_true, List.mem_singleton] at hc0 heofL
        exact hcharNE _ (hc0.trans heofL.symm)
      rw [← htree]
      have hw := decodeLoop_within k tree (buildEncodingMap k tree) rch rcnt rz ro htree hroot
        hcode heofL (chars (b0 :: rest))
        (fun c hc => by
          obtain ⟨b, hb, e⟩ := List.mem_map.1 hc
          rw [← e]
          exact hperm.mem_iff.2 (htab.chars b hb))
        (fun c hc => by
          obtain ⟨b, _, e⟩ := List.mem_map.1 hc
          rw [← e]
          exact hcharNE _)
        B [] hB
      rw [hw, List.nil_append]
      congr 1
      have hid : ∀ x ∈ decodedWithin (buildEncodingMap k tree) (chars (b0 :: rest)) B,
          toChar x = x := by
        intro x hx
        obtain ⟨b, _, e⟩ := List.mem_map.1
          ((decodedWithin_initial _ _ B).subset hx)
        rw [← e]
        exact toChar_idem _
      calc (decodedWithin (buildEncodingMap k tree) (chars (b0 :: rest)) B).map toChar
          = (decodedWithin (buildEncodingMap k tree) (chars (b0 :: rest)) B).map id :=
            List.map_congr_left hid
        _ = _ := List.map_id _

/-- C13: for every byte sequence `S`, with the tree and the encoding map of its
frequency table, and every initial segment `B` of the bits that `encode`
writes for `S`, `decode` applied to `B` returns a result (it raises no error
and follows no absent branch, which the embedding answers with `none`); the
result is the symbols decoded before the input ran out, that is the
characters of `S` before the first byte 255 whose bit strings, one after the
other, lie within `B`, and so an initial segment of the characters of `S`; on
all the bits the result is the characters before the first byte 255.  The
end-of-stream symbol and the marker are taken outside the range of `char` and
different. -/
theorem C13_decode_of_truncated_bits (k : Consts)
    (hE : k.PSEUDO_EOF < -128 ∨ 127 < k.PSEUDO_EOF)
    (hN : k.NOT_A_CHAR < -128 ∨ 127 < k.NOT_A_CHAR)
    (hNE : k.NOT_A_CHAR ≠ k.PSEUDO_EOF)
    (S : List (Fin 256)) :
    ∃ tree, buildEncodingTree k (buildFrequencyMap k S true ⟨[]⟩) = some tree ∧
      decode k (encode k S (buildEncodingMap k tree) 0 true).written tree =
        some (chars (readable S)) ∧
      ∀ B : List Bool, B <+: (encode k S (buildEncodingMap k tree) 0 true).written →
        decode k B tree =
          some (decodedWithin (buildEncodingMap k tree) (chars (readable S)) B) ∧
        decodedWithin (buildEncodingMap k tree) (chars (readable S)) B <+: chars S := by
  have htab := buildFrequencyMap_table k (readable S) (readable_ne S)
  obtain ⟨tree, he, _, hd⟩ := decode_code_stream k hE hN hNE (readable S) _ htab []
  obtain ⟨tree2, he2, hin⟩ := decode_within k hE hN hNE (readable S) _ htab
  rw [he] at he2
  cases he2
  have hw : (encode k S (buildEncodingMap k tree) 0 true).written =
      codes (buildEncodingMap k tree) (chars (readable S)) ++
        (buildEncodingMap k tree).lookup k.PSEUDO_EOF := by
    have : (encode k S (buildEncodingMap k tree) 0 true).written =
        (encode k S (buildEncodingMap k tree) 0 true).bits := rfl
    rw [this, encode_bits]
  rw [List.append_nil, ← hw] at hd
  refine ⟨tree, by rw [buildFrequencyMap_readable k S]; exact he, hd, ?_⟩
  intro B hB
  rw [hw] at hB
  refine ⟨hin B hB, (decodedWithin_initial _ _ B).trans ?_⟩
  obtain ⟨t, ht⟩ := readable_initial S
  refine ⟨chars t, ?_⟩
  simp only [chars]
  rw [← List.map_append, ht]

/-- C13, witness: the file with the content `aab` and the constants of the
course library. -/
theorem C13_decode_of_truncated_bits_witness :
    (stdConsts.PSEUDO_EOF < -128 ∨ 127 < stdConsts.PSEUDO_EOF) ∧
    (stdConsts.NOT_A_CHAR < -128 ∨ 127 < stdConsts.NOT_A_CHAR) ∧
    stdConsts.NOT_A_CHAR ≠ stdConsts.PSEUDO_EOF ∧
    ∃ tree, buildEncodingTree stdConsts (buildFrequencyMap stdConsts [97, 97, 98] true ⟨[]⟩) =
        some tree ∧
      decode stdConsts (encode stdConsts [97, 97, 98] (buildEncodingMap stdConsts tree) 0
        true).written tree = some (chars (readable [97, 97, 98])) ∧
      ∀ B : List Bool,
        B <+: (encode stdConsts [97, 97, 98] (buildEncodingMap stdConsts tree) 0 true).written →
        decode stdConsts B tree =
          some (decodedWithin (buildEncodingMap stdConsts tree)
            (chars (readable [97, 97, 98])) B) ∧
        decodedWithin (buildEncodingMap stdConsts tree) (chars (readable [97, 97, 98])) B <+:
          chars [97, 97, 98] :=
  ⟨by decide, by decide, by decide,
    C13_decode_of_truncated_bits stdConsts (by decide) (by decide) (by decide) [97, 97, 98]⟩

/-- The file with the content `aab`: `encode` writes the bits 0 0 1 0 1 1, and
`decode` applied to their initial segments of length 0 to 6 returns nothing,
a, aa, aa, aab, aab and aab. -/
theorem decode_of_truncated_aab :
    (buildEncodingTree stdConsts (buildFrequencyMap stdConsts [97, 97, 98] true ⟨[]⟩)).map
      (fun tree =>
        ((encode stdConsts [97, 97, 98] (buildEncodingMap stdConsts tree) 0 true).written,
          (List.range 7).map (fun n => decode stdConsts
            ((encode stdConsts [97, 97, 98] (buildEncodingMap stdConsts tree) 0 true).written.take
              n) tree))) =
      some ([false, false, true, false, true, true],
        [some [], some [97], some [97, 97], some [97, 97], some [97, 97, 98],
          some [97, 97, 98], some [97, 97, 98]]) := by
  decide

end Huffman

namespace PQ

variable {T : Type}

theorem Abs.run_guarded [DefaultInit T] :
    ∀ (ops : List (Op T)) {h : Heap T} {q : priorityqueue} {l : List (T × Int)} (out : List T),
      Abs false h q l → guarded l ops = true →
      ∃ h2 q2 out2, PQ.run ops h q out = some (h2, q2, out2) ∧
        Abs false h2 q2 (ops.foldl specStep l) := by
  intro ops
  induction ops with
  | nil => intro h q l out ha _; exact ⟨h, q, out, rfl, ha⟩
  | cons o ops ih =>
    intro h q l out ha hg
    cases o with
    | enqueue v p =>
      obtain ⟨h1, q1, he, ha1, _⟩ := ha.enqueue_abs v p
      obtain ⟨h2, q2, out2, hr, ha2⟩ := ih out ha1 hg
      exact ⟨h2, q2, out2, by simp only [PQ.run, he, Option.some_bind, hr], ha2⟩
    | dequeue =>
      simp only [guarded, Bool.and_eq_true, Bool.not_eq_true', List.isEmpty_eq_false] at hg
      cases hf : firstMin l with
      | none => exact absurd (firstMin_eq_none hf) hg.1
      | some x =>
        obtain ⟨h1, q1, he, ha1, _⟩ := ha.dequeue_abs x hf
        obtain ⟨h2, q2, out2, hr, ha2⟩ := ih (out ++ [x.1]) ha1 hg.2
        exact ⟨h2, q2, out2, by simp only [PQ.run, he, Option.some_bind, hr], ha2⟩

/-- For every value type, also one that `T valueOut;` leaves uninitialised (a
pointer): in every state reached from the empty queue by enqueue and dequeue
calls none of which is a `dequeue` on the empty queue, and in which an element
is stored, `peek` and `dequeue` return the value of the stored element that
comes first in arrival order among those of least priority. -/
theorem dequeue_earliest_minimum_guarded [DefaultInit T] (ops : List (Op T))
    (hg : guarded [] ops = true) (hne : stored ops ≠ []) :
    ∃ h q outs v p pre post q1 h2 q2,
      run ops Heap.empty priorityqueue.new [] = some (h, q, outs) ∧
      peek h q = some (v, q1) ∧
      dequeue h q = some (v, h2, q2) ∧
      stored ops = pre ++ (v, p) :: post ∧
      (∀ y ∈ stored ops, p ≤ y.2) ∧
      (∀ y ∈ pre, p < y.2) ∧
      stored (ops ++ [Op.dequeue]) = pre ++ post := by
  obtain ⟨h, q, outs, hr, ha⟩ := Abs.run_guarded ops [] (Abs.new false) hg
  cases hf : firstMin (stored ops) with
  | none => exact absurd (firstMin_eq_none hf) hne
  | some x =>
    have ha2 : Abs false h q (stored ops) := ha
    obtain ⟨h2, q2, he, _⟩ := ha2.dequeue_abs x hf
    obtain ⟨pre, post, hl, hpre, hpost, hrem⟩ := firstMin_split hf
    obtain ⟨g, hi, hgl⟩ := ha2
    have hmin : g.minElem = some x := by
      rw [GT.minElem_eq_head, hgl]
      exact (stableSort_head _).trans hf
    obtain ⟨cu, hp⟩ := peek_spec hi x hmin
    refine ⟨h, q, outs, x.1, x.2, pre, post, _, h2, q2, hr, hp, he, hl, ?_, hpre, ?_⟩
    · intro y hy
      rw [hl] at hy
      rcases List.mem_append.1 hy with e | e
      · exact le_of_lt (hpre y e)
      · rcases List.mem_cons.1 e with e | e
        · subst e; exact le_refl _
        · exact hpost y e
    · rw [stored_append]; exact hrem

/-- The queue of `HuffmanNode*` after the calls of `buildEncodingTree` for
three leaves and one merge. -/
theorem dequeue_order_of_a_queue_of_trees :
    ∃ h q outs v p pre post q1 h2 q2,
      run [Op.enqueue (Huffman.HuffmanNode.node 97 2 .nullptr .nullptr) 2,
          Op.enqueue (Huffman.HuffmanNode.node 98 1 .nullptr .nullptr) 1,
          Op.enqueue (Huffman.HuffmanNode.node 256 1 .nullptr .nullptr) 1, Op.dequeue]
        Heap.empty priorityqueue.new [] = some (h, q, outs) ∧
      peek h q = some (v, q1) ∧
      dequeue h q = some (v, h2, q2) ∧
      stored [Op.enqueue (Huffman.HuffmanNode.node 97 2 .nullptr .nullptr) 2,
          Op.enqueue (Huffman.HuffmanNode.node 98 1 .nullptr .nullptr) 1,
          Op.enqueue (Huffman.HuffmanNode.node 256 1 .nullptr .nullptr) 1, Op.dequeue] =
        pre ++ (v, p) :: post ∧
      (∀ y ∈ stored [Op.enqueue (Huffman.HuffmanNode.node 97 2 .nullptr .nullptr) 2,
          Op.enqueue (Huffman.HuffmanNode.node 98 1 .nullptr .nullptr) 1,
          Op.enqueue (Huffman.HuffmanNode.node 256 1 .nullptr .nullptr) 1, Op.dequeue],
        p ≤ y.2) ∧
      (∀ y ∈ pre, p < y.2) ∧
      stored ([Op.enqueue (Huffman.HuffmanNode.node 97 2 .nullptr .nullptr) 2,
          Op.enqueue (Huffman.HuffmanNode.node 98 1 .nullptr .nullptr) 1,
          Op.enqueue (Huffman.HuffmanNode.node 256 1 .nullptr .nullptr) 1, Op.dequeue] ++
        [Op.dequeue]) = pre ++ post :=
  dequeue_earliest_minimum_guarded _ (by decide) (by decide)

/-- For every value type: in every state reached from the empty queue by
enqueue and dequeue calls none of which is a `dequeue` on the empty queue,
every primary node is allocated and the ordering invariant holds at it. -/
theorem ordering_invariant_guarded [DefaultInit T] (ops : List (Op T))
    (hg : guarded [] ops = true) :
    ∃ h q outs, run ops Heap.empty priorityqueue.new [] = some (h, q, outs) ∧
      ∀ N, Primary h q.root N → ∃ n, h.cells N = some n ∧ OrderedAt h n := by
  obtain ⟨h, q, outs, hr, g, hi, _⟩ := Abs.run_guarded ops [] (Abs.new false) hg
  refine ⟨h, q, outs, hr, fun N hN => ?_⟩
  rw [hi.root] at hN
  exact Rep.orderedAt g _ N hi.rep hi.ordered hN

end PQ
